import Mathlib

/-!
Verification of the wxlib msgpack codec (`msgpack.hpp`) and the matchit
pattern-matching engine (`matchit.hpp`) against their natural-language
specification.  The C++ sources are shallowly embedded: machine integers
become `Nat`/`Int` with explicit `% 2^w` where overflow matters, the
byte buffer of the `Packer` becomes a `List Nat`, and the `Unpacker`
cursor becomes an explicit position into a `List Nat`.
-/

namespace Msgpack

/-- `enum class UnpackerError` in msgpack.hpp. -/
inductive UnpackerError where
  | outOfRange
  | integerOverflow
  | dataNotMatchType
  | badStdArraySize
deriving DecidableEq, Repr

/-- `enum class PackerError` in msgpack.hpp. -/
inductive PackerError where
  | lengthError
deriving DecidableEq, Repr

/-- The `Packer` object: the sticky `std::error_code ec` field and the
`m_serialized_object` byte buffer.  Bytes are `Nat` values kept below 256
by construction (each emitted byte is reduced mod 256 where the source
performs a `uint8_t` cast). -/
structure Packer where
  ec : Option PackerError
  buf : List Nat
deriving DecidableEq, Repr

/-- A freshly constructed `Packer{}`. -/
def Packer.init : Packer := ⟨none, []⟩

/-- Byte `i` (little-endian index) of a machine word, as computed by
`uint8_t(value >> 8U * i)` in the source. -/
def byteAt (u : Nat) (i : Nat) : Nat := u / 2 ^ (8 * i) % 256

/-- The significant-byte counting loop of `Packer::pack_type<MsgPackIntegral>`:
`for (l_nbytes = 8; l_nbytes > 1; --l_nbytes) if (uint8_t(l_value >> 8U * (l_nbytes - 1)) != 0) break;`.
`sigBytesAux u n` is the loop with counter starting at `n`. -/
def sigBytesAux (u : Nat) : Nat → Nat
  | 0 => 1
  | 1 => 1
  | n + 1 => if byteAt u n ≠ 0 then n + 1 else sigBytesAux u n

/-- Number of significant bytes of a 64-bit word, per the source loop. -/
def sigBytes (u : Nat) : Nat := sigBytesAux u 8

/-- Big-endian byte emission loop
`for (auto i = l_nbytes; i > 0; --i) emplace_back(uint8_t(l_value >> (8U * (i - 1)) & 0xFFL));`. -/
def bytesBE (u : Nat) : Nat → List Nat
  | 0 => []
  | n + 1 => byteAt u n :: bytesBE u n

/-- `uint8_t(a_value & m)` for a mask `m < 256` applied to a (possibly
negative) integral value: two's-complement bitwise AND confined to the low
byte, i.e. the AND of the value's low byte with the mask. -/
def lowByteAnd (v : Int) (m : Nat) : Nat := (v % 256).toNat &&& m

/-- The byte list emitted by `Packer::pack_type<MsgPackIntegral>` for a value
`v` of an integral type with signedness `sg` and byte width `w`.
`l_value = uint64_t(make_unsigned_t<T>(a_value))` is the two's-complement
word `v mod 2^(8w)` zero-extended to 64 bits. -/
def encIntegral (sg : Bool) (w : Nat) (v : Int) : List Nat :=
  let lval : Nat := (v % (2 ^ (8 * w))).toNat
  let s := sigBytes lval
  if s > 4 then (if sg then 0xD3 else 0xCF) :: bytesBE lval 8
  else if s > 2 then (if sg then 0xD2 else 0xCE) :: bytesBE lval 4
  else if s > 1 then (if sg then 0xD1 else 0xCD) :: bytesBE lval 2
  else if lowByteAnd v 0x80 = 0 ∨ lowByteAnd v 0xE0 = 0xE0 then
    [(v % 256).toNat]
  else (if sg then 0xD0 else 0xCC) :: bytesBE lval 1

/-- `Packer::pack_type<MsgPackIntegral>`: sticky-error guard, then append the
encoding of the value (the `emplace_back` sequence expressed as one list
append). -/
def packIntegral (sg : Bool) (w : Nat) (v : Int) (p : Packer) : Packer :=
  if p.ec.isSome then p else { p with buf := p.buf ++ encIntegral sg w v }

/-- `Packer::pack_type<bool>`. -/
def packBool (b : Bool) (p : Packer) : Packer :=
  if p.ec.isSome then p else
  { p with buf := p.buf ++ [if b then 0xC3 else 0xC2] }

/-- `Packer::pack_type<std::nullptr_t>`. -/
def packNil (p : Packer) : Packer :=
  if p.ec.isSome then p else { p with buf := p.buf ++ [0xC0] }

/-- Header bytes of `Packer::pack_type<MsgPackStringOrBinary>` for a payload
of length `len`; `none` signals the `LengthError` branch.  `tagBase` is
`str8` (0xD9) for strings and `bin8` (0xC4) for binary. -/
def encStrHeader (isStr : Bool) (len : Nat) : Option (List Nat) :=
  let tagBase := if isStr then 0xD9 else 0xC4
  if isStr ∧ len < 32 then some [(len % 256) ||| 0xA0]
  else if len < 255 then some (tagBase :: bytesBE len 1)
  else if len < 65535 then some ((tagBase + 1) :: bytesBE len 2)
  else if len < 4294967295 then some ((tagBase + 2) :: bytesBE len 4)
  else none

/-- `Packer::pack_type<MsgPackStringOrBinary>`: header then raw payload
bytes (each one `uint8_t`-cast).  On `LengthError` the function returns
before emitting any payload. -/
def packStrOrBin (isStr : Bool) (s : List Nat) (p : Packer) : Packer :=
  if p.ec.isSome then p else
  match encStrHeader isStr s.length with
  | none => { p with ec := some .lengthError }
  | some h => { p with buf := p.buf ++ h ++ s.map (· % 256) }

/-- Header bytes of `Packer::pack_type<MsgPackArrayOrMap>` for a collection
of size `len`; `none` signals the `LengthError` branch.  For sizes below 16
the single header byte is `size | mask` with mask `0b10000000` (fixmap) or
`0b10010000` (fixarray). -/
def encSeqHeader (isMap : Bool) (len : Nat) : Option (List Nat) :=
  let tag := if isMap then 0xDE else 0xDC
  let mask := if isMap then 0x80 else 0x90
  if len < 16 then some [(len ||| mask) % 256]
  else if len < 65535 then some (tag :: bytesBE len 2)
  else if len < 4294967295 then some ((tag + 1) :: bytesBE len 4)
  else none

/-- The value categories exercised by the codec claims: integral types of
every width and signedness, booleans, nil, strings, binary blobs, and
homogeneous arrays and maps.  `Ty` is the static (destination) type that
drives `Unpacker::unpack_type` dispatch. -/
inductive Ty where
  | tint (sg : Bool) (w : Nat)
  | tbool
  | tnil
  | tstr
  | tbin
  | tarr (t : Ty)
  | tmap (kt vt : Ty)
deriving DecidableEq, Repr

/-- Typed values fed to `Packer::pack_type`.  Arrays carry their element
type and maps their key/value types so that the unpacking direction is
type-directed exactly like the C++ template dispatch. -/
inductive Value where
  | vint (sg : Bool) (w : Nat) (v : Int)
  | vbool (b : Bool)
  | vnil
  | vstr (s : List Nat)
  | vbin (s : List Nat)
  | varr (t : Ty) (elems : List Value)
  | vmap (kt vt : Ty) (entries : List (Value × Value))

/-- The static type of a value. -/
def tyOf : Value → Ty
  | .vint sg w _ => .tint sg w
  | .vbool _ => .tbool
  | .vnil => .tnil
  | .vstr _ => .tstr
  | .vbin _ => .tbin
  | .varr t _ => .tarr t
  | .vmap kt vt _ => .tmap kt vt

mutual

/-- `Packer::pack_type` dispatch over the modeled value categories. -/
def packValue : Value → Packer → Packer
  | .vint sg w v, p => packIntegral sg w v p
  | .vbool b, p => packBool b p
  | .vnil, p => packNil p
  | .vstr s, p => packStrOrBin true s p
  | .vbin s, p => packStrOrBin false s p
  | .varr _ es, p =>
    if p.ec.isSome then p else
    match encSeqHeader false es.length with
    | none => { p with ec := some .lengthError }
    | some h => packList es { p with buf := p.buf ++ h }
  | .vmap _ _ en, p =>
    if p.ec.isSome then p else
    match encSeqHeader true en.length with
    | none => { p with ec := some .lengthError }
    | some h => packEntries en { p with buf := p.buf ++ h }

/-- `for (const auto &el : a_value) pack_type(el);` -/
def packList : List Value → Packer → Packer
  | [], p => p
  | v :: vs, p => packList vs (packValue v p)

/-- `for (const auto &el : a_value) pack_type(std::get<0>(el)), pack_type(std::get<1>(el));` -/
def packEntries : List (Value × Value) → Packer → Packer
  | [], p => p
  | (k, v) :: es, p => packEntries es (packValue v (packValue k p))

end

/-! ## The Unpacker -/

/-- The `Unpacker` object: the byte buffer `[m_begin, m_end)` as an
immutable list plus the read cursor `pos` (offset of `m_begin` from the
buffer start) and the sticky `ec` field.  The C++ `next` can move
`m_begin` one past `m_end`, hence `pos` may reach `data.length + 1`. -/
structure Unp where
  data : List Nat
  pos : Nat
  ec : Option UnpackerError
deriving DecidableEq, Repr

/-- `Unpacker{a_start, a_size}` over a byte buffer. -/
def Unp.init (d : List Nat) : Unp := ⟨d, 0, none⟩

/-- `current_byte()`: bounds-checked read that does not advance; on
exhaustion assigns `OutOfRange` and yields 0. -/
def currentByte (u : Unp) : Nat × Unp :=
  if u.pos < u.data.length then (u.data.getD u.pos 0, u)
  else (0, { u with ec := some .outOfRange })

/-- `next(bytes)`: advances the cursor when `m_end - m_begin >= 0`
(i.e. `pos ≤ length`), otherwise assigns `OutOfRange`. -/
def next (k : Nat) (u : Unp) : Unp :=
  if u.pos ≤ u.data.length then { u with pos := u.pos + k }
  else { u with ec := some .outOfRange }

/-- The big-endian payload loop of `unpack_type<MsgPackIntegral>`:
`for (auto i = l_nbytes; i > 0; --i) { l_value64 |= uint64_t(current_byte()) << 8U * (i - 1); next(); }`. -/
def rdBE : Nat → Unp → Nat × Unp
  | 0, u => (0, u)
  | n + 1, u =>
    let (b, u1) := currentByte u
    let u2 := next 1 u1
    let (rest, u3) := rdBE n u2
    (b <<< (8 * n) ||| rest, u3)

/-- The big-endian length-field loop of the string/array size readers:
`l_sz += uint32_t(current_byte()) << 8 * (i - 1); next();`. -/
def rdSZ : Nat → Unp → Nat × Unp
  | 0, u => (0, u)
  | n + 1, u =>
    let (b, u1) := currentByte u
    let u2 := next 1 u1
    let (rest, u3) := rdSZ n u2
    (b * 2 ^ (8 * n) + rest, u3)

/-- Sign/width interpretation of `T(l_value64)`: the 64-bit accumulator is
converted to the destination type by truncation mod `2^(8w)`, reinterpreted
as two's complement when the destination is signed. -/
def toTyped (sg : Bool) (w : Nat) (n : Nat) : Int :=
  let r := n % 2 ^ (8 * w)
  if sg ∧ 2 ^ (8 * w - 1) ≤ r then (r : Int) - 2 ^ (8 * w) else (r : Int)

/-- `Unpacker::unpack_type<MsgPackIntegral>` for a destination of
signedness `sg` and byte width `w`; `dest` is the caller-supplied value
(`a_value`), returned unchanged when no assignment happens. -/
def unpackIntegral (sg : Bool) (w : Nat) (dest : Int) (u : Unp) : Int × Unp :=
  if u.ec.isSome then (dest, u) else
  let (b, u0) := currentByte u
  let step : Nat × Int × Unp :=
    if b = 0xD3 ∨ b = 0xCF then
      if w < 8 then (0, dest, { u0 with ec := some .integerOverflow }) else (8, dest, u0)
    else if b = 0xD2 ∨ b = 0xCE then
      if w < 4 then (0, dest, { u0 with ec := some .integerOverflow }) else (4, dest, u0)
    else if b = 0xD1 ∨ b = 0xCD then
      if w < 2 then (0, dest, { u0 with ec := some .integerOverflow }) else (2, dest, u0)
    else if b = 0xD0 ∨ b = 0xCC then
      if w < 1 then (0, dest, { u0 with ec := some .integerOverflow }) else (1, dest, u0)
    else if b &&& 0x80 = 0 ∨ b &&& 0xE0 = 0xE0 then (0, toTyped sg w b, u0)
    else (0, dest, { u0 with ec := some .dataNotMatchType })
  let (nb, d1, u1) := step
  let u2 := next 1 u1
  if nb > 0 then
    let (acc, u3) := rdBE nb u2
    (toTyped sg w acc, u3)
  else (d1, u2)

/-- `Unpacker::unpack_type<bool>`: `a_value = current_byte() != 0xC2; next();`. -/
def unpackBool (dest : Bool) (u : Unp) : Bool × Unp :=
  if u.ec.isSome then (dest, u) else
  let (b, u1) := currentByte u
  (decide (b ≠ 0xC2), next 1 u1)

/-- `Unpacker::unpack_type<std::nullptr_t>`: consumes one position without
reading a byte. -/
def unpackNil (u : Unp) : Unp :=
  if u.ec.isSome then u else next 1 u

/-- The `l_size` lambda of `unpack_type<MsgPackStringOrBinary>`: tag
dispatch over str8/16/32 and bin8/16/32, low 5 bits for fixstr. -/
def readSizeStr (u : Unp) : Nat × Unp :=
  let (b, u0) := currentByte u
  let nb : Nat :=
    if b = 0xDB ∨ b = 0xC6 then 4
    else if b = 0xDA ∨ b = 0xC5 then 2
    else if b = 0xD9 ∨ b = 0xC4 then 1
    else 0
  if nb > 0 then rdSZ nb (next 1 u0)
  else
    let (b2, u1) := currentByte u0
    (b2 &&& 0x1F, next 1 u1)

/-- The `l_size` lambda of `unpack_type<MsgPackArrayOrMap>`: tag dispatch
over array16/32 and map16/32, low 4 bits for fixarray/fixmap. -/
def readSizeArr (u : Unp) : Nat × Unp :=
  let (b, u0) := currentByte u
  let nb : Nat :=
    if b = 0xDD ∨ b = 0xDF then 4
    else if b = 0xDC ∨ b = 0xDE then 2
    else 0
  if nb > 0 then rdSZ nb (next 1 u0)
  else
    let (b2, u1) := currentByte u0
    (b2 &&& 0x0F, next 1 u1)

/-- `Unpacker::unpack_type<MsgPackStringOrBinary>`: size header, then
`if (m_begin + l_size <= m_end) { a_value = T{m_begin, m_begin + l_size}; next(l_size); } else ec = OutOfRange;`. -/
def unpackStrOrBin (dest : List Nat) (u : Unp) : List Nat × Unp :=
  if u.ec.isSome then (dest, u) else
  let (sz, u1) := readSizeStr u
  if u1.pos + sz ≤ u1.data.length then
    ((u1.data.drop u1.pos).take sz, next sz u1)
  else (dest, { u1 with ec := some .outOfRange })

/-- `typename T::value_type l_value{}` / `typename T::key_type l_key{}`:
the value-initialized element of each modeled type. -/
def defaultValue : Ty → Value
  | .tint sg w => .vint sg w 0
  | .tbool => .vbool false
  | .tnil => .vnil
  | .tstr => .vstr []
  | .tbin => .vbin []
  | .tarr t => .varr t []
  | .tmap kt vt => .vmap kt vt []

/-- Projection of the payload a destination of the given shape carries. -/
def Value.intVal : Value → Int
  | .vint _ _ v => v
  | _ => 0

def Value.boolVal : Value → Bool
  | .vbool b => b
  | _ => false

def Value.bytesVal : Value → List Nat
  | .vstr s => s
  | .vbin s => s
  | _ => []

def Value.arrElems : Value → List Value
  | .varr _ es => es
  | _ => []

def Value.mapEntries : Value → List (Value × Value)
  | .vmap _ _ en => en
  | _ => []

mutual

/-- Structural equality of values, used to model the key comparison of
`std::map::insert_or_assign`. -/
def valueBeq : Value → Value → Bool
  | .vint sg w v, .vint sg' w' v' => sg = sg' ∧ w = w' ∧ v = v'
  | .vbool b, .vbool b' => b = b'
  | .vnil, .vnil => true
  | .vstr s, .vstr s' => s = s'
  | .vbin s, .vbin s' => s = s'
  | .varr t es, .varr t' es' => t = t' ∧ listBeq es es'
  | .vmap kt vt en, .vmap kt' vt' en' => kt = kt' ∧ vt = vt' ∧ entriesBeq en en'
  | _, _ => false

def listBeq : List Value → List Value → Bool
  | [], [] => true
  | v :: vs, v' :: vs' => valueBeq v v' ∧ listBeq vs vs'
  | _, _ => false

def entriesBeq : List (Value × Value) → List (Value × Value) → Bool
  | [], [] => true
  | (k, v) :: es, (k', v') :: es' => valueBeq k k' ∧ valueBeq v v' ∧ entriesBeq es es'
  | _, _ => false

end

/-- `std::map::insert_or_assign(l_key, l_value)`: replaces the mapped value
when the key is present, otherwise inserts the pair.  Entries are kept in
iteration order. -/
def insertOrAssign (k v : Value) (l : List (Value × Value)) : List (Value × Value) :=
  if l.any (fun e => valueBeq e.1 k) then
    l.map (fun e => if valueBeq e.1 k then (e.1, v) else e)
  else l ++ [(k, v)]

/-- The element loop of `unpack_type<MsgPackArrayOrMap>` for arrays: a
default-initialized element is unpacked (a no-op when `ec` is set) and then
appended unconditionally by `emplace_back`. -/
def unpElems (f : Unp → Value × Unp) : Nat → List Value → Unp → List Value × Unp
  | 0, acc, u => (acc, u)
  | n + 1, acc, u =>
    let (v, u1) := f u
    unpElems f n (acc ++ [v]) u1

/-- The element loop of `unpack_type<MsgPackArrayOrMap>` for maps. -/
def unpEntries (fk fv : Unp → Value × Unp) :
    Nat → List (Value × Value) → Unp → List (Value × Value) × Unp
  | 0, acc, u => (acc, u)
  | n + 1, acc, u =>
    let (k, u1) := fk u
    let (v, u2) := fv u1
    unpEntries fk fv n (insertOrAssign k v acc) u2

/-- `Unpacker::unpack_type` dispatch over the modeled categories; `dest` is
the caller-supplied destination object, returned unchanged when the sticky
error guard fires. -/
def unpackValue : Ty → Value → Unp → Value × Unp
  | .tint sg w, dest, u =>
    if u.ec.isSome then (dest, u) else
    let (r, u1) := unpackIntegral sg w dest.intVal u
    (.vint sg w r, u1)
  | .tbool, dest, u =>
    if u.ec.isSome then (dest, u) else
    let (r, u1) := unpackBool dest.boolVal u
    (.vbool r, u1)
  | .tnil, dest, u =>
    if u.ec.isSome then (dest, u) else (dest, unpackNil u)
  | .tstr, dest, u =>
    if u.ec.isSome then (dest, u) else
    let (r, u1) := unpackStrOrBin dest.bytesVal u
    (.vstr r, u1)
  | .tbin, dest, u =>
    if u.ec.isSome then (dest, u) else
    let (r, u1) := unpackStrOrBin dest.bytesVal u
    (.vbin r, u1)
  | .tarr t, dest, u =>
    if u.ec.isSome then (dest, u) else
    let (sz, u1) := readSizeArr u
    let (es, u2) := unpElems (fun uu => unpackValue t (defaultValue t) uu) sz dest.arrElems u1
    (.varr t es, u2)
  | .tmap kt vt, dest, u =>
    if u.ec.isSome then (dest, u) else
    let (sz, u1) := readSizeArr u
    let (en, u2) := unpEntries (fun uu => unpackValue kt (defaultValue kt) uu)
      (fun uu => unpackValue vt (defaultValue vt) uu) sz dest.mapEntries u1
    (.vmap kt vt en, u2)

/-! ## Well-formedness and the pure encoding -/

/-- The value `v` is representable in the integral type of signedness `sg`
and byte width `w`. -/
def intInRange (sg : Bool) (w : Nat) (v : Int) : Bool :=
  if sg then decide (-(2 ^ (8 * w - 1) : Int) ≤ v ∧ v < 2 ^ (8 * w - 1))
  else decide (0 ≤ v ∧ v < 2 ^ (8 * w))

mutual

/-- The value is one the C++ program can actually hold: integral payloads
fit their declared type (widths 1/2/4/8), buffer bytes are bytes, element
types are homogeneous, and collection sizes stay below the packer's
`LengthError` threshold `2^32 - 1`. -/
def wfValue : Value → Bool
  | .vint sg w v => (w = 1 ∨ w = 2 ∨ w = 4 ∨ w = 8) ∧ intInRange sg w v
  | .vbool _ => true
  | .vnil => true
  | .vstr s => s.length < 4294967295 ∧ s.all (· < 256)
  | .vbin s => s.length < 4294967295 ∧ s.all (· < 256)
  | .varr t es => es.length < 4294967295 ∧ wfList t es
  | .vmap kt vt en => en.length < 4294967295 ∧ wfEntries kt vt en

def wfList (t : Ty) : List Value → Bool
  | [] => true
  | v :: vs => tyOf v = t ∧ wfValue v ∧ wfList t vs

def wfEntries (kt vt : Ty) : List (Value × Value) → Bool
  | [] => true
  | (k, v) :: es => tyOf k = kt ∧ tyOf v = vt ∧ wfValue k ∧ wfValue v ∧ wfEntries kt vt es

end

mutual

/-- The value contains no nil component (the nil decoder consumes a
position without any bounds-checked read, which matters for
truncated-input behavior). -/
def nilFree : Value → Bool
  | .vint _ _ _ => true
  | .vbool _ => true
  | .vnil => false
  | .vstr _ => true
  | .vbin _ => true
  | .varr _ es => nilFreeList es
  | .vmap _ _ en => nilFreeEntries en

def nilFreeList : List Value → Bool
  | [] => true
  | v :: vs => nilFree v ∧ nilFreeList vs

def nilFreeEntries : List (Value × Value) → Bool
  | [] => true
  | (k, v) :: es => nilFree k ∧ nilFree v ∧ nilFreeEntries es

end

mutual

/-- The byte sequence the Packer appends for a value (the pure content of
`packValue` on an error-free packer; headers fall back to `[]` in the
`LengthError` case, which well-formed values exclude). -/
def encValue : Value → List Nat
  | .vint sg w v => encIntegral sg w v
  | .vbool b => [if b then 0xC3 else 0xC2]
  | .vnil => [0xC0]
  | .vstr s => (encStrHeader true s.length).getD [] ++ s.map (· % 256)
  | .vbin s => (encStrHeader false s.length).getD [] ++ s.map (· % 256)
  | .varr _ es => (encSeqHeader false es.length).getD [] ++ encList es
  | .vmap _ _ en => (encSeqHeader true en.length).getD [] ++ encEntries en

def encList : List Value → List Nat
  | [] => []
  | v :: vs => encValue v ++ encList vs

def encEntries : List (Value × Value) → List Nat
  | [] => []
  | (k, v) :: es => encValue k ++ encValue v ++ encEntries es

end

/-- Spec-side definition (shortest-encoding invariant): the minimal
number of payload bytes among the wire classes 1/2/4/8 that covers a
64-bit magnitude. -/
def minNBytes (u : Nat) : Nat :=
  if u < 256 then 1 else if u < 65536 then 2 else if u < 4294967296 then 4 else 8

/-- Big-endian value of a byte list (what the decoder's
`l_value64 |= uint64_t(current_byte()) << 8U * (i - 1)` loop accumulates
when all reads succeed). -/
def beVal : List Nat → Nat
  | [] => 0
  | b :: r => b <<< (8 * r.length) ||| beVal r

/-! ## Floating point (binary64)

Every binary64 value is a dyadic rational; the model carries finite
doubles exactly as `num * 2 ^ exp` pairs.  All the `<cmath>` operations
on the evaluated code paths (`modf`, `scalbn` by a power of two, `fabs`,
doubling, subtraction of dyadics, `ldexp`) are exact on dyadics, so the
embedding introduces no rounding. -/

/-- A dyadic rational `num * 2 ^ exp`, the exact carrier of a finite
binary64 value. -/
structure Dy where
  num : Int
  exp : Int
deriving DecidableEq, Repr

/-- Denotation of a dyadic as a rational (used only in statements). -/
def Dy.toRat (a : Dy) : Rat := (a.num : Rat) * 2 ^ a.exp

/-- `2^n` as an integer, computed through `Nat` (so that evaluation in
proofs stays efficient). -/
def pow2 (n : Nat) : Int := ((2 ^ n : Nat) : Int)

/-- Exact sum of two dyadics (aligned to the smaller exponent). -/
def Dy.add (a b : Dy) : Dy :=
  let e := min a.exp b.exp
  ⟨a.num * pow2 (a.exp - e).toNat + b.num * pow2 (b.exp - e).toNat, e⟩

/-- Exact difference of two dyadics. -/
def Dy.sub (a b : Dy) : Dy :=
  let e := min a.exp b.exp
  ⟨a.num * pow2 (a.exp - e).toNat - b.num * pow2 (b.exp - e).toNat, e⟩

/-- `a < b` on dyadic values. -/
def Dy.ltb (a b : Dy) : Bool :=
  let e := min a.exp b.exp
  a.num * pow2 (a.exp - e).toNat < b.num * pow2 (b.exp - e).toNat

/-- `std::fabs`. -/
def Dy.abs (a : Dy) : Dy := ⟨|a.num|, a.exp⟩

/-- The integral part computed by `std::modf`: truncation toward zero
(`Int` division `/` truncates toward zero). -/
def Dy.trunc (a : Dy) : Int :=
  if 0 ≤ a.exp then a.num * pow2 a.exp.toNat else a.num / pow2 (-a.exp).toNat

/-- Whether the fractional part returned by `std::modf` is zero. -/
def Dy.fracZero (a : Dy) : Bool :=
  if 0 ≤ a.exp then true else a.num % pow2 (-a.exp).toNat == 0

/-- The fractional part returned by `std::modf` (exact). -/
def Dy.frac (a : Dy) : Dy := a.sub ⟨a.trunc, 0⟩

/-- Bit length of a natural number, computed with explicit fuel (so that
the definition is structurally recursive); `fuel ≥ n` suffices. -/
def bitLenAux : Nat → Nat → Nat
  | 0, _ => 0
  | f + 1, n => if n = 0 then 0 else bitLenAux f (n / 2) + 1

/-- `std::ilogb` on a nonzero dyadic: `⌊log₂ |a|⌋`, i.e. bit length of the
numerator minus one, plus the exponent. -/
def Dy.ilogb (a : Dy) : Int :=
  (bitLenAux a.num.natAbs a.num.natAbs : Int) - 1 + a.exp

/-- A binary64 quantity as handled by the codec's floating-point paths: a
finite value carried exactly, or an infinity (the `HUGE_VAL` result of an
overflowing `ldexp`). -/
inductive Fp where
  | finite (q : Dy)
  | inf (neg : Bool)
deriving DecidableEq, Repr

/-- The mantissa-bit extraction loop of `pack_type<MsgPackFloatingPoint>`:
`implied_mantissa *= 2; modf(...); if (uint8_t(integral_part) == 1) set bit (i-1);`.
`mantLoop m i` runs the loop for counter values `i, i-1, ..., 1` and
returns the accumulated `normalized_mantissa_mask`. -/
def mantLoop (m : Dy) : Nat → Nat
  | 0 => 0
  | i + 1 =>
    let m2 : Dy := ⟨m.num, m.exp + 1⟩
    let ip := m2.trunc
    let fr := m2.frac
    if ip = 1 then 2 ^ i ||| mantLoop fr i else mantLoop fr i

/-- `Packer::pack_type<MsgPackFloatingPoint>` for `T = double`, on finite
values (the only inputs with defined behavior: `int64_t` conversion and
`ilogb` are not defined on NaN/infinity).  `a_value / scalbn(1.0, exponent)`
is the exact dyadic `⟨num, exp - e⟩`; `std::signbit` of the nonzero full
mantissa is its sign; the excess `pow(2,10) - 1 = 1023` and the bitset
assembly `sign | excess_exponent | mantissa` are modeled bit for bit. -/
def packFloat64 (q : Dy) (p : Packer) : Packer :=
  if p.ec.isSome then p else
  if q.fracZero then packIntegral true 8 q.trunc p
  else
    let e : Int := q.ilogb
    let fm : Dy := ⟨q.num, q.exp - e⟩
    let signBit : Nat := if fm.num < 0 then 1 else 0
    let implied : Dy := fm.abs.sub ⟨1, 0⟩
    let mant : Nat := mantLoop implied 52
    let expField : Nat := (e + 1023).toNat
    let ieee : Nat := signBit <<< 63 ||| expField <<< 52 ||| mant
    { p with buf := p.buf ++ [0xCB] ++ bytesBE ieee 8 }

/-- Largest finite binary64 value, `(2^53 - 1) * 2^971`. -/
def maxF64 : Dy := ⟨2 ^ 53 - 1, 971⟩

/-- `std::ldexp(m, e)` for a dyadic `m` and nonnegative exponent: the exact
product, except that a result beyond the finite range overflows to
`±HUGE_VAL` (`±∞`) under the default rounding mode. -/
def ldexpFp (m : Dy) (e : Nat) : Fp :=
  if maxF64.ltb ⟨|m.num|, m.exp + e⟩ then .inf (m.num < 0)
  else .finite ⟨m.num, m.exp + e⟩

/-- The mantissa-reconstruction loop of `unpack_type<MsgPackFloatingPoint>`
(`T = double`): `l_mantissa += 1.0 / (int_t(1) << (53U - i))` for each set
bit `i - 1`, `i = 52, ..., 1`; `mantSum d i` accumulates those terms. -/
def mantSum (d : Nat) : Nat → Dy
  | 0 => ⟨0, 0⟩
  | i + 1 => (if d.testBit i then (⟨1, -(52 - i : Nat)⟩ : Dy) else ⟨0, 0⟩).add (mantSum d i)

/-- The exponent accumulation loop
`for (i = 0; i < 11; ++i) l_exponent += l_bits[i + 52] << i;`. -/
def expSum (d : Nat) : Nat → Nat
  | 0 => 0
  | i + 1 => expSum d i + (if d.testBit (52 + i) then 2 ^ i else 0)

/-- `Unpacker::unpack_type<MsgPackFloatingPoint>` for `T = double`.  The
exponent variable is `uint16_t`, so `l_exponent -= 1023` wraps modulo
`2^16`; the wrapped value is then handed to `ldexp` as a nonnegative
`int`.  The non-float-tag fallback funnels through the integral decoder
and converts (`T(l_data)` is exact for the magnitudes below `2^53`). -/
def unpackFloat64 (dest : Fp) (u : Unp) : Fp × Unp :=
  if u.ec.isSome then (dest, u) else
  let (b, u0) := currentByte u
  if b = 0xCB ∨ b = 0xCA then
    let u1 := next 1 u0
    let (d, u2) := rdBE 8 u1
    let mant0 : Dy := (⟨1, 0⟩ : Dy).add (mantSum d 52)
    let mant : Dy := if d.testBit 63 then ⟨-mant0.num, mant0.exp⟩ else mant0
    let expVal : Nat := (expSum d 11 + 65536 - 1023) % 65536
    (ldexpFp mant expVal, u2)
  else
    let (r, u1) := unpackIntegral true 8 0 u
    (.finite ⟨r, 0⟩, u1)

/-- The two-entry string-keyed boolean map
`{"compact": true, "schema": false}` (keys in `std::map` iteration
order). -/
def compactMap : Value :=
  .vmap .tstr .tbool
    [(.vstr [99, 111, 109, 112, 97, 99, 116], .vbool true),
     (.vstr [115, 99, 104, 101, 109, 97], .vbool false)]

/-- The value accumulated by the size-reading loop `rdSZ` over a byte
segment: big-endian combination via `size = size << 8 | byte`. -/
def szVal : List Nat → Nat
  | [] => 0
  | b :: r => b * 2 ^ (8 * r.length) + szVal r

end Msgpack

namespace Matchit

/-- `enum class IdProcess { kCancel, kConfirm }`. -/
inductive IdProc where
  | kCancel
  | kConfirm
deriving DecidableEq, Repr

/-- The state block of an `Id<int32_t>` cell: `m_variant` (monostate or a
stored value: for a scalar subject the cell always stores by value, since
`StorePointer` is false for scalars) and the `int32_t m_depth` tag.
`Block{}` value-initializes to empty at depth 0. -/
structure Block where
  val : Option Int
  depth : Int
deriving DecidableEq, Repr

/-- `Id::Block::reset(depth)`: `if (m_depth - depth >= 0) { m_variant = {}; m_depth = depth; }`. -/
def Block.reset (d : Int) (b : Block) : Block :=
  if b.depth - d ≥ 0 then ⟨none, d⟩ else b

/-- `Id::Block::confirm(depth)`: `if (m_depth > depth || m_depth == 0) m_depth = depth;`. -/
def Block.confirm (d : Int) (b : Block) : Block :=
  if b.depth > d ∨ b.depth = 0 then { b with depth := d } else b

/-- `Id::match_value(v)`: equality against a held value (no mutation), or
an unconditional bind when empty. -/
def Block.matchValue (v : Int) (b : Block) : Bool × Block :=
  match b.val with
  | some w => (w == v, b)
  | none => (true, { b with val := some v })

/-- `Id::value()` / `operator*`: dereference throws `std::logic_error`
("invalid state!") on an empty cell. -/
def Block.deref (b : Block) : Except Unit Int :=
  match b.val with
  | some w => .ok w
  | none => .error ()

/-- Pattern syntax over an `Int` subject with a single identifier cell:
literals (`PatternTraits<T>` default equality), the wildcard `_`,
`meet` predicates, the `Id` binder, `or_`, `and_`, `not_`, and `app`. -/
inductive Pat where
  | lit (n : Int)
  | wild
  | meetP (f : Int → Bool)
  | idP
  | orP (a b : Pat)
  | andP (a b : Pat)
  | notP (p : Pat)
  | appP (f : Int → Int) (p : Pat)

/-- `process_id(pattern, depth, id_process)`: composite patterns forward
to their children in order; `PatternTraits<Id>::process_id_impl` resets on
`kCancel` and confirms on `kConfirm`; stateless patterns are no-ops. -/
def processId : Pat → Int → IdProc → Block → Block
  | .lit _, _, _, b => b
  | .wild, _, _, b => b
  | .meetP _, _, _, b => b
  | .idP, d, pr, b =>
    match pr with
    | .kCancel => b.reset d
    | .kConfirm => b.confirm d
  | .orP a c, d, pr, b => processId c d pr (processId a d pr b)
  | .andP a c, d, pr, b => processId c d pr (processId a d pr b)
  | .notP p, d, pr, b => processId p d pr b
  | .appP _ p, d, pr, b => processId p d pr b

/-- The per-kind `match_pattern_impl` bodies.  Children are matched
through `match_pattern` at `depth + 1`; since `match_pattern` is exactly
"dispatch, then unconditionally `process_id` (`kConfirm` on success,
`kCancel` on failure)", that wrapper is inlined at every child call site
so that the recursion stays structural. -/
def matchPatternImpl (v : Int) (p : Pat) (d : Int) (b : Block) : Bool × Block :=
  match p with
  | .lit n => (v == n, b)
  | .wild => (true, b)
  | .meetP f => (f v, b)
  | .idP => b.matchValue v
  | .orP a c =>
    let s := matchPatternImpl v a (d + 1) b
    let b1 := processId a (d + 1) (if s.1 then .kConfirm else .kCancel) s.2
    if s.1 then (true, b1)
    else
      let t := matchPatternImpl v c (d + 1) b1
      (t.1, processId c (d + 1) (if t.1 then .kConfirm else .kCancel) t.2)
  | .andP a c =>
    let s := matchPatternImpl v a (d + 1) b
    let b1 := processId a (d + 1) (if s.1 then .kConfirm else .kCancel) s.2
    if s.1 then
      let t := matchPatternImpl v c (d + 1) b1
      (t.1, processId c (d + 1) (if t.1 then .kConfirm else .kCancel) t.2)
    else (false, b1)
  | .notP q =>
    let s := matchPatternImpl v q (d + 1) b
    (!s.1, processId q (d + 1) (if s.1 then .kConfirm else .kCancel) s.2)
  | .appP f q =>
    let s := matchPatternImpl (f v) q (d + 1) b
    (s.1, processId q (d + 1) (if s.1 then .kConfirm else .kCancel) s.2)

/-- `match_pattern(value, pattern, depth, context)`: dispatch to the
pattern's `match_pattern_impl`, then unconditionally `process_id` with
`kConfirm` on success and `kCancel` on failure. -/
def matchPattern (v : Int) (p : Pat) (d : Int) (b : Block) : Bool × Block :=
  let s := matchPatternImpl v p d b
  (s.1, processId p d (if s.1 then .kConfirm else .kCancel) s.2)

/-- `match` failure in expression mode: the `std::logic_error` thrown when
no pattern matched (the spec's `NoMatch` condition). -/
inductive MatchErr where
  | noMatch
deriving DecidableEq, Repr

/-- Expression-mode `match_patterns`: arms are tried in order through
`PatternPair::match_value` (depth 0); the first match executes its handler,
cancels the pattern's identifiers at depth 0 and returns; if no arm
matches the call throws `NoMatch`.  A handler is a nullary closure, which
may read the identifier cell, hence its `Block` argument. -/
def matchPatternsExpr {R : Type} (v : Int) (arms : List (Pat × (Block → R)))
    (b : Block) : Except MatchErr R × Block :=
  match arms with
  | [] => (.error .noMatch, b)
  | (p, h) :: rest =>
    let (r, b1) := matchPattern v p 0 b
    if r then
      let res := h b1
      (.ok res, processId p 0 .kCancel b1)
    else matchPatternsExpr v rest b1

/-- Statement-mode `match_patterns`: identical arm traversal, but an
exhausted arm list is not an error.  The handlers return `void`, so the
model reports which arm (if any) executed its handler. -/
def matchPatternsStmt (v : Int) (arms : List Pat) (b : Block) : Option Nat × Block :=
  match arms with
  | [] => (none, b)
  | p :: rest =>
    let (r, b1) := matchPattern v p 0 b
    if r then (some 0, processId p 0 .kCancel b1)
    else
      let (idx, b2) := matchPatternsStmt v rest b1
      (idx.map (· + 1), b2)

/-- `PatternTraits<Ds>::match_pattern_impl` for a range subject containing
exactly one `ooo` binder (`OooBinder`), with the element sub-patterns
restricted to identifier-free predicates.  Returns the match result and
the content of the binder's cell after the attempt: the captured subrange
(`make_subrange(begin_ooo, end)`) when the leading patterns succeeded,
`none` when the short-circuit prevented the bind. -/
def dsOooRange (pre post : List (Int → Bool)) (xs : List Int) :
    Bool × Option (List Int) :=
  let numPat := pre.length + 1 + post.length
  if xs.length < numPat - 1 then (false, none)
  else
    let idxOoo := pre.length
    let r1 := ((pre.zip (xs.take idxOoo)).all fun fx => fx.1 fx.2)
    let rangeSize := xs.length - (numPat - 1)
    let sub := (xs.drop idxOoo).take rangeSize
    let bound := if r1 then some sub else none
    let r2 := r1 &&
      ((post.zip ((xs.drop (idxOoo + rangeSize)).take post.length)).all fun fx => fx.1 fx.2)
    (r2, bound)

/-- Whether a pattern contains the identifier (`num_id_v > 0`). -/
def hasId : Pat → Bool
  | .lit _ => false
  | .wild => false
  | .meetP _ => false
  | .idP => true
  | .orP a c => hasId a || hasId c
  | .andP a c => hasId a || hasId c
  | .notP p => hasId p
  | .appP _ p => hasId p

end Matchit

namespace Msgpack

/-! ## Theorems: codec -/

/-- Claim C4: sticky error — once `ec` is non-zero, every subsequent
pack/unpack field operation on the same instance is a no-op: it leaves the
output buffer, the read cursor, the caller-supplied destination, and the
error code itself unchanged. -/
theorem sticky_error_noop :
    (∀ (v : Value) (p : Packer), p.ec.isSome = true → packValue v p = p) ∧
    (∀ (t : Ty) (d : Value) (u : Unp), u.ec.isSome = true → unpackValue t d u = (d, u)) := by
  constructor
  · intro v p h
    cases v <;>
      simp [packValue, packIntegral, packBool, packNil, packStrOrBin, h]
  · intro t d u h
    cases t <;> simp [unpackValue, h]

/-- Witness for C4 at a concrete erroneous packer and unpacker. -/
theorem sticky_error_noop_witness :
    packValue (.vint true 1 5) ⟨some .lengthError, [1, 2]⟩ = ⟨some .lengthError, [1, 2]⟩ ∧
    unpackValue .tbool (.vbool false) ⟨[0xC3], 0, some .outOfRange⟩ =
      (.vbool false, ⟨[0xC3], 0, some .outOfRange⟩) :=
  ⟨sticky_error_noop.1 _ _ rfl, sticky_error_noop.2 _ _ _ rfl⟩

/-- Claim C6: packing the two-entry map `{"compact": true, "schema": false}`
emits exactly the 18 bytes `82 A7 'compact' C3 A6 'schema' C2`, with no
error, and unpacking those 18 bytes into a map of the same type reproduces
the original map with no error. -/
theorem compact_map_example :
    (packValue compactMap Packer.init).buf =
      [0x82, 0xA7, 99, 111, 109, 112, 97, 99, 116, 0xC3,
       0xA6, 115, 99, 104, 101, 109, 97, 0xC2] ∧
    (packValue compactMap Packer.init).buf.length = 18 ∧
    (packValue compactMap Packer.init).ec = none ∧
    unpackValue (.tmap .tstr .tbool) (defaultValue (.tmap .tstr .tbool))
        (Unp.init (packValue compactMap Packer.init).buf) =
      (compactMap,
       ⟨[0x82, 0xA7, 99, 111, 109, 112, 97, 99, 116, 0xC3,
         0xA6, 115, 99, 104, 101, 109, 97, 0xC2], 18, none⟩) :=
  ⟨rfl, rfl, rfl, rfl⟩

theorem bytesBE_length (u : Nat) : ∀ n, (bytesBE u n).length = n := by
  intro n
  induction n with
  | zero => rfl
  | succ n ih => simp [bytesBE, ih]

set_option maxRecDepth 10000
set_option maxHeartbeats 1000000

/-- Closed form of the significant-byte counting loop for 64-bit words. -/
theorem sigBytes_eq (u : Nat) (h : u < 2 ^ 64) :
    sigBytes u =
      if u < 2 ^ 8 then 1 else if u < 2 ^ 16 then 2 else if u < 2 ^ 24 then 3
      else if u < 2 ^ 32 then 4 else if u < 2 ^ 40 then 5 else if u < 2 ^ 48 then 6
      else if u < 2 ^ 56 then 7 else 8 := by
  show sigBytesAux u 8 = _
  rw [show (8 : Nat) = 7 + 1 from rfl, sigBytesAux]
  rw [show (7 : Nat) = 6 + 1 from rfl, sigBytesAux]
  rw [show (6 : Nat) = 5 + 1 from rfl, sigBytesAux]
  rw [show (5 : Nat) = 4 + 1 from rfl, sigBytesAux]
  rw [show (4 : Nat) = 3 + 1 from rfl, sigBytesAux]
  rw [show (3 : Nat) = 2 + 1 from rfl, sigBytesAux]
  rw [show (2 : Nat) = 1 + 1 from rfl, sigBytesAux]
  rw [show sigBytesAux u 1 = 1 from rfl]
  simp only [byteAt]
  split_ifs <;> omega
  all_goals (intro hx; exact absurd hx (by decide))

theorem and128_iff : ∀ m : Fin 256, (m.val &&& 128 = 0 ↔ m.val < 128) := by decide

theorem and224_iff : ∀ m : Fin 256, (m.val &&& 224 = 224 ↔ 224 ≤ m.val) := by decide

/-- Counterexample to C2 as stated: the value `-1` of type `int16_t` lies
in `[-32, 127]` but is packed as the three bytes `D1 FF FF` (int16 tag
plus two's-complement payload), not as a single fixint byte. -/
theorem fixint_claim_cex :
    (packIntegral true 2 (-1) Packer.init).buf = [0xD1, 0xFF, 0xFF] ∧
    ((-32 : Int) ≤ -1 ∧ (-1 : Int) ≤ 127) ∧
    (packIntegral true 2 (-1) Packer.init).buf.length ≠ 1 := by
  refine ⟨by decide, by decide, by decide⟩

theorem and128_eq (n : Nat) (h : n < 256) : (n &&& 128 = 0) ↔ n < 128 :=
  and128_iff ⟨n, h⟩

theorem and224_eq (n : Nat) (h : n < 256) : (n &&& 224 = 224) ↔ 224 ≤ n :=
  and224_iff ⟨n, h⟩

/-- Characterization of the integral encoding's byte count in terms of the
two's-complement word `n = v mod 2^(8w)`. -/
theorem encIntegral_len (sg : Bool) (w : Nat) (v : Int)
    (hw1 : 1 ≤ w) (hw8 : 8 * w ≤ 64) :
    (encIntegral sg w v).length =
      (if 256 ≤ (v % (2 ^ (8 * w))).toNat then
        1 + minNBytes (v % (2 ^ (8 * w))).toNat
       else if (v % (2 ^ (8 * w))).toNat % 256 < 128 ∨
           224 ≤ (v % (2 ^ (8 * w))).toNat % 256 then 1
       else 2) := by
  have hpos : (0 : Int) < 2 ^ (8 * w) := pow_pos (by norm_num) _
  have h0 : 0 ≤ v % (2 ^ (8 * w)) := Int.emod_nonneg v hpos.ne'
  have h1 : v % (2 ^ (8 * w)) < 2 ^ (8 * w) := Int.emod_lt_of_pos v hpos
  have hcast : ((2 : Int) ^ (8 * w)) ≤ 2 ^ 64 :=
    pow_le_pow_right₀ (by norm_num : (1 : Int) ≤ 2) hw8
  have h64 : v % (2 ^ (8 * w)) < 2 ^ 64 := lt_of_lt_of_le h1 hcast
  have hn64 : (v % (2 ^ (8 * w))).toNat < 2 ^ 64 := by
    have he : ((2 : Int) ^ 64) = ((18446744073709551616 : Nat) : Int) := by norm_num
    rw [he] at h64
    omega
  have hdvd : ((256 : Int)) ∣ 2 ^ (8 * w) := by
    have hd := pow_dvd_pow (2 : Int) (show 8 ≤ 8 * w by omega)
    norm_num at hd
    exact hd
  have hkey : (v % 256).toNat = (v % (2 ^ (8 * w))).toNat % 256 := by
    have h2 : v % (2 ^ (8 * w)) % 256 = v % 256 :=
      Int.emod_emod_of_dvd v hdvd
    clear hpos h1 hcast h64 hn64 hdvd
    omega
  have hb : (v % (2 ^ (8 * w))).toNat % 256 < 256 := by omega
  have hsig := sigBytes_eq _ hn64
  by_cases hA : 256 ≤ (v % (2 ^ (8 * w))).toNat
  · rw [if_pos hA]
    by_cases hB : (v % (2 ^ (8 * w))).toNat < 65536
    · have hs : sigBytes (v % (2 ^ (8 * w))).toNat = 2 := by
        rw [hsig]; split_ifs <;> omega
      simp only [encIntegral, lowByteAnd, hs, minNBytes]
      norm_num [bytesBE_length]
      split_ifs <;> omega
    · by_cases hC : (v % (2 ^ (8 * w))).toNat < 4294967296
      · have hs : sigBytes (v % (2 ^ (8 * w))).toNat = 3 ∨
            sigBytes (v % (2 ^ (8 * w))).toNat = 4 := by
          rw [hsig]; split_ifs <;> omega
        rcases hs with hs | hs <;>
          · simp only [encIntegral, lowByteAnd, hs, minNBytes]
            norm_num [bytesBE_length]
            split_ifs <;> omega
      · have hs : 4 < sigBytes (v % (2 ^ (8 * w))).toNat := by
          rw [hsig]; split_ifs <;> omega
        simp only [encIntegral, lowByteAnd, minNBytes]
        rw [if_pos hs]
        norm_num [bytesBE_length]
        split_ifs <;> omega
  · rw [if_neg hA]
    have hs : sigBytes (v % (2 ^ (8 * w))).toNat = 1 := by
      rw [hsig]; split_ifs <;> omega
    have hmod : (v % (2 ^ (8 * w))).toNat % 256 = (v % (2 ^ (8 * w))).toNat := by omega
    simp only [encIntegral, lowByteAnd, hs, hkey, hmod]
    norm_num
    simp only [and128_eq _ (show (v % (2 ^ (8 * w))).toNat < 256 by omega),
      and224_eq _ (show (v % (2 ^ (8 * w))).toNat < 256 by omega)]
    split_ifs <;> simp [bytesBE_length]

/-- Claim C2 (amended): the encoded length of an integral value.  For
nonnegative values the packer emits the minimal class covering the
magnitude, with a single untagged byte for `v < 128` — and also for
`224 ≤ v ≤ 255`, because the fixint test inspects only the top bits of the
low byte.  For negative values of an 8-bit type, negative fixint applies
for `v ≥ -32` and int8 otherwise.  For negative values of a wider type the
class is determined by the significant bytes of the two's-complement
representation at the declared width, so `-1` as `int16_t` takes
`1 + 2` bytes, not a fixint. -/
theorem packIntegral_length (sg : Bool) (w : Nat) (v : Int)
    (hw : w = 1 ∨ w = 2 ∨ w = 4 ∨ w = 8) (hr : intInRange sg w v = true) :
    ((0 ≤ v ∧ v < 128) → (packIntegral sg w v Packer.init).buf = [v.toNat]) ∧
    (0 ≤ v → (packIntegral sg w v Packer.init).buf.length =
      if v < 128 ∨ (224 ≤ v ∧ v < 256) then 1 else 1 + minNBytes v.toNat) ∧
    ((v < 0 ∧ w = 1) →
      (packIntegral sg w v Packer.init).buf.length = if -32 ≤ v then 1 else 2) ∧
    ((v < 0 ∧ 1 < w) → (packIntegral sg w v Packer.init).buf.length =
      1 + minNBytes ((v % (2 ^ (8 * w))).toNat)) := by
  have hbuf : (packIntegral sg w v Packer.init).buf = encIntegral sg w v := by
    simp [packIntegral, Packer.init]
  have hw1 : 1 ≤ w := by omega
  have hw8 : 8 * w ≤ 64 := by omega
  have hlen := encIntegral_len sg w v hw1 hw8
  have hr2 : (if sg then -(2 ^ (8 * w - 1) : Int) ≤ v ∧ v < 2 ^ (8 * w - 1)
      else 0 ≤ v ∧ v < 2 ^ (8 * w)) := by
    cases sg with
    | false => simpa [intInRange] using hr
    | true => simpa [intInRange] using hr
  have hhalf : (2 : Int) ^ (8 * w - 1) ≤ 2 ^ (8 * w) :=
    pow_le_pow_right₀ (by norm_num) (by omega)
  have hv2 : v < 2 ^ (8 * w) := by
    cases sg with
    | false => norm_num at hr2; exact hr2.2
    | true => norm_num at hr2; omega
  refine ⟨?_, ?_, ?_, ?_⟩
  · rintro ⟨h0, h128⟩
    have he : v % (2 ^ (8 * w)) = v := Int.emod_eq_of_lt h0 hv2
    have he2 : v % 256 = v := Int.emod_eq_of_lt h0 (by omega)
    have hn : (v % (2 ^ (8 * w))).toNat = v.toNat := by rw [he]
    have hn64 : (v % (2 ^ (8 * w))).toNat < 2 ^ 64 := by
      rw [hn]; omega
    have hs : sigBytes (v % (2 ^ (8 * w))).toNat = 1 := by
      rw [sigBytes_eq _ hn64, if_pos (by rw [hn]; norm_num; omega)]
    have hv256 : v.toNat < 256 := by omega
    have hfix : v.toNat &&& 128 = 0 := (and128_eq v.toNat hv256).mpr (by omega)
    rw [hn] at hs
    rw [hbuf]
    simp only [encIntegral, lowByteAnd, hs, he2, hn]
    norm_num [hfix]
  · intro h0
    have he : v % (2 ^ (8 * w)) = v := Int.emod_eq_of_lt h0 hv2
    rw [hbuf, hlen, he]
    simp only [minNBytes]
    split_ifs <;> omega
  · rintro ⟨hneg, rfl⟩
    have hsg : sg = true := by
      cases sg with
      | false => norm_num at hr2; omega
      | true => rfl
    subst hsg
    norm_num at hr2 hlen hbuf
    have he : v % 256 = v + 256 := by omega
    rw [hbuf, hlen, he]
    rw [if_neg (by omega)]
    split_ifs <;> omega
  · rintro ⟨hneg, hw2⟩
    have hsg : sg = true := by
      cases sg with
      | false => norm_num at hr2; omega
      | true => rfl
    subst hsg
    norm_num at hr2
    have hbig : (256 : Int) ≤ 2 ^ (8 * w - 1) := by
      calc (256 : Int) = 2 ^ 8 := by norm_num
      _ ≤ 2 ^ (8 * w - 1) := pow_le_pow_right₀ (by norm_num) (by omega)
    have hmid : (2 : Int) ^ (8 * w - 1) + 2 ^ (8 * w - 1) = 2 ^ (8 * w) := by
      rw [← two_mul, ← pow_succ']
      congr 1
      omega
    have he : v % (2 ^ (8 * w)) = v + 2 ^ (8 * w) := by
      have h2 : (v + 2 ^ (8 * w) * 1) % (2 ^ (8 * w)) = v % (2 ^ (8 * w)) :=
        Int.add_mul_emod_self_left v (2 ^ (8 * w)) 1
      rw [mul_one] at h2
      have h3 : (v + 2 ^ (8 * w)) % (2 ^ (8 * w)) = v + 2 ^ (8 * w) :=
        Int.emod_eq_of_lt (by omega) (by omega)
      omega
    have h256 : 256 ≤ v % (2 ^ (8 * w)) := by omega
    rw [hbuf, hlen, if_pos (by omega)]

/-- Witness for C2 at `-1 : int16_t`. -/
theorem packIntegral_length_witness :
    ((-1 : Int) < 0 ∧ 1 < 2) ∧
    (packIntegral true 2 (-1) Packer.init).buf.length =
      1 + minNBytes (((-1 : Int) % (2 ^ (8 * 2))).toNat) :=
  ⟨⟨by norm_num, by norm_num⟩,
   (packIntegral_length true 2 (-1) (by norm_num) (by decide)).2.2.2 ⟨by norm_num, by norm_num⟩⟩

/-- Counterexample to C3 as stated: decoding the int8-tagged bytes
`D0 FF` into an `int64_t` destination yields `255`, not the
sign-extension `-1`, and reports no error. -/
theorem sign_extension_cex :
    (unpackIntegral true 8 0 (Unp.init [0xD0, 0xFF])).1 = 255 ∧
    (unpackIntegral true 8 0 (Unp.init [0xD0, 0xFF])).1 ≠ -1 ∧
    (unpackIntegral true 8 0 (Unp.init [0xD0, 0xFF])).2.ec = none :=
  ⟨by decide, by decide, by decide⟩

/-- The big-endian payload loop reads exactly the byte segment at the
cursor and accumulates its big-endian value. -/
theorem rdBE_append (bs : List Nat) (pre post : List Nat) :
    rdBE bs.length ⟨pre ++ (bs ++ post), pre.length, none⟩ =
      (beVal bs, ⟨pre ++ (bs ++ post), pre.length + bs.length, none⟩) := by
  induction bs generalizing pre with
  | nil => simp [rdBE, beVal]
  | cons b rest ih =>
    have hlt : pre.length < (pre ++ (b :: rest ++ post)).length := by
      simp only [List.length_append, List.length_cons]
      omega
    have hget : (pre ++ (b :: rest ++ post)).getD pre.length 0 = b := by
      rw [List.getD_append_right _ _ _ _ (le_refl pre.length), Nat.sub_self]
      rfl
    have hassoc : pre ++ (b :: rest ++ post) = (pre ++ [b]) ++ (rest ++ post) := by
      simp
    show rdBE (rest.length + 1) _ = _
    rw [rdBE]
    simp only [currentByte, if_pos hlt, hget, next]
    rw [if_pos (by omega)]
    have ih2 := ih (pre ++ [b])
    rw [hassoc]
    simp only [List.length_append, List.length_singleton] at ih2 ⊢
    rw [ih2]
    refine Prod.ext ?_ (by simp; omega)
    simp [beVal]

/-- Claim C3 (amended): decoding an int/uint-tagged integral.  When the
destination is at least as wide as the payload, the payload is read
big-endian into a 64-bit accumulator (zero-extension) and converted to the
destination type by truncation modulo `2^(8w)` with two's-complement
reinterpretation — no sign extension of int-tagged payloads into wider
destinations takes place.  When the destination is narrower,
`IntegerOverflow` is set, the destination is not written, and only the tag
byte is consumed. -/
theorem unpackIntegral_tagged (sg : Bool) (w : Nat) (tag tw : Nat)
    (ht : (tag, tw) ∈ [(0xCC, 1), (0xCD, 2), (0xCE, 4), (0xCF, 8),
                       (0xD0, 1), (0xD1, 2), (0xD2, 4), (0xD3, 8)])
    (payload : List Nat) (hp : payload.length = tw) (dest : Int) :
    unpackIntegral sg w dest (Unp.init (tag :: payload)) =
      if w < tw then (dest, ⟨tag :: payload, 1, some .integerOverflow⟩)
      else (toTyped sg w (beVal payload), ⟨tag :: payload, 1 + tw, none⟩) := by
  have hrd := rdBE_append payload [tag] []
  rw [List.append_nil, hp] at hrd
  fin_cases ht <;>
    · simp only [unpackIntegral, Unp.init, currentByte, next, Option.isSome_none,
        Bool.false_eq_true, if_false]
      norm_num
      split_ifs <;> simp_all

/-- Witness for C3: the int16-tagged bytes `D1 FF FF` decode into an
`int64_t` destination as `65535` (truncation of the zero-extended
accumulator), consuming three bytes with no error. -/
theorem unpackIntegral_tagged_witness :
    unpackIntegral true 8 0 (Unp.init [0xD1, 0xFF, 0xFF]) =
      (65535, ⟨[0xD1, 0xFF, 0xFF], 3, none⟩) := by
  have h := unpackIntegral_tagged true 8 0xD1 2 (by decide) [0xFF, 0xFF] rfl 0
  rw [h]
  decide

/-- A dyadic comparison holds whenever the aligned cross-multiplied
integers compare. -/
theorem Dy.ltb_true_of {a b : Dy}
    (h : a.num * pow2 (a.exp - min a.exp b.exp).toNat <
         b.num * pow2 (b.exp - min a.exp b.exp).toNat) : a.ltb b = true :=
  decide_eq_true h

/-- `ldexp` overflows to a signed infinity when the exact product exceeds
the largest finite binary64 value. -/
theorem ldexpFp_eq_inf {m : Dy} {e : Nat}
    (h : maxF64.ltb ⟨|m.num|, m.exp + e⟩ = true) :
    ldexpFp m e = .inf (decide (m.num < 0)) := by
  simp only [ldexpFp, h, if_true]

/-- `1 * 2^65535`, the value the decoder hands to `ldexp` for the input
`0.5`, exceeds the largest finite binary64 value. -/
theorem maxF64_ltb_overflow :
    maxF64.ltb ⟨|((⟨1, 0⟩ : Dy).num)|, (⟨1, 0⟩ : Dy).exp + 65535⟩ = true := by
  refine Dy.ltb_true_of ?_
  show ((2 : Int) ^ 53 - 1) * pow2 0 < 1 * pow2 64564
  have h1 : (9007199254740992 : Nat) ≤ 2 ^ 64564 := by
    calc (9007199254740992 : Nat) = 2 ^ 53 := by norm_num
    _ ≤ 2 ^ 64564 := Nat.pow_le_pow_right (by norm_num) (by norm_num)
  have h2 : (9007199254740991 : Nat) < 2 ^ 64564 :=
    Nat.lt_of_lt_of_le (by norm_num) h1
  simp only [pow2, pow_zero, Nat.cast_one, mul_one, one_mul]
  calc ((2 : Int) ^ 53 - 1) = ((9007199254740991 : Nat) : Int) := by norm_num
  _ < ((2 ^ 64564 : Nat) : Int) := by exact_mod_cast h2

/-- C1: the claimed float round-trip `unpack(pack(v)) = v` FAILS at
`v = 0.5`.  The packer emits the correct IEEE-754 encoding
`CB 3F E0 00 00 00 00 00 00` with no error, but the decoder's `uint16_t`
exponent wraps under `l_exponent -= 1023` (1022 - 1023 ≡ 65535 mod 2^16),
so `ldexp(mantissa, 65535)` overflows to `+∞` instead of returning `0.5`:
the decoded value differs from every finite double, in particular from
`0.5`. -/
theorem float_half_roundtrip_bug :
    Dy.toRat ⟨1, -1⟩ = 1 / 2 ∧
    (packFloat64 ⟨1, -1⟩ Packer.init).buf = [0xCB, 0x3F, 0xE0, 0, 0, 0, 0, 0, 0] ∧
    (packFloat64 ⟨1, -1⟩ Packer.init).ec = none ∧
    (unpackFloat64 (.finite ⟨0, 0⟩)
        (Unp.init [0xCB, 0x3F, 0xE0, 0, 0, 0, 0, 0, 0])).1 = .inf false ∧
    (∀ q : Dy, Fp.inf false ≠ Fp.finite q) := by
  refine ⟨?_, by decide, by decide, ?_, by intro q h; cases h⟩
  · show ((1 : Int) : Rat) * 2 ^ (-1 : Int) = 1 / 2
    rw [zpow_neg, zpow_one]
    norm_num
  · have h1 : rdBE 8 ⟨[0xCB, 0x3F, 0xE0, 0, 0, 0, 0, 0, 0], 1, none⟩ =
        (0x3FE0000000000000, ⟨[0xCB, 0x3F, 0xE0, 0, 0, 0, 0, 0, 0], 9, none⟩) := by decide
    have hm : (⟨1, 0⟩ : Dy).add (mantSum 0x3FE0000000000000 52) = ⟨1, 0⟩ := by decide
    have hxs : (expSum 0x3FE0000000000000 11 + 65536 - 1023) % 65536 = 65535 := by decide
    have hbit : Nat.testBit 0x3FE0000000000000 63 = false := by decide
    simp only [unpackFloat64, Unp.init, currentByte, next]
    norm_num
    rw [h1]
    simp only [hm, hxs, hbit, Bool.false_eq_true, if_false]
    rw [ldexpFp_eq_inf maxF64_ltb_overflow]
    rfl

theorem unpackValue_stuck (t : Ty) (dest : Value) (u : Unp) (h : u.ec.isSome = true) :
    unpackValue t dest u = (dest, u) := by
  cases t <;> simp [unpackValue, h]

theorem getD_mid (pre : List Nat) (x : Nat) (rest : List Nat) :
    (pre ++ x :: rest).getD pre.length 0 = x := by
  rw [List.getD_append_right _ _ _ _ (le_refl pre.length), Nat.sub_self]
  rfl

theorem currentByte_mid (pre : List Nat) (x : Nat) (rest : List Nat)
    (e : Option UnpackerError) :
    currentByte ⟨pre ++ x :: rest, pre.length, e⟩ =
      (x, ⟨pre ++ x :: rest, pre.length, e⟩) := by
  simp only [currentByte]
  rw [if_pos (by simp)]
  rw [getD_mid]

theorem currentByte_end (u : Unp) (h : ¬ u.pos < u.data.length) :
    currentByte u = (0, { u with ec := some .outOfRange }) := by
  simp [currentByte, h]

theorem currentByte_data (u : Unp) : (currentByte u).2.data = u.data := by
  simp only [currentByte]
  split_ifs <;> rfl

theorem currentByte_pos (u : Unp) : (currentByte u).2.pos = u.pos := by
  simp only [currentByte]
  split_ifs <;> rfl

theorem currentByte_oor (u : Unp) (h : u.ec = some .outOfRange) :
    (currentByte u).2.ec = some .outOfRange := by
  simp only [currentByte]
  split_ifs <;> simp [h]

theorem next_data (k : Nat) (u : Unp) : (next k u).data = u.data := by
  simp only [next]
  split_ifs <;> rfl

theorem next_oor (k : Nat) (u : Unp) (h : u.ec = some .outOfRange) :
    (next k u).ec = some .outOfRange := by
  simp only [next]
  split_ifs <;> simp [h]

theorem next_one_bound (u : Unp) (h : u.pos ≤ u.data.length + 1) :
    (next 1 u).pos ≤ u.data.length + 1 := by
  simp only [next]
  split_ifs with hle
  · simpa using Nat.add_le_add_right hle 1
  · simpa using h

theorem rdSZ_succ (n : Nat) (u : Unp) :
    rdSZ (n + 1) u =
      ((currentByte u).1 * 2 ^ (8 * n) + (rdSZ n (next 1 (currentByte u).2)).1,
       (rdSZ n (next 1 (currentByte u).2)).2) := by
  simp only [rdSZ]

theorem rdBE_succ (n : Nat) (u : Unp) :
    rdBE (n + 1) u =
      ((currentByte u).1 <<< (8 * n) ||| (rdBE n (next 1 (currentByte u).2)).1,
       (rdBE n (next 1 (currentByte u).2)).2) := by
  simp only [rdBE]

theorem rdSZ_inv (n : Nat) : ∀ u : Unp,
    (rdSZ n u).2.data = u.data ∧
    (u.ec = some .outOfRange → (rdSZ n u).2.ec = some .outOfRange) ∧
    (u.pos ≤ u.data.length + 1 → (rdSZ n u).2.pos ≤ u.data.length + 1) := by
  induction n with
  | zero => intro u; exact ⟨rfl, fun h => h, fun h => h⟩
  | succ n ih =>
    intro u
    rw [rdSZ_succ]
    obtain ⟨ihd, ihe, ihp⟩ := ih (next 1 (currentByte u).2)
    refine ⟨?_, ?_, ?_⟩
    · rw [ihd, next_data, currentByte_data]
    · intro h
      exact ihe (next_oor _ _ (currentByte_oor u h))
    · intro h
      have hd : (next 1 (currentByte u).2).data = u.data := by
        rw [next_data, currentByte_data]
      have hp : (next 1 (currentByte u).2).pos ≤ u.data.length + 1 := by
        have := next_one_bound (currentByte u).2
          (by rw [currentByte_data, currentByte_pos]; exact h)
        rwa [currentByte_data] at this
      have := ihp (by rw [hd]; exact hp)
      rwa [hd] at this

theorem rdBE_inv (n : Nat) : ∀ u : Unp,
    (rdBE n u).2.data = u.data ∧
    (u.ec = some .outOfRange → (rdBE n u).2.ec = some .outOfRange) ∧
    (u.pos ≤ u.data.length + 1 → (rdBE n u).2.pos ≤ u.data.length + 1) := by
  induction n with
  | zero => intro u; exact ⟨rfl, fun h => h, fun h => h⟩
  | succ n ih =>
    intro u
    rw [rdBE_succ]
    obtain ⟨ihd, ihe, ihp⟩ := ih (next 1 (currentByte u).2)
    refine ⟨?_, ?_, ?_⟩
    · rw [ihd, next_data, currentByte_data]
    · intro h
      exact ihe (next_oor _ _ (currentByte_oor u h))
    · intro h
      have hd : (next 1 (currentByte u).2).data = u.data := by
        rw [next_data, currentByte_data]
      have hp : (next 1 (currentByte u).2).pos ≤ u.data.length + 1 := by
        have := next_one_bound (currentByte u).2
          (by rw [currentByte_data, currentByte_pos]; exact h)
        rwa [currentByte_data] at this
      have := ihp (by rw [hd]; exact hp)
      rwa [hd] at this

theorem rdSZ_short (n : Nat) : ∀ u : Unp, 1 ≤ n → u.ec = none →
    u.pos ≤ u.data.length + 1 → u.data.length < u.pos + n →
    (rdSZ n u).2.ec = some .outOfRange := by
  induction n with
  | zero => intro u h; omega
  | succ n ih =>
    intro u hn he hb hsh
    rw [rdSZ_succ]
    by_cases hp : u.pos < u.data.length
    · have hn1 : 1 ≤ n := by omega
      have hcb : currentByte u = (u.data.getD u.pos 0, u) := by
        simp [currentByte, hp]
      rw [hcb]
      have hnx : next 1 u = { u with pos := u.pos + 1 } := by
        simp [next]
        omega
      rw [hnx]
      exact ih _ hn1 he (by simpa using by omega) (by simpa using by omega)
    · rw [currentByte_end u hp]
      have h1 : (next 1 { u with ec := some UnpackerError.outOfRange }).ec =
          some .outOfRange := next_oor _ _ rfl
      exact (rdSZ_inv n _).2.1 h1

theorem rdBE_short (n : Nat) : ∀ u : Unp, 1 ≤ n → u.ec = none →
    u.pos ≤ u.data.length + 1 → u.data.length < u.pos + n →
    (rdBE n u).2.ec = some .outOfRange := by
  induction n with
  | zero => intro u h; omega
  | succ n ih =>
    intro u hn he hb hsh
    rw [rdBE_succ]
    by_cases hp : u.pos < u.data.length
    · have hn1 : 1 ≤ n := by omega
      have hcb : currentByte u = (u.data.getD u.pos 0, u) := by
        simp [currentByte, hp]
      rw [hcb]
      have hnx : next 1 u = { u with pos := u.pos + 1 } := by
        simp [next]
        omega
      rw [hnx]
      exact ih _ hn1 he (by simpa using by omega) (by simpa using by omega)
    · rw [currentByte_end u hp]
      have h1 : (next 1 { u with ec := some UnpackerError.outOfRange }).ec =
          some .outOfRange := next_oor _ _ rfl
      exact (rdBE_inv n _).2.1 h1

theorem rdSZ_append (bs : List Nat) (pre post : List Nat) :
    rdSZ bs.length ⟨pre ++ (bs ++ post), pre.length, none⟩ =
      (szVal bs, ⟨pre ++ (bs ++ post), pre.length + bs.length, none⟩) := by
  induction bs generalizing pre with
  | nil => simp [rdSZ, szVal]
  | cons b rest ih =>
    have hassoc : pre ++ (b :: rest ++ post) = (pre ++ [b]) ++ (rest ++ post) := by
      simp
    simp only [List.cons_append]
    show rdSZ (rest.length + 1) _ = _
    rw [rdSZ_succ, currentByte_mid]
    have hnx : next 1 (⟨pre ++ b :: (rest ++ post), pre.length, none⟩ : Unp) =
        ⟨(pre ++ [b]) ++ (rest ++ post), (pre ++ [b]).length, none⟩ := by
      simp [next]
    rw [hnx, ih (pre ++ [b])]
    simp [szVal]
    omega

theorem szVal_bytesBE (u : Nat) : ∀ n, szVal (bytesBE u n) = u % 2 ^ (8 * n) := by
  intro n
  induction n with
  | zero => simp [bytesBE, szVal, Nat.mod_one]
  | succ n ih =>
    show szVal (byteAt u n :: bytesBE u n) = _
    simp only [szVal, bytesBE_length, ih, byteAt]
    have h2 : (2 : Nat) ^ (8 * (n + 1)) = 2 ^ (8 * n) * 256 := by
      rw [show 8 * (n + 1) = 8 * n + 8 by ring, pow_add]
      norm_num
    rw [h2, Nat.mod_mul]
    ring

theorem fixstr_byte (len : Nat) (h : len < 32) :
    ((len % 256) ||| 0xA0) = len ||| 0xA0 ∧
    (len ||| 0xA0) ≠ 0xDB ∧ (len ||| 0xA0) ≠ 0xC6 ∧ (len ||| 0xA0) ≠ 0xDA ∧
    (len ||| 0xA0) ≠ 0xC5 ∧ (len ||| 0xA0) ≠ 0xD9 ∧ (len ||| 0xA0) ≠ 0xC4 ∧
    (len ||| 0xA0) &&& 0x1F = len := by
  have hfin : ∀ m : Fin 32,
      ((m.val % 256) ||| 0xA0) = m.val ||| 0xA0 ∧
      (m.val ||| 0xA0) ≠ 0xDB ∧ (m.val ||| 0xA0) ≠ 0xC6 ∧ (m.val ||| 0xA0) ≠ 0xDA ∧
      (m.val ||| 0xA0) ≠ 0xC5 ∧ (m.val ||| 0xA0) ≠ 0xD9 ∧ (m.val ||| 0xA0) ≠ 0xC4 ∧
      (m.val ||| 0xA0) &&& 0x1F = m.val := by decide
  exact hfin ⟨len, h⟩

theorem fixarr_byte (len : Nat) (h : len < 16) :
    ((len ||| 0x90) % 256) = len ||| 0x90 ∧
    (len ||| 0x90) ≠ 0xDD ∧ (len ||| 0x90) ≠ 0xDF ∧ (len ||| 0x90) ≠ 0xDC ∧
    (len ||| 0x90) ≠ 0xDE ∧ (len ||| 0x90) &&& 0x0F = len := by
  have hfin : ∀ m : Fin 16,
      ((m.val ||| 0x90) % 256) = m.val ||| 0x90 ∧
      (m.val ||| 0x90) ≠ 0xDD ∧ (m.val ||| 0x90) ≠ 0xDF ∧ (m.val ||| 0x90) ≠ 0xDC ∧
      (m.val ||| 0x90) ≠ 0xDE ∧ (m.val ||| 0x90) &&& 0x0F = m.val := by decide
  exact hfin ⟨len, h⟩

theorem fixmap_byte (len : Nat) (h : len < 16) :
    ((len ||| 0x80) % 256) = len ||| 0x80 ∧
    (len ||| 0x80) ≠ 0xDD ∧ (len ||| 0x80) ≠ 0xDF ∧ (len ||| 0x80) ≠ 0xDC ∧
    (len ||| 0x80) ≠ 0xDE ∧ (len ||| 0x80) &&& 0x0F = len := by
  have hfin : ∀ m : Fin 16,
      ((m.val ||| 0x80) % 256) = m.val ||| 0x80 ∧
      (m.val ||| 0x80) ≠ 0xDD ∧ (m.val ||| 0x80) ≠ 0xDF ∧ (m.val ||| 0x80) ≠ 0xDC ∧
      (m.val ||| 0x80) ≠ 0xDE ∧ (m.val ||| 0x80) &&& 0x0F = m.val := by decide
  exact hfin ⟨len, h⟩

theorem unpackIntegral_empty (sg : Bool) (w : Nat) (dest : Int) (pre : List Nat) :
    (unpackIntegral sg w dest ⟨pre, pre.length, none⟩).2 =
      ⟨pre, pre.length + 1, some .outOfRange⟩ := by
  have hcb : currentByte ⟨pre, pre.length, none⟩ =
      (0, ⟨pre, pre.length, some .outOfRange⟩) := currentByte_end _ (by simp)
  simp only [unpackIntegral, hcb]
  norm_num [next]

theorem unpackBool_empty (dest : Bool) (pre : List Nat) :
    (unpackBool dest ⟨pre, pre.length, none⟩).2 =
      ⟨pre, pre.length + 1, some .outOfRange⟩ := by
  have hcb : currentByte ⟨pre, pre.length, none⟩ =
      (0, ⟨pre, pre.length, some .outOfRange⟩) := currentByte_end _ (by simp)
  simp only [unpackBool, hcb]
  norm_num [next]

theorem readSizeStr_empty (pre : List Nat) :
    readSizeStr ⟨pre, pre.length, none⟩ =
      (0, ⟨pre, pre.length + 1, some .outOfRange⟩) := by
  have hcb : currentByte ⟨pre, pre.length, none⟩ =
      (0, ⟨pre, pre.length, some .outOfRange⟩) := currentByte_end _ (by simp)
  have hcb2 : currentByte ⟨pre, pre.length, some .outOfRange⟩ =
      (0, ⟨pre, pre.length, some .outOfRange⟩) := currentByte_end _ (by simp)
  simp only [readSizeStr, hcb, hcb2]
  norm_num [next]

theorem readSizeArr_empty (pre : List Nat) :
    readSizeArr ⟨pre, pre.length, none⟩ =
      (0, ⟨pre, pre.length + 1, some .outOfRange⟩) := by
  have hcb : currentByte ⟨pre, pre.length, none⟩ =
      (0, ⟨pre, pre.length, some .outOfRange⟩) := currentByte_end _ (by simp)
  have hcb2 : currentByte ⟨pre, pre.length, some .outOfRange⟩ =
      (0, ⟨pre, pre.length, some .outOfRange⟩) := currentByte_end _ (by simp)
  simp only [readSizeArr, hcb, hcb2]
  norm_num [next]

theorem unpackValue_empty (t : Ty) (dest : Value) (pre : List Nat) (ht : t ≠ .tnil) :
    (unpackValue t dest ⟨pre, pre.length, none⟩).2 =
      ⟨pre, pre.length + 1, some .outOfRange⟩ := by
  cases t with
  | tint sg w =>
    simp only [unpackValue, Option.isSome_none, Bool.false_eq_true, if_false]
    rw [show (unpackIntegral sg w dest.intVal ⟨pre, pre.length, none⟩) =
        ((unpackIntegral sg w dest.intVal ⟨pre, pre.length, none⟩).1,
         (unpackIntegral sg w dest.intVal ⟨pre, pre.length, none⟩).2) from rfl]
    rw [unpackIntegral_empty]
  | tbool =>
    simp only [unpackValue, Option.isSome_none, Bool.false_eq_true, if_false]
    rw [show (unpackBool dest.boolVal ⟨pre, pre.length, none⟩) =
        ((unpackBool dest.boolVal ⟨pre, pre.length, none⟩).1,
         (unpackBool dest.boolVal ⟨pre, pre.length, none⟩).2) from rfl]
    rw [unpackBool_empty]
  | tnil => exact absurd rfl ht
  | tstr =>
    simp only [unpackValue, Option.isSome_none, Bool.false_eq_true, if_false,
      unpackStrOrBin, readSizeStr_empty]
    norm_num
  | tbin =>
    simp only [unpackValue, Option.isSome_none, Bool.false_eq_true, if_false,
      unpackStrOrBin, readSizeStr_empty]
    norm_num
  | tarr t =>
    simp only [unpackValue, Option.isSome_none, Bool.false_eq_true, if_false,
      readSizeArr_empty, unpElems]
  | tmap kt vt =>
    simp only [unpackValue, Option.isSome_none, Bool.false_eq_true, if_false,
      readSizeArr_empty, unpEntries]

theorem unpackIntegral_tag_pre (sg : Bool) (w : Nat) (dest : Int) (tag tw : Nat)
    (ht : (tag, tw) ∈ [(0xD3, 8), (0xCF, 8), (0xD2, 4), (0xCE, 4),
                       (0xD1, 2), (0xCD, 2), (0xD0, 1), (0xCC, 1)])
    (payload : List Nat) (hp : payload.length = tw) (hw : ¬ w < tw)
    (pre rest : List Nat) :
    unpackIntegral sg w dest ⟨pre ++ tag :: (payload ++ rest), pre.length, none⟩ =
      (toTyped sg w (beVal payload),
       ⟨pre ++ tag :: (payload ++ rest), pre.length + 1 + tw, none⟩) := by
  have hrd := rdBE_append payload (pre ++ [tag]) rest
  rw [hp] at hrd
  simp only [List.append_assoc, List.cons_append, List.nil_append, List.length_append,
    List.length_cons, List.length_nil] at hrd
  fin_cases ht <;>
  · simp only [unpackIntegral, Option.isSome_none, Bool.false_eq_true, if_false]
    rw [currentByte_mid]
    norm_num [hw, next]
    rw [show pre.length + 1 = pre.length + 1 + 0 from rfl] at hrd
    norm_num at hrd
    rw [hrd]
    exact ⟨rfl, rfl⟩

theorem unpackIntegral_fix_pre (sg : Bool) (w : Nat) (dest : Int) (b : Nat)
    (hb : b < 256) (hfix : b &&& 0x80 = 0 ∨ b &&& 0xE0 = 0xE0)
    (pre rest : List Nat) :
    unpackIntegral sg w dest ⟨pre ++ b :: rest, pre.length, none⟩ =
      (toTyped sg w b, ⟨pre ++ b :: rest, pre.length + 1, none⟩) := by
  have hrange : b < 128 ∨ 224 ≤ b := by
    rcases hfix with h | h
    · exact Or.inl ((and128_eq b hb).mp h)
    · exact Or.inr ((and224_eq b hb).mp h)
  simp only [unpackIntegral, Option.isSome_none, Bool.false_eq_true, if_false]
  rw [currentByte_mid]
  have h1 : ¬ (b = 0xD3 ∨ b = 0xCF) := by omega
  have h2 : ¬ (b = 0xD2 ∨ b = 0xCE) := by omega
  have h3 : ¬ (b = 0xD1 ∨ b = 0xCD) := by omega
  have h4 : ¬ (b = 0xD0 ∨ b = 0xCC) := by omega
  rw [if_neg h1, if_neg h2, if_neg h3, if_neg h4, if_pos hfix]
  norm_num [next]

theorem unpackIntegral_short_pre (sg : Bool) (w : Nat) (dest : Int) (tag tw : Nat)
    (ht : (tag, tw) ∈ [(0xD3, 8), (0xCF, 8), (0xD2, 4), (0xCE, 4),
                       (0xD1, 2), (0xCD, 2), (0xD0, 1), (0xCC, 1)])
    (q : List Nat) (hq : q.length < tw) (hw : ¬ w < tw) (pre : List Nat) :
    (unpackIntegral sg w dest ⟨pre ++ tag :: q, pre.length, none⟩).2.ec =
      some .outOfRange := by
  fin_cases ht <;>
  · simp only [unpackIntegral, Option.isSome_none, Bool.false_eq_true, if_false]
    rw [currentByte_mid]
    norm_num [hw, next]
    apply rdBE_short
    · norm_num
    · rfl
    · simp only [List.length_append, List.length_cons]
      omega
    · simp only [List.length_append, List.length_cons]
      omega

theorem lval_lt (w : Nat) (v : Int) (hw1 : 1 ≤ w) :
    (v % (2 ^ (8 * w))).toNat < 2 ^ (8 * w) := by
  have hpos : (0 : Int) < 2 ^ (8 * w) := pow_pos (by norm_num) _
  have h0 : 0 ≤ v % (2 ^ (8 * w)) := Int.emod_nonneg v hpos.ne'
  have h1 : v % (2 ^ (8 * w)) < 2 ^ (8 * w) := Int.emod_lt_of_pos v hpos
  have : ((2 : Int) ^ (8 * w)) = ((2 ^ (8 * w) : Nat) : Int) := by push_cast; rfl
  omega

theorem encIntegral_decode (sg : Bool) (w : Nat) (v : Int)
    (hw : w = 1 ∨ w = 2 ∨ w = 4 ∨ w = 8)
    (pre rest : List Nat) (dest : Int) :
    ∃ res, unpackIntegral sg w dest
        ⟨pre ++ encIntegral sg w v ++ rest, pre.length, none⟩ =
      (res, ⟨pre ++ encIntegral sg w v ++ rest,
             pre.length + (encIntegral sg w v).length, none⟩) := by
  have hw1 : 1 ≤ w := by rcases hw with rfl | rfl | rfl | rfl <;> norm_num
  have hlt := lval_lt w v hw1
  have h64 : (v % (2 ^ (8 * w))).toNat < 2 ^ 64 := by
    have : (2 : Nat) ^ (8 * w) ≤ 2 ^ 64 :=
      Nat.pow_le_pow_right (by norm_num) (by rcases hw with rfl | rfl | rfl | rfl <;> norm_num)
    omega
  have hsig := sigBytes_eq _ h64
  by_cases hA : sigBytes (v % (2 ^ (8 * w))).toNat > 4
  · have hly : 2 ^ 32 ≤ (v % (2 ^ (8 * w))).toNat := by
      rw [hsig] at hA
      split_ifs at hA <;> omega
    have hw8 : ¬ w < 8 := by
      rcases hw with rfl | rfl | rfl | rfl <;> norm_num at hlt ⊢ <;> omega
    have henc : encIntegral sg w v =
        (if sg then 0xD3 else 0xCF) :: bytesBE (v % (2 ^ (8 * w))).toNat 8 := by
      simp only [encIntegral]
      rw [if_pos hA]
    rw [henc]
    have hassoc : ∀ tg : Nat, pre ++ (tg :: bytesBE (v % (2 ^ (8 * w))).toNat 8) ++ rest =
        pre ++ tg :: (bytesBE (v % (2 ^ (8 * w))).toNat 8 ++ rest) := by simp
    cases sg with
    | false =>
      simp only [Bool.false_eq_true, if_false]
      rw [hassoc]
      rw [unpackIntegral_tag_pre false w dest 0xCF 8 (by decide) (bytesBE (v % (2 ^ (8 * w))).toNat 8) (bytesBE_length _ _) hw8 pre rest]
      refine ⟨toTyped false w (beVal (bytesBE (v % (2 ^ (8 * w))).toNat 8)), ?_⟩
      norm_num [bytesBE_length]
    | true =>
      rw [if_pos rfl]
      rw [hassoc]
      rw [unpackIntegral_tag_pre true w dest 0xD3 8 (by decide) (bytesBE (v % (2 ^ (8 * w))).toNat 8) (bytesBE_length _ _) hw8 pre rest]
      refine ⟨toTyped true w (beVal (bytesBE (v % (2 ^ (8 * w))).toNat 8)), ?_⟩
      norm_num [bytesBE_length]
  · by_cases hB : sigBytes (v % (2 ^ (8 * w))).toNat > 2
    · have hly : 2 ^ 16 ≤ (v % (2 ^ (8 * w))).toNat := by
        rw [hsig] at hB
        split_ifs at hB <;> omega
      have hw4 : ¬ w < 4 := by
        rcases hw with rfl | rfl | rfl | rfl <;> norm_num at hlt ⊢ <;> omega
      have henc : encIntegral sg w v =
          (if sg then 0xD2 else 0xCE) :: bytesBE (v % (2 ^ (8 * w))).toNat 4 := by
        simp only [encIntegral]
        rw [if_neg hA, if_pos hB]
      rw [henc]
      have hassoc : ∀ tg : Nat, pre ++ (tg :: bytesBE (v % (2 ^ (8 * w))).toNat 4) ++ rest =
          pre ++ tg :: (bytesBE (v % (2 ^ (8 * w))).toNat 4 ++ rest) := by simp
      cases sg with
      | false =>
        simp only [Bool.false_eq_true, if_false]
        rw [hassoc]
        rw [unpackIntegral_tag_pre false w dest 0xCE 4 (by decide) (bytesBE (v % (2 ^ (8 * w))).toNat 4) (bytesBE_length _ _) hw4 pre rest]
        refine ⟨toTyped false w (beVal (bytesBE (v % (2 ^ (8 * w))).toNat 4)), ?_⟩
        norm_num [bytesBE_length]
      | true =>
        rw [if_pos rfl]
        rw [hassoc]
        rw [unpackIntegral_tag_pre true w dest 0xD2 4 (by decide) (bytesBE (v % (2 ^ (8 * w))).toNat 4) (bytesBE_length _ _) hw4 pre rest]
        refine ⟨toTyped true w (beVal (bytesBE (v % (2 ^ (8 * w))).toNat 4)), ?_⟩
        norm_num [bytesBE_length]
    · by_cases hC : sigBytes (v % (2 ^ (8 * w))).toNat > 1
      · have hly : 2 ^ 8 ≤ (v % (2 ^ (8 * w))).toNat := by
          rw [hsig] at hC
          split_ifs at hC <;> omega
        have hw2 : ¬ w < 2 := by
          rcases hw with rfl | rfl | rfl | rfl <;> norm_num at hlt ⊢ <;> omega
        have henc : encIntegral sg w v =
            (if sg then 0xD1 else 0xCD) :: bytesBE (v % (2 ^ (8 * w))).toNat 2 := by
          simp only [encIntegral]
          rw [if_neg hA, if_neg hB, if_pos hC]
        rw [henc]
        have hassoc : ∀ tg : Nat, pre ++ (tg :: bytesBE (v % (2 ^ (8 * w))).toNat 2) ++ rest =
            pre ++ tg :: (bytesBE (v % (2 ^ (8 * w))).toNat 2 ++ rest) := by simp
        cases sg with
        | false =>
          simp only [Bool.false_eq_true, if_false]
          rw [hassoc]
          rw [unpackIntegral_tag_pre false w dest 0xCD 2 (by decide) (bytesBE (v % (2 ^ (8 * w))).toNat 2) (bytesBE_length _ _) hw2 pre rest]
          refine ⟨toTyped false w (beVal (bytesBE (v % (2 ^ (8 * w))).toNat 2)), ?_⟩
          norm_num [bytesBE_length]
        | true =>
          rw [if_pos rfl]
          rw [hassoc]
          rw [unpackIntegral_tag_pre true w dest 0xD1 2 (by decide) (bytesBE (v % (2 ^ (8 * w))).toNat 2) (bytesBE_length _ _) hw2 pre rest]
          refine ⟨toTyped true w (beVal (bytesBE (v % (2 ^ (8 * w))).toNat 2)), ?_⟩
          norm_num [bytesBE_length]
      · by_cases hF : lowByteAnd v 0x80 = 0 ∨ lowByteAnd v 0xE0 = 0xE0
        · have henc : encIntegral sg w v = [(v % 256).toNat] := by
            simp only [encIntegral]
            rw [if_neg hA, if_neg hB, if_neg hC, if_pos hF]
          rw [henc]
          have hb : (v % 256).toNat < 256 := by
            have h0 : 0 ≤ v % 256 := Int.emod_nonneg v (by norm_num)
            have h1 : v % 256 < 256 := Int.emod_lt_of_pos v (by norm_num)
            omega
          have hassoc : pre ++ [(v % 256).toNat] ++ rest =
              pre ++ (v % 256).toNat :: rest := by simp
          rw [hassoc]
          rw [unpackIntegral_fix_pre sg w dest _ hb hF pre rest]
          refine ⟨toTyped sg w (v % 256).toNat, ?_⟩
          norm_num
        · have hw1' : ¬ w < 1 := by omega
          have henc : encIntegral sg w v =
              (if sg then 0xD0 else 0xCC) :: bytesBE (v % (2 ^ (8 * w))).toNat 1 := by
            simp only [encIntegral]
            rw [if_neg hA, if_neg hB, if_neg hC, if_neg hF]
          rw [henc]
          have hassoc : ∀ tg : Nat, pre ++ (tg :: bytesBE (v % (2 ^ (8 * w))).toNat 1) ++ rest =
              pre ++ tg :: (bytesBE (v % (2 ^ (8 * w))).toNat 1 ++ rest) := by simp
          cases sg with
          | false =>
            simp only [Bool.false_eq_true, if_false]
            rw [hassoc]
            rw [unpackIntegral_tag_pre false w dest 0xCC 1 (by decide) (bytesBE (v % (2 ^ (8 * w))).toNat 1) (bytesBE_length _ _) hw1' pre rest]
            refine ⟨toTyped false w (beVal (bytesBE (v % (2 ^ (8 * w))).toNat 1)), ?_⟩
            norm_num [bytesBE_length]
          | true =>
            rw [if_pos rfl]
            rw [hassoc]
            rw [unpackIntegral_tag_pre true w dest 0xD0 1 (by decide) (bytesBE (v % (2 ^ (8 * w))).toNat 1) (bytesBE_length _ _) hw1' pre rest]
            refine ⟨toTyped true w (beVal (bytesBE (v % (2 ^ (8 * w))).toNat 1)), ?_⟩
            norm_num [bytesBE_length]

theorem encIntegral_short (sg : Bool) (w : Nat) (v : Int)
    (hw : w = 1 ∨ w = 2 ∨ w = 4 ∨ w = 8)
    (pre q r : List Nat) (hqr : encIntegral sg w v = q ++ r) (hrne : r ≠ [])
    (dest : Int) :
    (unpackIntegral sg w dest ⟨pre ++ q, pre.length, none⟩).2.ec =
      some .outOfRange := by
  have hw1 : 1 ≤ w := by rcases hw with rfl | rfl | rfl | rfl <;> norm_num
  have hlt := lval_lt w v hw1
  have h64 : (v % (2 ^ (8 * w))).toNat < 2 ^ 64 := by
    have : (2 : Nat) ^ (8 * w) ≤ 2 ^ 64 :=
      Nat.pow_le_pow_right (by norm_num) (by rcases hw with rfl | rfl | rfl | rfl <;> norm_num)
    omega
  have hsig := sigBytes_eq _ h64
  cases q with
  | nil =>
    have : (unpackIntegral sg w dest ⟨pre ++ [], pre.length, none⟩).2 =
        ⟨pre, pre.length + 1, some .outOfRange⟩ := by
      rw [List.append_nil]
      exact unpackIntegral_empty sg w dest pre
    rw [this]
  | cons b q' =>
    by_cases hA : sigBytes (v % (2 ^ (8 * w))).toNat > 4
    · have hly : 2 ^ 32 ≤ (v % (2 ^ (8 * w))).toNat := by
        rw [hsig] at hA
        split_ifs at hA <;> omega
      have hw8 : ¬ w < 8 := by
        rcases hw with rfl | rfl | rfl | rfl <;> norm_num at hlt ⊢ <;> omega
      have henc : encIntegral sg w v =
          (if sg then 0xD3 else 0xCF) :: bytesBE (v % (2 ^ (8 * w))).toNat 8 := by
        simp only [encIntegral]
        rw [if_pos hA]
      rw [henc] at hqr
      have hb : b = (if sg then 0xD3 else 0xCF) := (List.cons.injEq _ _ _ _ ▸ hqr).1.symm
      have hq' : q' ++ r = bytesBE (v % (2 ^ (8 * w))).toNat 8 :=
        ((List.cons.injEq _ _ _ _ ▸ hqr).2).symm
      have hlen : q'.length < 8 := by
        have := congrArg List.length hq'
        simp only [List.length_append, bytesBE_length] at this
        have hrl : 1 ≤ r.length := by
          cases r with
          | nil => exact absurd rfl hrne
          | cons a as => simp
        omega
      subst hb
      cases sg
      · exact unpackIntegral_short_pre false w dest 0xCF 8 (by decide) q' hlen hw8 pre
      · exact unpackIntegral_short_pre true w dest 0xD3 8 (by decide) q' hlen hw8 pre
    · by_cases hB : sigBytes (v % (2 ^ (8 * w))).toNat > 2
      · have hly : 2 ^ 16 ≤ (v % (2 ^ (8 * w))).toNat := by
          rw [hsig] at hB
          split_ifs at hB <;> omega
        have hw4 : ¬ w < 4 := by
          rcases hw with rfl | rfl | rfl | rfl <;> norm_num at hlt ⊢ <;> omega
        have henc : encIntegral sg w v =
            (if sg then 0xD2 else 0xCE) :: bytesBE (v % (2 ^ (8 * w))).toNat 4 := by
          simp only [encIntegral]
          rw [if_neg hA, if_pos hB]
        rw [henc] at hqr
        have hb : b = (if sg then 0xD2 else 0xCE) := (List.cons.injEq _ _ _ _ ▸ hqr).1.symm
        have hq' : q' ++ r = bytesBE (v % (2 ^ (8 * w))).toNat 4 :=
          ((List.cons.injEq _ _ _ _ ▸ hqr).2).symm
        have hlen : q'.length < 4 := by
          have := congrArg List.length hq'
          simp only [List.length_append, bytesBE_length] at this
          have hrl : 1 ≤ r.length := by
            cases r with
            | nil => exact absurd rfl hrne
            | cons a as => simp
          omega
        subst hb
        cases sg
        · exact unpackIntegral_short_pre false w dest 0xCE 4 (by decide) q' hlen hw4 pre
        · exact unpackIntegral_short_pre true w dest 0xD2 4 (by decide) q' hlen hw4 pre
      · by_cases hC : sigBytes (v % (2 ^ (8 * w))).toNat > 1
        · have hly : 2 ^ 8 ≤ (v % (2 ^ (8 * w))).toNat := by
            rw [hsig] at hC
            split_ifs at hC <;> omega
          have hw2 : ¬ w < 2 := by
            rcases hw with rfl | rfl | rfl | rfl <;> norm_num at hlt ⊢ <;> omega
          have henc : encIntegral sg w v =
              (if sg then 0xD1 else 0xCD) :: bytesBE (v % (2 ^ (8 * w))).toNat 2 := by
            simp only [encIntegral]
            rw [if_neg hA, if_neg hB, if_pos hC]
          rw [henc] at hqr
          have hb : b = (if sg then 0xD1 else 0xCD) := (List.cons.injEq _ _ _ _ ▸ hqr).1.symm
          have hq' : q' ++ r = bytesBE (v % (2 ^ (8 * w))).toNat 2 :=
            ((List.cons.injEq _ _ _ _ ▸ hqr).2).symm
          have hlen : q'.length < 2 := by
            have := congrArg List.length hq'
            simp only [List.length_append, bytesBE_length] at this
            have hrl : 1 ≤ r.length := by
              cases r with
              | nil => exact absurd rfl hrne
              | cons a as => simp
            omega
          subst hb
          cases sg
          · exact unpackIntegral_short_pre false w dest 0xCD 2 (by decide) q' hlen hw2 pre
          · exact unpackIntegral_short_pre true w dest 0xD1 2 (by decide) q' hlen hw2 pre
        · by_cases hF : lowByteAnd v 0x80 = 0 ∨ lowByteAnd v 0xE0 = 0xE0
          · have henc : encIntegral sg w v = [(v % 256).toNat] := by
              simp only [encIntegral]
              rw [if_neg hA, if_neg hB, if_neg hC, if_pos hF]
            rw [henc] at hqr
            have h2 : ([] : List Nat) = q' ++ r := (List.cons.injEq _ _ _ _ ▸ hqr).2
            exact absurd (List.append_eq_nil.mp h2.symm).2 hrne
          · have hw1' : ¬ w < 1 := by omega
            have henc : encIntegral sg w v =
                (if sg then 0xD0 else 0xCC) :: bytesBE (v % (2 ^ (8 * w))).toNat 1 := by
              simp only [encIntegral]
              rw [if_neg hA, if_neg hB, if_neg hC, if_neg hF]
            rw [henc] at hqr
            have hb : b = (if sg then 0xD0 else 0xCC) := (List.cons.injEq _ _ _ _ ▸ hqr).1.symm
            have hq' : q' ++ r = bytesBE (v % (2 ^ (8 * w))).toNat 1 :=
              ((List.cons.injEq _ _ _ _ ▸ hqr).2).symm
            have hlen : q'.length < 1 := by
              have := congrArg List.length hq'
              simp only [List.length_append, bytesBE_length] at this
              have hrl : 1 ≤ r.length := by
                cases r with
                | nil => exact absurd rfl hrne
                | cons a as => simp
              omega
            subst hb
            cases sg
            · exact unpackIntegral_short_pre false w dest 0xCC 1 (by decide) q' hlen hw1' pre
            · exact unpackIntegral_short_pre true w dest 0xD0 1 (by decide) q' hlen hw1' pre

theorem unpackBool_pre (dest : Bool) (b : Nat) (pre rest : List Nat) :
    unpackBool dest ⟨pre ++ b :: rest, pre.length, none⟩ =
      (decide (b ≠ 0xC2), ⟨pre ++ b :: rest, pre.length + 1, none⟩) := by
  simp only [unpackBool, Option.isSome_none, Bool.false_eq_true, if_false]
  rw [currentByte_mid]
  norm_num [next]

theorem unpackNil_pre (pre : List Nat) (x : Nat) (rest : List Nat) :
    unpackNil ⟨pre ++ x :: rest, pre.length, none⟩ =
      ⟨pre ++ x :: rest, pre.length + 1, none⟩ := by
  simp only [unpackNil, Option.isSome_none, Bool.false_eq_true, if_false]
  norm_num [next]

theorem readSizeStr_tag_pre (tag nb : Nat)
    (ht : (tag, nb) ∈ [(0xDB, 4), (0xC6, 4), (0xDA, 2), (0xC5, 2), (0xD9, 1), (0xC4, 1)])
    (payload : List Nat) (hp : payload.length = nb) (pre rest : List Nat) :
    readSizeStr ⟨pre ++ tag :: (payload ++ rest), pre.length, none⟩ =
      (szVal payload, ⟨pre ++ tag :: (payload ++ rest), pre.length + 1 + nb, none⟩) := by
  have hrd := rdSZ_append payload (pre ++ [tag]) rest
  rw [hp] at hrd
  simp only [List.append_assoc, List.cons_append, List.nil_append, List.length_append,
    List.length_cons, List.length_nil] at hrd
  fin_cases ht <;>
  · simp only [readSizeStr]
    rw [currentByte_mid]
    norm_num [next]
    rw [show pre.length + 1 = pre.length + 1 + 0 from rfl] at hrd
    norm_num at hrd
    rw [hrd]

theorem readSizeArr_tag_pre (tag nb : Nat)
    (ht : (tag, nb) ∈ [(0xDD, 4), (0xDF, 4), (0xDC, 2), (0xDE, 2)])
    (payload : List Nat) (hp : payload.length = nb) (pre rest : List Nat) :
    readSizeArr ⟨pre ++ tag :: (payload ++ rest), pre.length, none⟩ =
      (szVal payload, ⟨pre ++ tag :: (payload ++ rest), pre.length + 1 + nb, none⟩) := by
  have hrd := rdSZ_append payload (pre ++ [tag]) rest
  rw [hp] at hrd
  simp only [List.append_assoc, List.cons_append, List.nil_append, List.length_append,
    List.length_cons, List.length_nil] at hrd
  fin_cases ht <;>
  · simp only [readSizeArr]
    rw [currentByte_mid]
    norm_num [next]
    rw [show pre.length + 1 = pre.length + 1 + 0 from rfl] at hrd
    norm_num at hrd
    rw [hrd]

theorem readSizeStr_fix_pre (b : Nat)
    (hne : b ≠ 0xDB ∧ b ≠ 0xC6 ∧ b ≠ 0xDA ∧ b ≠ 0xC5 ∧ b ≠ 0xD9 ∧ b ≠ 0xC4)
    (pre rest : List Nat) :
    readSizeStr ⟨pre ++ b :: rest, pre.length, none⟩ =
      (b &&& 0x1F, ⟨pre ++ b :: rest, pre.length + 1, none⟩) := by
  obtain ⟨n1, n2, n3, n4, n5, n6⟩ := hne
  simp only [readSizeStr]
  rw [currentByte_mid]
  norm_num [n1, n2, n3, n4, n5, n6, currentByte_mid, next]

theorem readSizeArr_fix_pre (b : Nat)
    (hne : b ≠ 0xDD ∧ b ≠ 0xDF ∧ b ≠ 0xDC ∧ b ≠ 0xDE)
    (pre rest : List Nat) :
    readSizeArr ⟨pre ++ b :: rest, pre.length, none⟩ =
      (b &&& 0x0F, ⟨pre ++ b :: rest, pre.length + 1, none⟩) := by
  obtain ⟨n1, n2, n3, n4⟩ := hne
  simp only [readSizeArr]
  rw [currentByte_mid]
  norm_num [n1, n2, n3, n4, currentByte_mid, next]

theorem readSizeStr_short_pre (tag nb : Nat)
    (ht : (tag, nb) ∈ [(0xDB, 4), (0xC6, 4), (0xDA, 2), (0xC5, 2), (0xD9, 1), (0xC4, 1)])
    (q : List Nat) (hq : q.length < nb) (pre : List Nat) :
    (readSizeStr ⟨pre ++ tag :: q, pre.length, none⟩).2.ec = some .outOfRange := by
  fin_cases ht <;>
  · simp only [readSizeStr]
    rw [currentByte_mid]
    norm_num [next]
    apply rdSZ_short
    · norm_num
    · rfl
    · simp only [List.length_append, List.length_cons]
      omega
    · simp only [List.length_append, List.length_cons]
      omega

theorem readSizeArr_short_pre (tag nb : Nat)
    (ht : (tag, nb) ∈ [(0xDD, 4), (0xDF, 4), (0xDC, 2), (0xDE, 2)])
    (q : List Nat) (hq : q.length < nb) (pre : List Nat) :
    (readSizeArr ⟨pre ++ tag :: q, pre.length, none⟩).2.ec = some .outOfRange := by
  fin_cases ht <;>
  · simp only [readSizeArr]
    rw [currentByte_mid]
    norm_num [next]
    apply rdSZ_short
    · norm_num
    · rfl
    · simp only [List.length_append, List.length_cons]
      omega
    · simp only [List.length_append, List.length_cons]
      omega

theorem encStrHeader_shape (isStr : Bool) (len : Nat) (h : List Nat)
    (hh : encStrHeader isStr len = some h) :
    (∃ b, h = [b] ∧ b ≠ 0xDB ∧ b ≠ 0xC6 ∧ b ≠ 0xDA ∧ b ≠ 0xC5 ∧ b ≠ 0xD9 ∧ b ≠ 0xC4 ∧
      b &&& 0x1F = len) ∨
    (∃ tag nb, (tag, nb) ∈ [(0xDB, 4), (0xC6, 4), (0xDA, 2), (0xC5, 2), (0xD9, 1), (0xC4, 1)] ∧
      h = tag :: bytesBE len nb ∧ len < 2 ^ (8 * nb)) := by
  cases isStr
  · simp only [encStrHeader, Bool.false_eq_true, false_and, if_false] at hh
    split_ifs at hh with h2 h3 h4
    · injection hh with hh
      exact Or.inr ⟨0xC4, 1, by decide, hh.symm, by norm_num; omega⟩
    · injection hh with hh
      exact Or.inr ⟨0xC5, 2, by decide, by rw [← hh], by norm_num; omega⟩
    · injection hh with hh
      exact Or.inr ⟨0xC6, 4, by decide, by rw [← hh], by norm_num; omega⟩
  · simp only [encStrHeader, if_true, true_and] at hh
    split_ifs at hh with h1 h2 h3 h4
    · injection hh with hh
      obtain ⟨he, n1, n2, n3, n4, n5, n6, hand⟩ := fixstr_byte len h1
      rw [he] at hh
      exact Or.inl ⟨len ||| 0xA0, hh.symm, n1, n2, n3, n4, n5, n6, hand⟩
    · injection hh with hh
      exact Or.inr ⟨0xD9, 1, by decide, hh.symm, by norm_num; omega⟩
    · injection hh with hh
      exact Or.inr ⟨0xDA, 2, by decide, by rw [← hh], by norm_num; omega⟩
    · injection hh with hh
      exact Or.inr ⟨0xDB, 4, by decide, by rw [← hh], by norm_num; omega⟩

theorem encSeqHeader_shape (isMap : Bool) (len : Nat) (h : List Nat)
    (hh : encSeqHeader isMap len = some h) :
    (∃ b, h = [b] ∧ b ≠ 0xDD ∧ b ≠ 0xDF ∧ b ≠ 0xDC ∧ b ≠ 0xDE ∧
      b &&& 0x0F = len) ∨
    (∃ tag nb, (tag, nb) ∈ [(0xDD, 4), (0xDF, 4), (0xDC, 2), (0xDE, 2)] ∧
      h = tag :: bytesBE len nb ∧ len < 2 ^ (8 * nb)) := by
  cases isMap
  · simp only [encSeqHeader, Bool.false_eq_true, if_false] at hh
    split_ifs at hh with h1 h2 h3
    · injection hh with hh
      obtain ⟨he, n1, n2, n3, n4, hand⟩ := fixarr_byte len h1
      rw [he] at hh
      exact Or.inl ⟨len ||| 0x90, hh.symm, n1, n2, n3, n4, hand⟩
    · injection hh with hh
      exact Or.inr ⟨0xDC, 2, by decide, hh.symm, by norm_num; omega⟩
    · injection hh with hh
      exact Or.inr ⟨0xDD, 4, by decide, by rw [← hh], by norm_num; omega⟩
  · simp only [encSeqHeader, if_true] at hh
    split_ifs at hh with h1 h2 h3
    · injection hh with hh
      obtain ⟨he, n1, n2, n3, n4, hand⟩ := fixmap_byte len h1
      rw [he] at hh
      exact Or.inl ⟨len ||| 0x80, hh.symm, n1, n2, n3, n4, hand⟩
    · injection hh with hh
      exact Or.inr ⟨0xDE, 2, by decide, hh.symm, by norm_num; omega⟩
    · injection hh with hh
      exact Or.inr ⟨0xDF, 4, by decide, by rw [← hh], by norm_num; omega⟩

theorem readSizeStr_exact (isStr : Bool) (len : Nat) (h : List Nat)
    (hh : encStrHeader isStr len = some h) (pre rest : List Nat) :
    readSizeStr ⟨pre ++ h ++ rest, pre.length, none⟩ =
      (len, ⟨pre ++ h ++ rest, pre.length + h.length, none⟩) := by
  rcases encStrHeader_shape isStr len h hh with
    ⟨b, rfl, n1, n2, n3, n4, n5, n6, hand⟩ | ⟨tag, nb, ht, rfl, hlt⟩
  · have hassoc : pre ++ [b] ++ rest = pre ++ b :: rest := by simp
    rw [hassoc, readSizeStr_fix_pre b ⟨n1, n2, n3, n4, n5, n6⟩ pre rest, hand]
    simp
  · have hassoc : pre ++ (tag :: bytesBE len nb) ++ rest =
        pre ++ tag :: (bytesBE len nb ++ rest) := by simp
    rw [hassoc, readSizeStr_tag_pre tag nb ht (bytesBE len nb) (bytesBE_length _ _) pre rest,
      szVal_bytesBE, Nat.mod_eq_of_lt hlt]
    norm_num [bytesBE_length]
    omega

theorem readSizeArr_exact (isMap : Bool) (len : Nat) (h : List Nat)
    (hh : encSeqHeader isMap len = some h) (pre rest : List Nat) :
    readSizeArr ⟨pre ++ h ++ rest, pre.length, none⟩ =
      (len, ⟨pre ++ h ++ rest, pre.length + h.length, none⟩) := by
  rcases encSeqHeader_shape isMap len h hh with
    ⟨b, rfl, n1, n2, n3, n4, hand⟩ | ⟨tag, nb, ht, rfl, hlt⟩
  · have hassoc : pre ++ [b] ++ rest = pre ++ b :: rest := by simp
    rw [hassoc, readSizeArr_fix_pre b ⟨n1, n2, n3, n4⟩ pre rest, hand]
    simp
  · have hassoc : pre ++ (tag :: bytesBE len nb) ++ rest =
        pre ++ tag :: (bytesBE len nb ++ rest) := by simp
    rw [hassoc, readSizeArr_tag_pre tag nb ht (bytesBE len nb) (bytesBE_length _ _) pre rest,
      szVal_bytesBE, Nat.mod_eq_of_lt hlt]
    norm_num [bytesBE_length]
    omega

theorem readSizeStr_short (isStr : Bool) (len : Nat) (h : List Nat)
    (hh : encStrHeader isStr len = some h) (q r : List Nat) (hqr : h = q ++ r)
    (hrne : r ≠ []) (pre : List Nat) :
    (readSizeStr ⟨pre ++ q, pre.length, none⟩).2.ec = some .outOfRange := by
  rcases encStrHeader_shape isStr len h hh with
    ⟨b, hb, _⟩ | ⟨tag, nb, ht, hshape, hlt⟩
  · rw [hb] at hqr
    cases q with
    | nil =>
      rw [List.append_nil, readSizeStr_empty]
    | cons b' q' =>
      rw [List.cons_append] at hqr
      have h2 := (List.cons.injEq _ _ _ _ ▸ hqr).2
      exact absurd (List.append_eq_nil.mp h2.symm).2 hrne
  · rw [hshape] at hqr
    cases q with
    | nil =>
      rw [List.append_nil, readSizeStr_empty]
    | cons b' q' =>
      rw [List.cons_append] at hqr
      have hb' : tag = b' := (List.cons.injEq _ _ _ _ ▸ hqr).1
      have hq' : bytesBE len nb = q' ++ r := (List.cons.injEq _ _ _ _ ▸ hqr).2
      have hlen : q'.length < nb := by
        have hl := congrArg List.length hq'
        simp only [List.length_append, bytesBE_length] at hl
        have hr1 : 1 ≤ r.length := by
          cases r with
          | nil => exact absurd rfl hrne
          | cons a as => simp
        omega
      rw [← hb']
      exact readSizeStr_short_pre tag nb ht q' hlen pre

theorem readSizeArr_short (isMap : Bool) (len : Nat) (h : List Nat)
    (hh : encSeqHeader isMap len = some h) (q r : List Nat) (hqr : h = q ++ r)
    (hrne : r ≠ []) (pre : List Nat) :
    (readSizeArr ⟨pre ++ q, pre.length, none⟩).2.ec = some .outOfRange := by
  rcases encSeqHeader_shape isMap len h hh with
    ⟨b, hb, _⟩ | ⟨tag, nb, ht, hshape, hlt⟩
  · rw [hb] at hqr
    cases q with
    | nil =>
      rw [List.append_nil, readSizeArr_empty]
    | cons b' q' =>
      rw [List.cons_append] at hqr
      have h2 := (List.cons.injEq _ _ _ _ ▸ hqr).2
      exact absurd (List.append_eq_nil.mp h2.symm).2 hrne
  · rw [hshape] at hqr
    cases q with
    | nil =>
      rw [List.append_nil, readSizeArr_empty]
    | cons b' q' =>
      rw [List.cons_append] at hqr
      have hb' : tag = b' := (List.cons.injEq _ _ _ _ ▸ hqr).1
      have hq' : bytesBE len nb = q' ++ r := (List.cons.injEq _ _ _ _ ▸ hqr).2
      have hlen : q'.length < nb := by
        have hl := congrArg List.length hq'
        simp only [List.length_append, bytesBE_length] at hl
        have hr1 : 1 ≤ r.length := by
          cases r with
          | nil => exact absurd rfl hrne
          | cons a as => simp
        omega
      rw [← hb']
      exact readSizeArr_short_pre tag nb ht q' hlen pre

theorem unpackStrOrBin_exact (isStr : Bool) (s : List Nat) (h : List Nat)
    (hh : encStrHeader isStr s.length = some h) (pre rest : List Nat) (dest : List Nat) :
    ∃ res, unpackStrOrBin dest
        ⟨pre ++ (h ++ s.map (· % 256)) ++ rest, pre.length, none⟩ =
      (res, ⟨pre ++ (h ++ s.map (· % 256)) ++ rest,
             pre.length + (h ++ s.map (· % 256)).length, none⟩) := by
  simp only [unpackStrOrBin, Option.isSome_none, Bool.false_eq_true, if_false]
  have hassoc : pre ++ (h ++ s.map (· % 256)) ++ rest =
      pre ++ h ++ (s.map (· % 256) ++ rest) := by simp
  rw [hassoc, readSizeStr_exact isStr s.length h hh pre (s.map (· % 256) ++ rest)]
  rw [if_pos (by simp only [List.length_append, List.length_map]; omega)]
  refine ⟨List.take s.length
    (List.drop (pre.length + h.length) (pre ++ h ++ (s.map (· % 256) ++ rest))), ?_⟩
  norm_num [next, List.length_map]
  omega

theorem unpackStrOrBin_short (isStr : Bool) (s : List Nat) (h : List Nat)
    (hh : encStrHeader isStr s.length = some h) (q r : List Nat)
    (hqr : h ++ s.map (· % 256) = q ++ r) (hrne : r ≠ []) (pre : List Nat)
    (dest : List Nat) :
    (unpackStrOrBin dest ⟨pre ++ q, pre.length, none⟩).2.ec = some .outOfRange := by
  simp only [unpackStrOrBin, Option.isSome_none, Bool.false_eq_true, if_false]
  rcases List.append_eq_append_iff.mp hqr with ⟨a', ha1, ha2⟩ | ⟨c', hc1, hc2⟩
  · subst ha1
    have halen : a'.length < s.length := by
      have hl := congrArg List.length ha2
      simp only [List.length_append, List.length_map] at hl
      have hr1 : 1 ≤ r.length := by
        cases r with
        | nil => exact absurd rfl hrne
        | cons a as => simp
      omega
    rw [show pre ++ (h ++ a') = pre ++ h ++ a' from by simp]
    rw [readSizeStr_exact isStr s.length h hh pre a']
    rw [if_neg (by simp only [List.length_append]; omega)]
  · by_cases hc : c' = []
    · subst hc
      have hhq : h = q := by simpa using hc1
      subst hhq
      have hs1 : 1 ≤ s.length := by
        rw [hc2] at hrne
        simp only [List.nil_append] at hrne
        cases s with
        | nil => simp at hrne
        | cons a as => simp
      rw [show pre ++ h = pre ++ h ++ ([] : List Nat) from by simp]
      rw [readSizeStr_exact isStr s.length h hh pre []]
      rw [if_neg (by simp only [List.length_append, List.length_nil]; omega)]
    · have hso := readSizeStr_short isStr s.length h hh q c' hc1 hc pre
      rcases hrs : readSizeStr ⟨pre ++ q, pre.length, none⟩ with ⟨sz, u1⟩
      rw [hrs] at hso
      split_ifs
      · exact next_oor _ _ hso
      · rfl

theorem unpElems_stuck (f : Unp → Value × Unp)
    (hf : ∀ u, u.ec.isSome = true → (f u).2 = u) :
    ∀ (n : Nat) (acc : List Value) (u : Unp), u.ec.isSome = true →
      (unpElems f n acc u).2 = u := by
  intro n
  induction n with
  | zero => intro acc u h; rfl
  | succ n ih =>
    intro acc u h
    simp only [unpElems]
    rcases hfu : f u with ⟨v, u1⟩
    have hu : u1 = u := by rw [← hf u h, hfu]
    rw [hu]
    exact ih _ u h

theorem unpEntries_stuck (fk fv : Unp → Value × Unp)
    (hfk : ∀ u, u.ec.isSome = true → (fk u).2 = u)
    (hfv : ∀ u, u.ec.isSome = true → (fv u).2 = u) :
    ∀ (n : Nat) (acc : List (Value × Value)) (u : Unp), u.ec.isSome = true →
      (unpEntries fk fv n acc u).2 = u := by
  intro n
  induction n with
  | zero => intro acc u h; rfl
  | succ n ih =>
    intro acc u h
    simp only [unpEntries]
    rcases hfu : fk u with ⟨k, u1⟩
    have hu1 : u1 = u := by rw [← hfk u h, hfu]
    rcases hfv2 : fv u1 with ⟨v, u2⟩
    rw [hu1] at hfv2
    have hu2 : u2 = u := by
      have h2 := hfv u h
      rw [hfv2] at h2
      simpa using h2
    rw [hu2]
    exact ih _ u h

theorem unpElems_exact (f : Unp → Value × Unp) :
    ∀ (es : List Value),
    (∀ v ∈ es, ∀ (pre rest : List Nat), ∃ res,
      f ⟨pre ++ encValue v ++ rest, pre.length, none⟩ =
        (res, ⟨pre ++ encValue v ++ rest, pre.length + (encValue v).length, none⟩)) →
    ∀ (pre rest : List Nat) (acc : List Value),
    ∃ acc2, unpElems f es.length acc ⟨pre ++ encList es ++ rest, pre.length, none⟩ =
      (acc2, ⟨pre ++ encList es ++ rest, pre.length + (encList es).length, none⟩) := by
  intro es
  induction es with
  | nil =>
    intro hE pre rest acc
    exact ⟨acc, by simp [unpElems, encList]⟩
  | cons e es ih =>
    intro hE pre rest acc
    obtain ⟨res, hres⟩ := hE e (by simp) pre (encList es ++ rest)
    simp only [List.length_cons, encList, unpElems]
    have hb1 : pre ++ (encValue e ++ encList es) ++ rest =
        pre ++ encValue e ++ (encList es ++ rest) := by simp
    rw [hb1, hres]
    have hb2 : pre ++ encValue e ++ (encList es ++ rest) =
        (pre ++ encValue e) ++ encList es ++ rest := by simp
    have hp2 : pre.length + (encValue e).length = (pre ++ encValue e).length := by simp
    rw [hb2, hp2]
    obtain ⟨acc2, hacc⟩ := ih (fun v hv => hE v (by simp [hv])) (pre ++ encValue e) rest
      (acc ++ [res])
    rw [hacc]
    refine ⟨acc2, ?_⟩
    simp only [List.length_append, List.append_assoc]
    norm_num
    omega

theorem unpEntries_exact (fk fv : Unp → Value × Unp) :
    ∀ (es : List (Value × Value)),
    (∀ k v, (k, v) ∈ es → ∀ (pre rest : List Nat), ∃ res,
      fk ⟨pre ++ encValue k ++ rest, pre.length, none⟩ =
        (res, ⟨pre ++ encValue k ++ rest, pre.length + (encValue k).length, none⟩)) →
    (∀ k v, (k, v) ∈ es → ∀ (pre rest : List Nat), ∃ res,
      fv ⟨pre ++ encValue v ++ rest, pre.length, none⟩ =
        (res, ⟨pre ++ encValue v ++ rest, pre.length + (encValue v).length, none⟩)) →
    ∀ (pre rest : List Nat) (acc : List (Value × Value)),
    ∃ acc2, unpEntries fk fv es.length acc ⟨pre ++ encEntries es ++ rest, pre.length, none⟩ =
      (acc2, ⟨pre ++ encEntries es ++ rest, pre.length + (encEntries es).length, none⟩) := by
  intro es
  induction es with
  | nil =>
    intro hK hV pre rest acc
    exact ⟨acc, by simp [unpEntries, encEntries]⟩
  | cons e es ih =>
    obtain ⟨k, v⟩ := e
    intro hK hV pre rest acc
    obtain ⟨rk, hrk⟩ := hK k v (by simp) pre (encValue v ++ encEntries es ++ rest)
    obtain ⟨rv, hrv⟩ := hV k v (by simp) (pre ++ encValue k) (encEntries es ++ rest)
    simp only [List.length_cons, encEntries, unpEntries]
    have hb1 : pre ++ (encValue k ++ encValue v ++ encEntries es) ++ rest =
        pre ++ encValue k ++ (encValue v ++ encEntries es ++ rest) := by simp
    rw [hb1, hrk]
    have hb2 : pre ++ encValue k ++ (encValue v ++ encEntries es ++ rest) =
        (pre ++ encValue k) ++ encValue v ++ (encEntries es ++ rest) := by simp
    have hp2 : pre.length + (encValue k).length = (pre ++ encValue k).length := by simp
    rw [hb2, hp2, hrv]
    have hb3 : (pre ++ encValue k) ++ encValue v ++ (encEntries es ++ rest) =
        ((pre ++ encValue k) ++ encValue v) ++ encEntries es ++ rest := by simp
    have hp3 : (pre ++ encValue k).length + (encValue v).length =
        ((pre ++ encValue k) ++ encValue v).length := by
      simp only [List.length_append]
    rw [hb3, hp3]
    obtain ⟨acc2, hacc⟩ := ih (fun k2 v2 hkv => hK k2 v2 (by simp [hkv]))
      (fun k2 v2 hkv => hV k2 v2 (by simp [hkv])) ((pre ++ encValue k) ++ encValue v) rest
      (insertOrAssign rk rv acc)
    rw [hacc]
    refine ⟨acc2, ?_⟩
    have hlen : ((pre ++ encValue k) ++ encValue v).length + (encEntries es).length =
        pre.length + (encValue k ++ encValue v ++ encEntries es).length := by
      simp only [List.length_append]
      omega
    rw [hlen]

theorem unpElems_short (f : Unp → Value × Unp)
    (hstuck : ∀ u, u.ec.isSome = true → (f u).2 = u) :
    ∀ (es : List Value),
    (∀ v ∈ es, ∀ (pre rest : List Nat), ∃ res,
      f ⟨pre ++ encValue v ++ rest, pre.length, none⟩ =
        (res, ⟨pre ++ encValue v ++ rest, pre.length + (encValue v).length, none⟩)) →
    (∀ v ∈ es, ∀ (pre : List Nat) (q r : List Nat), encValue v = q ++ r → r ≠ [] →
      (f ⟨pre ++ q, pre.length, none⟩).2.ec = some .outOfRange) →
    ∀ (pre q r : List Nat) (acc : List Value), encList es = q ++ r → r ≠ [] →
    (unpElems f es.length acc ⟨pre ++ q, pre.length, none⟩).2.ec = some .outOfRange := by
  intro es
  induction es with
  | nil =>
    intro hE hP pre q r acc hqr hrne
    exact absurd (List.append_eq_nil.mp ((by simpa [encList] using hqr : ([] : List Nat) = q ++ r)).symm).2 hrne
  | cons e es ih =>
    intro hE hP pre q r acc hqr hrne
    simp only [encList] at hqr
    simp only [List.length_cons, unpElems]
    rcases List.append_eq_append_iff.mp hqr with ⟨a', ha1, ha2⟩ | ⟨c', hc1, hc2⟩
    · subst ha1
      obtain ⟨res, hres⟩ := hE e (by simp) pre a'
      have hb1 : pre ++ (encValue e ++ a') = pre ++ encValue e ++ a' := by simp
      rw [hb1, hres]
      have hb2 : pre ++ encValue e ++ a' = (pre ++ encValue e) ++ a' := by simp
      have hp2 : pre.length + (encValue e).length = (pre ++ encValue e).length := by simp
      rw [hb2, hp2]
      exact ih (fun v hv => hE v (by simp [hv])) (fun v hv => hP v (by simp [hv]))
        (pre ++ encValue e) a' r (acc ++ [res]) ha2 hrne
    · by_cases hc : c' = []
      · subst hc
        have hq : encValue e = q := by simpa using hc1
        have hr : r = encList es := by simpa using hc2
        subst hq
        obtain ⟨res, hres⟩ := hE e (by simp) pre []
        have hb1 : pre ++ encValue e = pre ++ encValue e ++ ([] : List Nat) := by simp
        rw [hb1, hres]
        have hb2 : pre ++ encValue e ++ ([] : List Nat) =
            (pre ++ encValue e) ++ ([] : List Nat) := by simp
        have hp2 : pre.length + (encValue e).length = (pre ++ encValue e).length := by simp
        rw [hb2, hp2]
        exact ih (fun v hv => hE v (by simp [hv])) (fun v hv => hP v (by simp [hv]))
          (pre ++ encValue e) [] r (acc ++ [res]) (by rw [hr]; simp) hrne
      · have hPe := hP e (by simp) pre q c' hc1 hc
        rcases hfu : f ⟨pre ++ q, pre.length, none⟩ with ⟨res, u1⟩
        rw [hfu] at hPe
        rw [unpElems_stuck f hstuck es.length (acc ++ [res]) u1 (by rw [hPe]; rfl)]
        exact hPe

theorem unpEntries_short (fk fv : Unp → Value × Unp)
    (hstuckK : ∀ u, u.ec.isSome = true → (fk u).2 = u)
    (hstuckV : ∀ u, u.ec.isSome = true → (fv u).2 = u) :
    ∀ (es : List (Value × Value)),
    (∀ k v, (k, v) ∈ es → ∀ (pre rest : List Nat), ∃ res,
      fk ⟨pre ++ encValue k ++ rest, pre.length, none⟩ =
        (res, ⟨pre ++ encValue k ++ rest, pre.length + (encValue k).length, none⟩)) →
    (∀ k v, (k, v) ∈ es → ∀ (pre rest : List Nat), ∃ res,
      fv ⟨pre ++ encValue v ++ rest, pre.length, none⟩ =
        (res, ⟨pre ++ encValue v ++ rest, pre.length + (encValue v).length, none⟩)) →
    (∀ k v, (k, v) ∈ es → ∀ (pre : List Nat) (q r : List Nat), encValue k = q ++ r → r ≠ [] →
      (fk ⟨pre ++ q, pre.length, none⟩).2.ec = some .outOfRange) →
    (∀ k v, (k, v) ∈ es → ∀ (pre : List Nat) (q r : List Nat), encValue v = q ++ r → r ≠ [] →
      (fv ⟨pre ++ q, pre.length, none⟩).2.ec = some .outOfRange) →
    (∀ k v, (k, v) ∈ es → encValue v ≠ []) →
    ∀ (pre q r : List Nat) (acc : List (Value × Value)), encEntries es = q ++ r → r ≠ [] →
    (unpEntries fk fv es.length acc ⟨pre ++ q, pre.length, none⟩).2.ec =
      some .outOfRange := by
  intro es
  induction es with
  | nil =>
    intro hEK hEV hPK hPV hvne pre q r acc hqr hrne
    have h0 : ([] : List Nat) = q ++ r := by simpa [encEntries] using hqr
    exact absurd (List.append_eq_nil.mp h0.symm).2 hrne
  | cons e es ih =>
    obtain ⟨k, v⟩ := e
    intro hEK hEV hPK hPV hvne pre q r acc hqr hrne
    have ihs := ih (fun k2 v2 hkv => hEK k2 v2 (by simp [hkv]))
      (fun k2 v2 hkv => hEV k2 v2 (by simp [hkv]))
      (fun k2 v2 hkv => hPK k2 v2 (by simp [hkv]))
      (fun k2 v2 hkv => hPV k2 v2 (by simp [hkv]))
      (fun k2 v2 hkv => hvne k2 v2 (by simp [hkv]))
    simp only [encEntries] at hqr
    simp only [List.length_cons, unpEntries]
    rw [show encValue k ++ encValue v ++ encEntries es =
        encValue k ++ (encValue v ++ encEntries es) from by simp] at hqr
    rcases List.append_eq_append_iff.mp hqr with ⟨a', ha1, ha2⟩ | ⟨c', hc1, hc2⟩
    · subst ha1
      obtain ⟨rk, hrk⟩ := hEK k v (by simp) pre a'
      have hb1 : pre ++ (encValue k ++ a') = pre ++ encValue k ++ a' := by simp
      rw [hb1, hrk]
      have hb2 : pre ++ encValue k ++ a' = (pre ++ encValue k) ++ a' := by simp
      have hp2 : pre.length + (encValue k).length = (pre ++ encValue k).length := by simp
      rw [hb2, hp2]
      rcases List.append_eq_append_iff.mp ha2 with ⟨b', hb1', hb2'⟩ | ⟨d', hd1, hd2⟩
      · subst hb1'
        obtain ⟨rv, hrv⟩ := hEV k v (by simp) (pre ++ encValue k) b'
        have hb3 : (pre ++ encValue k) ++ (encValue v ++ b') =
            (pre ++ encValue k) ++ encValue v ++ b' := by simp
        rw [hb3, hrv]
        have hb4 : (pre ++ encValue k) ++ encValue v ++ b' =
            ((pre ++ encValue k) ++ encValue v) ++ b' := by simp
        have hp4 : (pre ++ encValue k).length + (encValue v).length =
            ((pre ++ encValue k) ++ encValue v).length := by
          simp only [List.length_append]
        rw [hb4, hp4]
        exact ihs ((pre ++ encValue k) ++ encValue v) b' r (insertOrAssign rk rv acc)
          hb2' hrne
      · by_cases hd : d' = []
        · subst hd
          have hqv : encValue v = a' := by simpa using hd1
          have hrr : r = encEntries es := by simpa using hd2
          subst hqv
          obtain ⟨rv, hrv⟩ := hEV k v (by simp) (pre ++ encValue k) []
          have hb3 : (pre ++ encValue k) ++ encValue v =
              (pre ++ encValue k) ++ encValue v ++ ([] : List Nat) := by simp
          rw [hb3, hrv]
          have hb4 : (pre ++ encValue k) ++ encValue v ++ ([] : List Nat) =
              ((pre ++ encValue k) ++ encValue v) ++ ([] : List Nat) := by simp
          have hp4 : (pre ++ encValue k).length + (encValue v).length =
              ((pre ++ encValue k) ++ encValue v).length := by
            simp only [List.length_append]
          rw [hb4, hp4]
          exact ihs ((pre ++ encValue k) ++ encValue v) [] r (insertOrAssign rk rv acc)
            (by rw [hrr]; simp) hrne
        · have hPv := hPV k v (by simp) (pre ++ encValue k) a' d' hd1 hd
          rcases hfv2 : fv ⟨(pre ++ encValue k) ++ a', (pre ++ encValue k).length, none⟩
            with ⟨rv, u2⟩
          rw [hfv2] at hPv
          show (unpEntries fk fv es.length (insertOrAssign rk rv acc) u2).2.ec =
            some UnpackerError.outOfRange
          rw [unpEntries_stuck fk fv hstuckK hstuckV es.length
            (insertOrAssign rk rv acc) u2 (by rw [show u2.ec = (rv, u2).2.ec from rfl, hPv]; rfl)]
          exact hPv
    · by_cases hc : c' = []
      · subst hc
        have hqk : encValue k = q := by simpa using hc1
        have hrr : r = encValue v ++ encEntries es := by simpa using hc2
        subst hqk
        obtain ⟨rk, hrk⟩ := hEK k v (by simp) pre []
        have hb1 : pre ++ encValue k = pre ++ encValue k ++ ([] : List Nat) := by simp
        rw [hb1, hrk]
        have hb2 : pre ++ encValue k ++ ([] : List Nat) =
            (pre ++ encValue k) ++ ([] : List Nat) := by simp
        have hp2 : pre.length + (encValue k).length = (pre ++ encValue k).length := by simp
        rw [hb2, hp2]
        have hPv := hPV k v (by simp) (pre ++ encValue k) [] (encValue v) (by simp)
          (hvne k v (by simp))
        rw [show (pre ++ encValue k) ++ ([] : List Nat) = pre ++ encValue k from by simp]
        rw [show (pre ++ encValue k) ++ ([] : List Nat) = pre ++ encValue k from by simp]
          at hPv
        rcases hfv2 : fv ⟨pre ++ encValue k, (pre ++ encValue k).length, none⟩
          with ⟨rv, u2⟩
        rw [hfv2] at hPv
        show (unpEntries fk fv es.length (insertOrAssign rk rv acc) u2).2.ec =
          some UnpackerError.outOfRange
        rw [unpEntries_stuck fk fv hstuckK hstuckV es.length
          (insertOrAssign rk rv acc) u2 (by rw [show u2.ec = (rv, u2).2.ec from rfl, hPv]; rfl)]
        exact hPv
      · have hPk := hPK k v (by simp) pre q c' hc1 hc
        rcases hfk2 : fk ⟨pre ++ q, pre.length, none⟩ with ⟨rk, u1⟩
        rw [hfk2] at hPk
        rcases hfv2 : fv u1 with ⟨rv, u2⟩
        have hu2 : u2.ec = some .outOfRange := by
          have := hstuckV u1 (by rw [hPk]; rfl)
          rw [hfv2] at this
          rw [show u2 = (rv, u2).2 from rfl, this]
          exact hPk
        show (unpEntries fk fv es.length (insertOrAssign rk rv acc) u2).2.ec =
          some UnpackerError.outOfRange
        rw [unpEntries_stuck fk fv hstuckK hstuckV es.length
          (insertOrAssign rk rv acc) u2 (by rw [hu2]; rfl)]
        exact hu2

theorem wfList_mem (t : Ty) : ∀ (es : List Value), wfList t es = true →
    ∀ v ∈ es, tyOf v = t ∧ wfValue v = true := by
  intro es
  induction es with
  | nil => intro hwf v hv; simp at hv
  | cons e es ih =>
    intro hwf v hv
    simp only [wfList, decide_eq_true_eq] at hwf
    rcases List.mem_cons.mp hv with rfl | hv2
    · exact ⟨hwf.1, hwf.2.1⟩
    · exact ih hwf.2.2 v hv2

theorem wfEntries_mem (kt vt : Ty) : ∀ (es : List (Value × Value)),
    wfEntries kt vt es = true →
    ∀ k v, (k, v) ∈ es →
      tyOf k = kt ∧ tyOf v = vt ∧ wfValue k = true ∧ wfValue v = true := by
  intro es
  induction es with
  | nil => intro hwf k v hv; simp at hv
  | cons e es ih =>
    obtain ⟨k0, v0⟩ := e
    intro hwf k v hv
    simp only [wfEntries, decide_eq_true_eq] at hwf
    rcases List.mem_cons.mp hv with heq | hv2
    · obtain ⟨rfl, rfl⟩ := Prod.mk.injEq _ _ _ _ ▸ heq
      exact ⟨hwf.1, hwf.2.1, hwf.2.2.1, hwf.2.2.2.1⟩
    · exact ih hwf.2.2.2.2 k v hv2

theorem encStrHeader_some (isStr : Bool) (len : Nat) (hlen : len < 4294967295) :
    ∃ h, encStrHeader isStr len = some h := by
  simp only [encStrHeader]
  split_ifs <;> first
    | exact ⟨_, rfl⟩
    | omega

theorem encSeqHeader_some (isMap : Bool) (len : Nat) (hlen : len < 4294967295) :
    ∃ h, encSeqHeader isMap len = some h := by
  simp only [encSeqHeader]
  split_ifs <;> first
    | exact ⟨_, rfl⟩
    | omega

theorem encIntegral_ne_nil (sg : Bool) (w : Nat) (v : Int) :
    encIntegral sg w v ≠ [] := by
  simp only [encIntegral]
  split_ifs <;> simp

theorem encValue_ne_nil (v : Value) (hwf : wfValue v = true) : encValue v ≠ [] := by
  cases v with
  | vint sg w n => exact encIntegral_ne_nil sg w n
  | vbool b => simp [encValue]
  | vnil => simp [encValue]
  | vstr s =>
    simp only [wfValue, decide_eq_true_eq] at hwf
    obtain ⟨h, hh⟩ := encStrHeader_some true s.length hwf.1
    rcases encStrHeader_shape true s.length h hh with ⟨b, rfl, -⟩ | ⟨tag, nb, -, rfl, -⟩ <;>
      simp [encValue, hh]
  | vbin s =>
    simp only [wfValue, decide_eq_true_eq] at hwf
    obtain ⟨h, hh⟩ := encStrHeader_some false s.length hwf.1
    rcases encStrHeader_shape false s.length h hh with ⟨b, rfl, -⟩ | ⟨tag, nb, -, rfl, -⟩ <;>
      simp [encValue, hh]
  | varr t es =>
    simp only [wfValue, decide_eq_true_eq] at hwf
    obtain ⟨h, hh⟩ := encSeqHeader_some false es.length hwf.1
    rcases encSeqHeader_shape false es.length h hh with ⟨b, rfl, -⟩ | ⟨tag, nb, -, rfl, -⟩ <;>
      simp [encValue, hh]
  | vmap kt vt en =>
    simp only [wfValue, decide_eq_true_eq] at hwf
    obtain ⟨h, hh⟩ := encSeqHeader_some true en.length hwf.1
    rcases encSeqHeader_shape true en.length h hh with ⟨b, rfl, -⟩ | ⟨tag, nb, -, rfl, -⟩ <;>
      simp [encValue, hh]

theorem unpackValue_exact : ∀ (t : Ty) (v : Value), tyOf v = t → wfValue v = true →
    ∀ (pre rest : List Nat) (dest : Value), ∃ res,
    unpackValue t dest ⟨pre ++ encValue v ++ rest, pre.length, none⟩ =
      (res, ⟨pre ++ encValue v ++ rest, pre.length + (encValue v).length, none⟩) := by
  intro t
  induction t with
  | tint sg w =>
    intro v hty hwf pre rest dest
    cases v with
    | vint sg2 w2 n =>
      simp only [tyOf, Ty.tint.injEq] at hty
      obtain ⟨rfl, rfl⟩ := hty
      simp only [wfValue, decide_eq_true_eq] at hwf
      obtain ⟨res, hres⟩ := encIntegral_decode sg2 w2 n hwf.1 pre rest dest.intVal
      refine ⟨.vint sg2 w2 res, ?_⟩
      simp only [unpackValue, Option.isSome_none, Bool.false_eq_true, if_false, encValue]
      rw [hres]
    | vbool b => exact absurd hty (by simp [tyOf])
    | vnil => exact absurd hty (by simp [tyOf])
    | vstr s => exact absurd hty (by simp [tyOf])
    | vbin s => exact absurd hty (by simp [tyOf])
    | varr t2 es => exact absurd hty (by simp [tyOf])
    | vmap kt2 vt2 en => exact absurd hty (by simp [tyOf])
  | tbool =>
    intro v hty hwf pre rest dest
    cases v with
    | vbool b =>
      refine ⟨.vbool (decide ((if b then 0xC3 else 0xC2) ≠ 0xC2)), ?_⟩
      simp only [unpackValue, Option.isSome_none, Bool.false_eq_true, if_false, encValue]
      rw [show pre ++ [if b then 0xC3 else 0xC2] ++ rest =
          pre ++ (if b then 0xC3 else 0xC2) :: rest from by simp]
      rw [unpackBool_pre]
      simp
    | vint sg2 w2 n => exact absurd hty (by simp [tyOf])
    | vnil => exact absurd hty (by simp [tyOf])
    | vstr s => exact absurd hty (by simp [tyOf])
    | vbin s => exact absurd hty (by simp [tyOf])
    | varr t2 es => exact absurd hty (by simp [tyOf])
    | vmap kt2 vt2 en => exact absurd hty (by simp [tyOf])
  | tnil =>
    intro v hty hwf pre rest dest
    cases v with
    | vnil =>
      refine ⟨dest, ?_⟩
      simp only [unpackValue, Option.isSome_none, Bool.false_eq_true, if_false, encValue]
      rw [show pre ++ [0xC0] ++ rest = pre ++ 0xC0 :: rest from by simp]
      rw [unpackNil_pre]
      simp
    | vint sg2 w2 n => exact absurd hty (by simp [tyOf])
    | vbool b => exact absurd hty (by simp [tyOf])
    | vstr s => exact absurd hty (by simp [tyOf])
    | vbin s => exact absurd hty (by simp [tyOf])
    | varr t2 es => exact absurd hty (by simp [tyOf])
    | vmap kt2 vt2 en => exact absurd hty (by simp [tyOf])
  | tstr =>
    intro v hty hwf pre rest dest
    cases v with
    | vstr s =>
      simp only [wfValue, decide_eq_true_eq] at hwf
      obtain ⟨h, hh⟩ := encStrHeader_some true s.length hwf.1
      have henc : encValue (.vstr s) = h ++ s.map (· % 256) := by
        simp [encValue, hh]
      obtain ⟨res, hres⟩ := unpackStrOrBin_exact true s h hh pre rest dest.bytesVal
      refine ⟨.vstr res, ?_⟩
      simp only [unpackValue, Option.isSome_none, Bool.false_eq_true, if_false]
      rw [henc, hres]
    | vint sg2 w2 n => exact absurd hty (by simp [tyOf])
    | vbool b => exact absurd hty (by simp [tyOf])
    | vnil => exact absurd hty (by simp [tyOf])
    | vbin s => exact absurd hty (by simp [tyOf])
    | varr t2 es => exact absurd hty (by simp [tyOf])
    | vmap kt2 vt2 en => exact absurd hty (by simp [tyOf])
  | tbin =>
    intro v hty hwf pre rest dest
    cases v with
    | vbin s =>
      simp only [wfValue, decide_eq_true_eq] at hwf
      obtain ⟨h, hh⟩ := encStrHeader_some false s.length hwf.1
      have henc : encValue (.vbin s) = h ++ s.map (· % 256) := by
        simp [encValue, hh]
      obtain ⟨res, hres⟩ := unpackStrOrBin_exact false s h hh pre rest dest.bytesVal
      refine ⟨.vbin res, ?_⟩
      simp only [unpackValue, Option.isSome_none, Bool.false_eq_true, if_false]
      rw [henc, hres]
    | vint sg2 w2 n => exact absurd hty (by simp [tyOf])
    | vbool b => exact absurd hty (by simp [tyOf])
    | vnil => exact absurd hty (by simp [tyOf])
    | vstr s => exact absurd hty (by simp [tyOf])
    | varr t2 es => exact absurd hty (by simp [tyOf])
    | vmap kt2 vt2 en => exact absurd hty (by simp [tyOf])
  | tarr t iht =>
    intro v hty hwf pre rest dest
    cases v with
    | varr t2 es =>
      simp only [tyOf, Ty.tarr.injEq] at hty
      subst hty
      simp only [wfValue, decide_eq_true_eq] at hwf
      obtain ⟨h, hh⟩ := encSeqHeader_some false es.length hwf.1
      have henc : encValue (.varr t2 es) = h ++ encList es := by
        simp [encValue, hh]
      have hE : ∀ e ∈ es, ∀ (pre2 rest2 : List Nat), ∃ res,
          unpackValue t2 (defaultValue t2) ⟨pre2 ++ encValue e ++ rest2, pre2.length, none⟩ =
            (res, ⟨pre2 ++ encValue e ++ rest2,
                   pre2.length + (encValue e).length, none⟩) := by
        intro e he pre2 rest2
        obtain ⟨h1, h2⟩ := wfList_mem t2 es hwf.2 e he
        exact iht e h1 h2 pre2 rest2 (defaultValue t2)
      obtain ⟨acc2, hacc⟩ :=
        unpElems_exact (fun uu => unpackValue t2 (defaultValue t2) uu) es hE (pre ++ h) rest
          dest.arrElems
      refine ⟨.varr t2 acc2, ?_⟩
      simp only [unpackValue, Option.isSome_none, Bool.false_eq_true, if_false]
      rw [henc]
      rw [show pre ++ (h ++ encList es) ++ rest = pre ++ h ++ (encList es ++ rest) from
        by simp]
      rw [readSizeArr_exact false es.length h hh pre (encList es ++ rest)]
      rw [show pre ++ h ++ (encList es ++ rest) = (pre ++ h) ++ encList es ++ rest from
        by simp]
      rw [show pre.length + h.length = (pre ++ h).length from by simp]
      rw [hacc]
      have hfin : (pre ++ h).length + (encList es).length =
          pre.length + (h ++ encList es).length := by
        simp only [List.length_append]
        omega
      rw [hfin]
    | vint sg2 w2 n => exact absurd hty (by simp [tyOf])
    | vbool b => exact absurd hty (by simp [tyOf])
    | vnil => exact absurd hty (by simp [tyOf])
    | vstr s => exact absurd hty (by simp [tyOf])
    | vbin s => exact absurd hty (by simp [tyOf])
    | vmap kt2 vt2 en => exact absurd hty (by simp [tyOf])
  | tmap kt vt ihk ihv =>
    intro v hty hwf pre rest dest
    cases v with
    | vmap kt2 vt2 en =>
      simp only [tyOf, Ty.tmap.injEq] at hty
      obtain ⟨rfl, rfl⟩ := hty
      simp only [wfValue, decide_eq_true_eq] at hwf
      obtain ⟨h, hh⟩ := encSeqHeader_some true en.length hwf.1
      have henc : encValue (.vmap kt2 vt2 en) = h ++ encEntries en := by
        simp [encValue, hh]
      have hEK : ∀ k v2, (k, v2) ∈ en → ∀ (pre2 rest2 : List Nat), ∃ res,
          unpackValue kt2 (defaultValue kt2) ⟨pre2 ++ encValue k ++ rest2, pre2.length, none⟩ =
            (res, ⟨pre2 ++ encValue k ++ rest2,
                   pre2.length + (encValue k).length, none⟩) := by
        intro k v2 hkv pre2 rest2
        obtain ⟨h1, h2, h3, h4⟩ := wfEntries_mem kt2 vt2 en hwf.2 k v2 hkv
        exact ihk k h1 h3 pre2 rest2 (defaultValue kt2)
      have hEV : ∀ k v2, (k, v2) ∈ en → ∀ (pre2 rest2 : List Nat), ∃ res,
          unpackValue vt2 (defaultValue vt2) ⟨pre2 ++ encValue v2 ++ rest2, pre2.length, none⟩ =
            (res, ⟨pre2 ++ encValue v2 ++ rest2,
                   pre2.length + (encValue v2).length, none⟩) := by
        intro k v2 hkv pre2 rest2
        obtain ⟨h1, h2, h3, h4⟩ := wfEntries_mem kt2 vt2 en hwf.2 k v2 hkv
        exact ihv v2 h2 h4 pre2 rest2 (defaultValue vt2)
      obtain ⟨acc2, hacc⟩ :=
        unpEntries_exact (fun uu => unpackValue kt2 (defaultValue kt2) uu)
          (fun uu => unpackValue vt2 (defaultValue vt2) uu) en hEK hEV (pre ++ h) rest
          dest.mapEntries
      refine ⟨.vmap kt2 vt2 acc2, ?_⟩
      simp only [unpackValue, Option.isSome_none, Bool.false_eq_true, if_false]
      rw [henc]
      rw [show pre ++ (h ++ encEntries en) ++ rest = pre ++ h ++ (encEntries en ++ rest) from
        by simp]
      rw [readSizeArr_exact true en.length h hh pre (encEntries en ++ rest)]
      rw [show pre ++ h ++ (encEntries en ++ rest) = (pre ++ h) ++ encEntries en ++ rest from
        by simp]
      rw [show pre.length + h.length = (pre ++ h).length from by simp]
      rw [hacc]
      have hfin : (pre ++ h).length + (encEntries en).length =
          pre.length + (h ++ encEntries en).length := by
        simp only [List.length_append]
        omega
      rw [hfin]
    | vint sg2 w2 n => exact absurd hty (by simp [tyOf])
    | vbool b => exact absurd hty (by simp [tyOf])
    | vnil => exact absurd hty (by simp [tyOf])
    | vstr s => exact absurd hty (by simp [tyOf])
    | vbin s => exact absurd hty (by simp [tyOf])
    | varr t2 es => exact absurd hty (by simp [tyOf])

theorem nilFreeList_mem : ∀ (es : List Value), nilFreeList es = true →
    ∀ e ∈ es, nilFree e = true := by
  intro es
  induction es with
  | nil => intro hnf e he; simp at he
  | cons e2 es2 ih =>
    intro hnf e he
    simp only [nilFreeList, decide_eq_true_eq] at hnf
    rcases List.mem_cons.mp he with rfl | he2
    · exact hnf.1
    · exact ih hnf.2 e he2

theorem nilFreeEntries_mem : ∀ (es : List (Value × Value)), nilFreeEntries es = true →
    ∀ k v, (k, v) ∈ es → nilFree k = true ∧ nilFree v = true := by
  intro es
  induction es with
  | nil => intro hnf k v hkv; simp at hkv
  | cons e2 es2 ih =>
    obtain ⟨k0, v0⟩ := e2
    intro hnf k v hkv
    simp only [nilFreeEntries, decide_eq_true_eq] at hnf
    rcases List.mem_cons.mp hkv with heq | hkv2
    · obtain ⟨rfl, rfl⟩ := Prod.mk.injEq _ _ _ _ ▸ heq
      exact ⟨hnf.1, hnf.2.1⟩
    · exact ih hnf.2.2 k v hkv2

theorem unpackValue_short : ∀ (t : Ty) (v : Value), tyOf v = t → wfValue v = true →
    nilFree v = true →
    ∀ (pre q r : List Nat) (dest : Value), encValue v = q ++ r → r ≠ [] →
    (unpackValue t dest ⟨pre ++ q, pre.length, none⟩).2.ec = some .outOfRange := by
  intro t
  induction t with
  | tint sg w =>
    intro v hty hwf hnf pre q r dest hqr hrne
    cases v with
    | vint sg2 w2 n =>
      simp only [tyOf, Ty.tint.injEq] at hty
      obtain ⟨rfl, rfl⟩ := hty
      simp only [wfValue, decide_eq_true_eq] at hwf
      have hsh := encIntegral_short sg2 w2 n hwf.1 pre q r (by simpa [encValue] using hqr)
        hrne dest.intVal
      simp only [unpackValue, Option.isSome_none, Bool.false_eq_true, if_false]
      rcases hui : unpackIntegral sg2 w2 dest.intVal ⟨pre ++ q, pre.length, none⟩
        with ⟨r0, u1⟩
      rw [hui] at hsh
      exact hsh
    | vbool b => exact absurd hty (by simp [tyOf])
    | vnil => exact absurd hty (by simp [tyOf])
    | vstr s => exact absurd hty (by simp [tyOf])
    | vbin s => exact absurd hty (by simp [tyOf])
    | varr t2 es => exact absurd hty (by simp [tyOf])
    | vmap kt2 vt2 en => exact absurd hty (by simp [tyOf])
  | tbool =>
    intro v hty hwf hnf pre q r dest hqr hrne
    cases v with
    | vbool b =>
      cases q with
      | nil =>
        have := unpackValue_empty .tbool dest pre (by simp)
        rw [show pre ++ ([] : List Nat) = pre from by simp]
        rw [this]
      | cons b' q' =>
        simp only [encValue, List.cons_append] at hqr
        have h2 := (List.cons.injEq _ _ _ _ ▸ hqr).2
        exact absurd (List.append_eq_nil.mp h2.symm).2 hrne
    | vint sg2 w2 n => exact absurd hty (by simp [tyOf])
    | vnil => exact absurd hty (by simp [tyOf])
    | vstr s => exact absurd hty (by simp [tyOf])
    | vbin s => exact absurd hty (by simp [tyOf])
    | varr t2 es => exact absurd hty (by simp [tyOf])
    | vmap kt2 vt2 en => exact absurd hty (by simp [tyOf])
  | tnil =>
    intro v hty hwf hnf pre q r dest hqr hrne
    cases v with
    | vnil => simp [nilFree] at hnf
    | vint sg2 w2 n => exact absurd hty (by simp [tyOf])
    | vbool b => exact absurd hty (by simp [tyOf])
    | vstr s => exact absurd hty (by simp [tyOf])
    | vbin s => exact absurd hty (by simp [tyOf])
    | varr t2 es => exact absurd hty (by simp [tyOf])
    | vmap kt2 vt2 en => exact absurd hty (by simp [tyOf])
  | tstr =>
    intro v hty hwf hnf pre q r dest hqr hrne
    cases v with
    | vstr s =>
      simp only [wfValue, decide_eq_true_eq] at hwf
      obtain ⟨h, hh⟩ := encStrHeader_some true s.length hwf.1
      have henc : encValue (.vstr s) = h ++ s.map (· % 256) := by simp [encValue, hh]
      rw [henc] at hqr
      have hsh := unpackStrOrBin_short true s h hh q r hqr hrne pre dest.bytesVal
      simp only [unpackValue, Option.isSome_none, Bool.false_eq_true, if_false]
      rcases hus : unpackStrOrBin dest.bytesVal ⟨pre ++ q, pre.length, none⟩
        with ⟨r0, u1⟩
      rw [hus] at hsh
      exact hsh
    | vint sg2 w2 n => exact absurd hty (by simp [tyOf])
    | vbool b => exact absurd hty (by simp [tyOf])
    | vnil => exact absurd hty (by simp [tyOf])
    | vbin s => exact absurd hty (by simp [tyOf])
    | varr t2 es => exact absurd hty (by simp [tyOf])
    | vmap kt2 vt2 en => exact absurd hty (by simp [tyOf])
  | tbin =>
    intro v hty hwf hnf pre q r dest hqr hrne
    cases v with
    | vbin s =>
      simp only [wfValue, decide_eq_true_eq] at hwf
      obtain ⟨h, hh⟩ := encStrHeader_some false s.length hwf.1
      have henc : encValue (.vbin s) = h ++ s.map (· % 256) := by simp [encValue, hh]
      rw [henc] at hqr
      have hsh := unpackStrOrBin_short false s h hh q r hqr hrne pre dest.bytesVal
      simp only [unpackValue, Option.isSome_none, Bool.false_eq_true, if_false]
      rcases hus : unpackStrOrBin dest.bytesVal ⟨pre ++ q, pre.length, none⟩
        with ⟨r0, u1⟩
      rw [hus] at hsh
      exact hsh
    | vint sg2 w2 n => exact absurd hty (by simp [tyOf])
    | vbool b => exact absurd hty (by simp [tyOf])
    | vnil => exact absurd hty (by simp [tyOf])
    | vstr s => exact absurd hty (by simp [tyOf])
    | varr t2 es => exact absurd hty (by simp [tyOf])
    | vmap kt2 vt2 en => exact absurd hty (by simp [tyOf])
  | tarr t iht =>
    intro v hty hwf hnf pre q r dest hqr hrne
    cases v with
    | varr t2 es =>
      simp only [tyOf, Ty.tarr.injEq] at hty
      subst hty
      simp only [wfValue, decide_eq_true_eq] at hwf
      simp only [nilFree] at hnf
      obtain ⟨h, hh⟩ := encSeqHeader_some false es.length hwf.1
      have henc : encValue (.varr t2 es) = h ++ encList es := by simp [encValue, hh]
      rw [henc] at hqr
      have hE : ∀ e ∈ es, ∀ (pre2 rest2 : List Nat), ∃ res,
          unpackValue t2 (defaultValue t2) ⟨pre2 ++ encValue e ++ rest2, pre2.length, none⟩ =
            (res, ⟨pre2 ++ encValue e ++ rest2,
                   pre2.length + (encValue e).length, none⟩) := by
        intro e he pre2 rest2
        obtain ⟨h1, h2⟩ := wfList_mem t2 es hwf.2 e he
        exact unpackValue_exact t2 e h1 h2 pre2 rest2 (defaultValue t2)
      have hnfl : ∀ e ∈ es, nilFree e = true := nilFreeList_mem es hnf
      have hP : ∀ e ∈ es, ∀ (pre2 : List Nat) (q2 r2 : List Nat),
          encValue e = q2 ++ r2 → r2 ≠ [] →
          (unpackValue t2 (defaultValue t2) ⟨pre2 ++ q2, pre2.length, none⟩).2.ec =
            some .outOfRange := by
        intro e he pre2 q2 r2 hqr2 hrne2
        obtain ⟨h1, h2⟩ := wfList_mem t2 es hwf.2 e he
        exact iht e h1 h2 (hnfl e he) pre2 q2 r2 (defaultValue t2) hqr2 hrne2
      have hstuck : ∀ u : Unp, u.ec.isSome = true →
          (unpackValue t2 (defaultValue t2) u).2 = u := by
        intro u hu
        rw [unpackValue_stuck t2 (defaultValue t2) u hu]
      simp only [unpackValue, Option.isSome_none, Bool.false_eq_true, if_false]
      rcases List.append_eq_append_iff.mp hqr with ⟨a', ha1, ha2⟩ | ⟨c', hc1, hc2⟩
      · subst ha1
        rw [show pre ++ (h ++ a') = pre ++ h ++ a' from by simp]
        rw [readSizeArr_exact false es.length h hh pre a']
        rw [show pre ++ h ++ a' = (pre ++ h) ++ a' from by simp,
            show pre.length + h.length = (pre ++ h).length from by simp]
        have hsh := unpElems_short (fun uu => unpackValue t2 (defaultValue t2) uu) hstuck
          es hE hP (pre ++ h) a' r dest.arrElems ha2 hrne
        rcases hel : unpElems (fun uu => unpackValue t2 (defaultValue t2) uu) es.length
          dest.arrElems ⟨(pre ++ h) ++ a', (pre ++ h).length, none⟩ with ⟨es2, u2⟩
        rw [hel] at hsh
        exact hsh
      · by_cases hc : c' = []
        · subst hc
          have hqh : h = q := by simpa using hc1
          have hrB : r = encList es := by simpa using hc2
          subst hqh
          rw [show pre ++ h = pre ++ h ++ ([] : List Nat) from by simp]
          rw [readSizeArr_exact false es.length h hh pre []]
          rw [show pre ++ h ++ ([] : List Nat) = (pre ++ h) ++ ([] : List Nat) from by simp,
              show pre.length + h.length = (pre ++ h).length from by simp]
          have hsh := unpElems_short (fun uu => unpackValue t2 (defaultValue t2) uu) hstuck
            es hE hP (pre ++ h) [] r dest.arrElems (by rw [hrB]; simp) hrne
          rcases hel : unpElems (fun uu => unpackValue t2 (defaultValue t2) uu) es.length
            dest.arrElems ⟨(pre ++ h) ++ [], (pre ++ h).length, none⟩ with ⟨es2, u2⟩
          rw [hel] at hsh
          exact hsh
        · have hsh := readSizeArr_short false es.length h hh q c' hc1 hc pre
          rcases hrs : readSizeArr ⟨pre ++ q, pre.length, none⟩ with ⟨sz, u1⟩
          rw [hrs] at hsh
          have hloop := unpElems_stuck (fun uu => unpackValue t2 (defaultValue t2) uu)
            hstuck sz dest.arrElems u1 (by rw [show u1.ec = (sz, u1).2.ec from rfl, hsh]; rfl)
          rcases hel : unpElems (fun uu => unpackValue t2 (defaultValue t2) uu) sz
            dest.arrElems u1 with ⟨es2, u2⟩
          rw [hel] at hloop
          show u2.ec = some .outOfRange
          rw [show u2 = (es2, u2).2 from rfl, hloop]
          exact hsh
    | vint sg2 w2 n => exact absurd hty (by simp [tyOf])
    | vbool b => exact absurd hty (by simp [tyOf])
    | vnil => exact absurd hty (by simp [tyOf])
    | vstr s => exact absurd hty (by simp [tyOf])
    | vbin s => exact absurd hty (by simp [tyOf])
    | vmap kt2 vt2 en => exact absurd hty (by simp [tyOf])
  | tmap kt vt ihk ihv =>
    intro v hty hwf hnf pre q r dest hqr hrne
    cases v with
    | vmap kt2 vt2 en =>
      simp only [tyOf, Ty.tmap.injEq] at hty
      obtain ⟨rfl, rfl⟩ := hty
      simp only [wfValue, decide_eq_true_eq] at hwf
      simp only [nilFree] at hnf
      obtain ⟨h, hh⟩ := encSeqHeader_some true en.length hwf.1
      have henc : encValue (.vmap kt2 vt2 en) = h ++ encEntries en := by simp [encValue, hh]
      rw [henc] at hqr
      have hnfe : ∀ k v2, (k, v2) ∈ en → nilFree k = true ∧ nilFree v2 = true :=
        fun k v2 hkv => nilFreeEntries_mem en hnf k v2 hkv
      have hEK : ∀ k v2, (k, v2) ∈ en → ∀ (pre2 rest2 : List Nat), ∃ res,
          unpackValue kt2 (defaultValue kt2)
              ⟨pre2 ++ encValue k ++ rest2, pre2.length, none⟩ =
            (res, ⟨pre2 ++ encValue k ++ rest2,
                   pre2.length + (encValue k).length, none⟩) := by
        intro k v2 hkv pre2 rest2
        obtain ⟨h1, h2, h3, h4⟩ := wfEntries_mem kt2 vt2 en hwf.2 k v2 hkv
        exact unpackValue_exact kt2 k h1 h3 pre2 rest2 (defaultValue kt2)
      have hEV : ∀ k v2, (k, v2) ∈ en → ∀ (pre2 rest2 : List Nat), ∃ res,
          unpackValue vt2 (defaultValue vt2)
              ⟨pre2 ++ encValue v2 ++ rest2, pre2.length, none⟩ =
            (res, ⟨pre2 ++ encValue v2 ++ rest2,
                   pre2.length + (encValue v2).length, none⟩) := by
        intro k v2 hkv pre2 rest2
        obtain ⟨h1, h2, h3, h4⟩ := wfEntries_mem kt2 vt2 en hwf.2 k v2 hkv
        exact unpackValue_exact vt2 v2 h2 h4 pre2 rest2 (defaultValue vt2)
      have hPK : ∀ k v2, (k, v2) ∈ en → ∀ (pre2 : List Nat) (q2 r2 : List Nat),
          encValue k = q2 ++ r2 → r2 ≠ [] →
          (unpackValue kt2 (defaultValue kt2) ⟨pre2 ++ q2, pre2.length, none⟩).2.ec =
            some .outOfRange := by
        intro k v2 hkv pre2 q2 r2 hqr2 hrne2
        obtain ⟨h1, h2, h3, h4⟩ := wfEntries_mem kt2 vt2 en hwf.2 k v2 hkv
        exact ihk k h1 h3 (hnfe k v2 hkv).1 pre2 q2 r2 (defaultValue kt2) hqr2 hrne2
      have hPV : ∀ k v2, (k, v2) ∈ en → ∀ (pre2 : List Nat) (q2 r2 : List Nat),
          encValue v2 = q2 ++ r2 → r2 ≠ [] →
          (unpackValue vt2 (defaultValue vt2) ⟨pre2 ++ q2, pre2.length, none⟩).2.ec =
            some .outOfRange := by
        intro k v2 hkv pre2 q2 r2 hqr2 hrne2
        obtain ⟨h1, h2, h3, h4⟩ := wfEntries_mem kt2 vt2 en hwf.2 k v2 hkv
        exact ihv v2 h2 h4 (hnfe k v2 hkv).2 pre2 q2 r2 (defaultValue vt2) hqr2 hrne2
      have hvne : ∀ k v2, (k, v2) ∈ en → encValue v2 ≠ [] := by
        intro k v2 hkv
        obtain ⟨h1, h2, h3, h4⟩ := wfEntries_mem kt2 vt2 en hwf.2 k v2 hkv
        exact encValue_ne_nil v2 h4
      have hstuckK : ∀ u : Unp, u.ec.isSome = true →
          (unpackValue kt2 (defaultValue kt2) u).2 = u := by
        intro u hu
        rw [unpackValue_stuck kt2 (defaultValue kt2) u hu]
      have hstuckV : ∀ u : Unp, u.ec.isSome = true →
          (unpackValue vt2 (defaultValue vt2) u).2 = u := by
        intro u hu
        rw [unpackValue_stuck vt2 (defaultValue vt2) u hu]
      simp only [unpackValue, Option.isSome_none, Bool.false_eq_true, if_false]
      rcases List.append_eq_append_iff.mp hqr with ⟨a', ha1, ha2⟩ | ⟨c', hc1, hc2⟩
      · subst ha1
        rw [show pre ++ (h ++ a') = pre ++ h ++ a' from by simp]
        rw [readSizeArr_exact true en.length h hh pre a']
        rw [show pre ++ h ++ a' = (pre ++ h) ++ a' from by simp,
            show pre.length + h.length = (pre ++ h).length from by simp]
        have hsh := unpEntries_short (fun uu => unpackValue kt2 (defaultValue kt2) uu)
          (fun uu => unpackValue vt2 (defaultValue vt2) uu) hstuckK hstuckV
          en hEK hEV hPK hPV hvne (pre ++ h) a' r dest.mapEntries ha2 hrne
        rcases hel : unpEntries (fun uu => unpackValue kt2 (defaultValue kt2) uu)
          (fun uu => unpackValue vt2 (defaultValue vt2) uu) en.length
          dest.mapEntries ⟨(pre ++ h) ++ a', (pre ++ h).length, none⟩ with ⟨es2, u2⟩
        rw [hel] at hsh
        exact hsh
      · by_cases hc : c' = []
        · subst hc
          have hqh : h = q := by simpa using hc1
          have hrB : r = encEntries en := by simpa using hc2
          subst hqh
          rw [show pre ++ h = pre ++ h ++ ([] : List Nat) from by simp]
          rw [readSizeArr_exact true en.length h hh pre []]
          rw [show pre ++ h ++ ([] : List Nat) = (pre ++ h) ++ ([] : List Nat) from by simp,
              show pre.length + h.length = (pre ++ h).length from by simp]
          have hsh := unpEntries_short (fun uu => unpackValue kt2 (defaultValue kt2) uu)
            (fun uu => unpackValue vt2 (defaultValue vt2) uu) hstuckK hstuckV
            en hEK hEV hPK hPV hvne (pre ++ h) [] r dest.mapEntries (by rw [hrB]; simp) hrne
          rcases hel : unpEntries (fun uu => unpackValue kt2 (defaultValue kt2) uu)
            (fun uu => unpackValue vt2 (defaultValue vt2) uu) en.length
            dest.mapEntries ⟨(pre ++ h) ++ [], (pre ++ h).length, none⟩ with ⟨es2, u2⟩
          rw [hel] at hsh
          exact hsh
        · have hsh := readSizeArr_short true en.length h hh q c' hc1 hc pre
          rcases hrs : readSizeArr ⟨pre ++ q, pre.length, none⟩ with ⟨sz, u1⟩
          rw [hrs] at hsh
          have hloop := unpEntries_stuck (fun uu => unpackValue kt2 (defaultValue kt2) uu)
            (fun uu => unpackValue vt2 (defaultValue vt2) uu) hstuckK hstuckV sz
            dest.mapEntries u1 (by rw [show u1.ec = (sz, u1).2.ec from rfl, hsh]; rfl)
          rcases hel : unpEntries (fun uu => unpackValue kt2 (defaultValue kt2) uu)
            (fun uu => unpackValue vt2 (defaultValue vt2) uu) sz
            dest.mapEntries u1 with ⟨es2, u2⟩
          rw [hel] at hloop
          show u2.ec = some .outOfRange
          rw [show u2 = (es2, u2).2 from rfl, hloop]
          exact hsh
    | vint sg2 w2 n => exact absurd hty (by simp [tyOf])
    | vbool b => exact absurd hty (by simp [tyOf])
    | vnil => exact absurd hty (by simp [tyOf])
    | vstr s => exact absurd hty (by simp [tyOf])
    | vbin s => exact absurd hty (by simp [tyOf])
    | varr t2 es => exact absurd hty (by simp [tyOf])

theorem inv_next1 (u u2 : Unp)
    (h : u2.data = u.data ∧ (u.pos ≤ u.data.length + 1 → u2.pos ≤ u.data.length + 1)) :
    (next 1 u2).data = u.data ∧
    (u.pos ≤ u.data.length + 1 → (next 1 u2).pos ≤ u.data.length + 1) := by
  obtain ⟨hd, hp⟩ := h
  refine ⟨by rw [next_data, hd], fun hb => ?_⟩
  have h2 := next_one_bound u2 (by rw [hd]; exact hp hb)
  rw [hd] at h2
  exact h2

theorem inv_rdBE (n : Nat) (u u2 : Unp)
    (h : u2.data = u.data ∧ (u.pos ≤ u.data.length + 1 → u2.pos ≤ u.data.length + 1)) :
    (rdBE n u2).2.data = u.data ∧
    (u.pos ≤ u.data.length + 1 → (rdBE n u2).2.pos ≤ u.data.length + 1) := by
  obtain ⟨hd, hp⟩ := h
  obtain ⟨hd2, -, hp2⟩ := rdBE_inv n u2
  refine ⟨by rw [hd2, hd], fun hb => ?_⟩
  have h2 := hp2 (by rw [hd]; exact hp hb)
  rw [hd] at h2
  exact h2

theorem inv_rdSZ (n : Nat) (u u2 : Unp)
    (h : u2.data = u.data ∧ (u.pos ≤ u.data.length + 1 → u2.pos ≤ u.data.length + 1)) :
    (rdSZ n u2).2.data = u.data ∧
    (u.pos ≤ u.data.length + 1 → (rdSZ n u2).2.pos ≤ u.data.length + 1) := by
  obtain ⟨hd, hp⟩ := h
  obtain ⟨hd2, -, hp2⟩ := rdSZ_inv n u2
  refine ⟨by rw [hd2, hd], fun hb => ?_⟩
  have h2 := hp2 (by rw [hd]; exact hp hb)
  rw [hd] at h2
  exact h2

theorem inv_cb (u : Unp) :
    (currentByte u).2.data = u.data ∧
    (u.pos ≤ u.data.length + 1 → (currentByte u).2.pos ≤ u.data.length + 1) :=
  ⟨currentByte_data u, fun hb => by rw [currentByte_pos]; exact hb⟩

theorem inv_ecset (u u2 : Unp) (e : Option UnpackerError)
    (h : u2.data = u.data ∧ (u.pos ≤ u.data.length + 1 → u2.pos ≤ u.data.length + 1)) :
    ({ u2 with ec := e } : Unp).data = u.data ∧
    (u.pos ≤ u.data.length + 1 → ({ u2 with ec := e } : Unp).pos ≤ u.data.length + 1) :=
  ⟨h.1, h.2⟩

theorem unpackIntegral_inv (sg : Bool) (w : Nat) (dest : Int) (u : Unp) :
    (unpackIntegral sg w dest u).2.data = u.data ∧
    (u.pos ≤ u.data.length + 1 → (unpackIntegral sg w dest u).2.pos ≤ u.data.length + 1) := by
  by_cases hg : u.ec.isSome = true
  · simp [unpackIntegral, hg]
  · have hg2 : u.ec.isSome = false := by simpa using hg
    simp only [unpackIntegral, hg2, Bool.false_eq_true, if_false]
    rcases hcb : currentByte u with ⟨b, u0⟩
    dsimp only
    have hu0 : u0.data = u.data ∧ u0.pos = u.pos := by
      have hc1 := currentByte_data u
      have hc2 := currentByte_pos u
      rw [hcb] at hc1 hc2
      exact ⟨hc1, hc2⟩
    have hbase : u0.data = u.data ∧
        (u.pos ≤ u.data.length + 1 → u0.pos ≤ u.data.length + 1) :=
      ⟨hu0.1, fun hb => by rw [hu0.2]; exact hb⟩
    by_cases h1 : b = 0xD3 ∨ b = 0xCF
    · rw [if_pos h1]
      by_cases hw8 : w < 8
      · rw [if_pos hw8]
        dsimp only
        rw [if_neg (by norm_num : ¬ (0 : Nat) > 0)]
        exact inv_next1 u _ (inv_ecset u _ _ hbase)
      · rw [if_neg hw8]
        dsimp only
        rw [if_pos (by norm_num : (8 : Nat) > 0)]
        dsimp only
        exact inv_rdBE _ u _ (inv_next1 u _ hbase)
    · rw [if_neg h1]
      by_cases h2 : b = 0xD2 ∨ b = 0xCE
      · rw [if_pos h2]
        by_cases hw4 : w < 4
        · rw [if_pos hw4]
          dsimp only
          rw [if_neg (by norm_num : ¬ (0 : Nat) > 0)]
          exact inv_next1 u _ (inv_ecset u _ _ hbase)
        · rw [if_neg hw4]
          dsimp only
          rw [if_pos (by norm_num : (4 : Nat) > 0)]
          dsimp only
          exact inv_rdBE _ u _ (inv_next1 u _ hbase)
      · rw [if_neg h2]
        by_cases h3 : b = 0xD1 ∨ b = 0xCD
        · rw [if_pos h3]
          by_cases hw2 : w < 2
          · rw [if_pos hw2]
            dsimp only
            rw [if_neg (by norm_num : ¬ (0 : Nat) > 0)]
            exact inv_next1 u _ (inv_ecset u _ _ hbase)
          · rw [if_neg hw2]
            dsimp only
            rw [if_pos (by norm_num : (2 : Nat) > 0)]
            dsimp only
            exact inv_rdBE _ u _ (inv_next1 u _ hbase)
        · rw [if_neg h3]
          by_cases h4 : b = 0xD0 ∨ b = 0xCC
          · rw [if_pos h4]
            by_cases hw1 : w < 1
            · rw [if_pos hw1]
              dsimp only
              rw [if_neg (by norm_num : ¬ (0 : Nat) > 0)]
              exact inv_next1 u _ (inv_ecset u _ _ hbase)
            · rw [if_neg hw1]
              dsimp only
              rw [if_pos (by norm_num : (1 : Nat) > 0)]
              dsimp only
              exact inv_rdBE _ u _ (inv_next1 u _ hbase)
          · rw [if_neg h4]
            by_cases h5 : b &&& 0x80 = 0 ∨ b &&& 0xE0 = 0xE0
            · rw [if_pos h5]
              dsimp only
              rw [if_neg (by norm_num : ¬ (0 : Nat) > 0)]
              exact inv_next1 u _ hbase
            · rw [if_neg h5]
              dsimp only
              rw [if_neg (by norm_num : ¬ (0 : Nat) > 0)]
              exact inv_next1 u _ (inv_ecset u _ _ hbase)

theorem unpackBool_inv (dest : Bool) (u : Unp) :
    (unpackBool dest u).2.data = u.data ∧
    (u.pos ≤ u.data.length + 1 → (unpackBool dest u).2.pos ≤ u.data.length + 1) := by
  simp only [unpackBool]
  split_ifs
  · exact ⟨rfl, fun h => h⟩
  · exact inv_next1 u _ (inv_cb u)

theorem unpackNil_inv (u : Unp) :
    (unpackNil u).data = u.data ∧
    (u.pos ≤ u.data.length + 1 → (unpackNil u).pos ≤ u.data.length + 1) := by
  simp only [unpackNil]
  split_ifs
  · exact ⟨rfl, fun h => h⟩
  · exact inv_next1 u u ⟨rfl, fun h => h⟩

theorem readSizeStr_inv (u : Unp) :
    (readSizeStr u).2.data = u.data ∧
    (u.pos ≤ u.data.length + 1 → (readSizeStr u).2.pos ≤ u.data.length + 1) := by
  simp only [readSizeStr]
  split_ifs <;>
    first
      | exact inv_rdSZ _ u _ (inv_next1 u _ (inv_cb u))
      | exact inv_next1 u _
          (⟨by rw [currentByte_data, currentByte_data],
            fun hb => by rw [currentByte_pos, currentByte_pos]; exact hb⟩)

theorem readSizeArr_inv (u : Unp) :
    (readSizeArr u).2.data = u.data ∧
    (u.pos ≤ u.data.length + 1 → (readSizeArr u).2.pos ≤ u.data.length + 1) := by
  simp only [readSizeArr]
  split_ifs <;>
    first
      | exact inv_rdSZ _ u _ (inv_next1 u _ (inv_cb u))
      | exact inv_next1 u _
          (⟨by rw [currentByte_data, currentByte_data],
            fun hb => by rw [currentByte_pos, currentByte_pos]; exact hb⟩)

theorem unpackStrOrBin_inv (dest : List Nat) (u : Unp) :
    (unpackStrOrBin dest u).2.data = u.data ∧
    (u.pos ≤ u.data.length + 1 → (unpackStrOrBin dest u).2.pos ≤ u.data.length + 1) := by
  simp only [unpackStrOrBin]
  split_ifs with h1 h2
  · exact ⟨rfl, fun h => h⟩
  · obtain ⟨hd, hp⟩ := readSizeStr_inv u
    rw [hd] at h2
    refine ⟨by rw [next_data, hd], fun hb => ?_⟩
    simp only [next]
    split_ifs with h3
    · show (readSizeStr u).2.pos + (readSizeStr u).1 ≤ u.data.length + 1
      omega
    · show (readSizeStr u).2.pos ≤ u.data.length + 1
      exact hp hb
  · exact inv_ecset u _ _ (readSizeStr_inv u)

theorem unpElems_inv (f : Unp → Value × Unp)
    (hf : ∀ u : Unp, (f u).2.data = u.data ∧
      (u.pos ≤ u.data.length + 1 → (f u).2.pos ≤ u.data.length + 1)) :
    ∀ (n : Nat) (acc : List Value) (u : Unp),
    (unpElems f n acc u).2.data = u.data ∧
    (u.pos ≤ u.data.length + 1 → (unpElems f n acc u).2.pos ≤ u.data.length + 1) := by
  intro n
  induction n with
  | zero => intro acc u; exact ⟨rfl, fun h => h⟩
  | succ n ih =>
    intro acc u
    simp only [unpElems]
    rcases hfu : f u with ⟨v, u1⟩
    obtain ⟨hd1, hp1⟩ := hf u
    rw [hfu] at hd1 hp1
    obtain ⟨hd2, hp2⟩ := ih (acc ++ [v]) u1
    refine ⟨by rw [hd2, hd1], fun hb => ?_⟩
    have h2 := hp2 (by rw [hd1]; exact hp1 hb)
    rw [hd1] at h2
    exact h2

theorem unpEntries_inv (fk fv : Unp → Value × Unp)
    (hfk : ∀ u : Unp, (fk u).2.data = u.data ∧
      (u.pos ≤ u.data.length + 1 → (fk u).2.pos ≤ u.data.length + 1))
    (hfv : ∀ u : Unp, (fv u).2.data = u.data ∧
      (u.pos ≤ u.data.length + 1 → (fv u).2.pos ≤ u.data.length + 1)) :
    ∀ (n : Nat) (acc : List (Value × Value)) (u : Unp),
    (unpEntries fk fv n acc u).2.data = u.data ∧
    (u.pos ≤ u.data.length + 1 → (unpEntries fk fv n acc u).2.pos ≤ u.data.length + 1) := by
  intro n
  induction n with
  | zero => intro acc u; exact ⟨rfl, fun h => h⟩
  | succ n ih =>
    intro acc u
    simp only [unpEntries]
    rcases hfu : fk u with ⟨k, u1⟩
    obtain ⟨hd1, hp1⟩ := hfk u
    rw [hfu] at hd1 hp1
    rcases hfv2 : fv u1 with ⟨v, u2⟩
    obtain ⟨hd2, hp2⟩ := hfv u1
    rw [hfv2] at hd2 hp2
    obtain ⟨hd3, hp3⟩ := ih (insertOrAssign k v acc) u2
    refine ⟨by rw [hd3, hd2, hd1], fun hb => ?_⟩
    have h2 := hp2 (by rw [hd1]; exact hp1 hb)
    rw [hd1] at h2
    have h3 := hp3 (by rw [hd2, hd1]; exact h2)
    rw [hd2, hd1] at h3
    exact h3

theorem unpackValue_inv : ∀ (t : Ty) (dest : Value) (u : Unp),
    (unpackValue t dest u).2.data = u.data ∧
    (u.pos ≤ u.data.length + 1 → (unpackValue t dest u).2.pos ≤ u.data.length + 1) := by
  intro t
  induction t with
  | tint sg w =>
    intro dest u
    simp only [unpackValue]
    split_ifs
    · exact ⟨rfl, fun h => h⟩
    · rcases hui : unpackIntegral sg w dest.intVal u with ⟨r0, u1⟩
      have h1 := unpackIntegral_inv sg w dest.intVal u
      rw [hui] at h1
      exact h1
  | tbool =>
    intro dest u
    simp only [unpackValue]
    split_ifs
    · exact ⟨rfl, fun h => h⟩
    · rcases hub : unpackBool dest.boolVal u with ⟨r0, u1⟩
      have h1 := unpackBool_inv dest.boolVal u
      rw [hub] at h1
      exact h1
  | tnil =>
    intro dest u
    simp only [unpackValue]
    split_ifs
    · exact ⟨rfl, fun h => h⟩
    · exact unpackNil_inv u
  | tstr =>
    intro dest u
    simp only [unpackValue]
    split_ifs
    · exact ⟨rfl, fun h => h⟩
    · rcases hus : unpackStrOrBin dest.bytesVal u with ⟨r0, u1⟩
      have h1 := unpackStrOrBin_inv dest.bytesVal u
      rw [hus] at h1
      exact h1
  | tbin =>
    intro dest u
    simp only [unpackValue]
    split_ifs
    · exact ⟨rfl, fun h => h⟩
    · rcases hus : unpackStrOrBin dest.bytesVal u with ⟨r0, u1⟩
      have h1 := unpackStrOrBin_inv dest.bytesVal u
      rw [hus] at h1
      exact h1
  | tarr t iht =>
    intro dest u
    simp only [unpackValue]
    split_ifs
    · exact ⟨rfl, fun h => h⟩
    · rcases hrs : readSizeArr u with ⟨sz, u1⟩
      have h1 := readSizeArr_inv u
      rw [hrs] at h1
      rcases hel : unpElems (fun uu => unpackValue t (defaultValue t) uu) sz
        dest.arrElems u1 with ⟨es2, u2⟩
      have h2 := unpElems_inv (fun uu => unpackValue t (defaultValue t) uu)
        (fun uu => iht (defaultValue t) uu) sz dest.arrElems u1
      rw [hel] at h2
      obtain ⟨hd1, hp1⟩ := h1
      obtain ⟨hd2, hp2⟩ := h2
      refine ⟨by rw [show u2 = (es2, u2).2 from rfl, hd2, hd1], fun hb => ?_⟩
      have h3 := hp2 (by rw [hd1]; exact hp1 hb)
      rw [hd1] at h3
      exact h3
  | tmap kt vt ihk ihv =>
    intro dest u
    simp only [unpackValue]
    split_ifs
    · exact ⟨rfl, fun h => h⟩
    · rcases hrs : readSizeArr u with ⟨sz, u1⟩
      have h1 := readSizeArr_inv u
      rw [hrs] at h1
      rcases hel : unpEntries (fun uu => unpackValue kt (defaultValue kt) uu)
        (fun uu => unpackValue vt (defaultValue vt) uu) sz
        dest.mapEntries u1 with ⟨es2, u2⟩
      have h2 := unpEntries_inv (fun uu => unpackValue kt (defaultValue kt) uu)
        (fun uu => unpackValue vt (defaultValue vt) uu)
        (fun uu => ihk (defaultValue kt) uu) (fun uu => ihv (defaultValue vt) uu)
        sz dest.mapEntries u1
      rw [hel] at h2
      obtain ⟨hd1, hp1⟩ := h1
      obtain ⟨hd2, hp2⟩ := h2
      refine ⟨by rw [show u2 = (es2, u2).2 from rfl, hd2, hd1], fun hb => ?_⟩
      have h3 := hp2 (by rw [hd1]; exact hp1 hb)
      rw [hd1] at h3
      exact h3

/-- Counterexample to C5 as stated: the empty buffer is a strict prefix of
the valid nil encoding `C0`, yet `unpack_type<std::nullptr_t>` performs a
blind `next()` without reading a byte, so no `OutOfRange` is set; and the
cursor can legitimately come to rest one past the buffer end (`pos = len+1`),
as decoding the lone uint8 tag byte `CC` shows. -/
theorem truncated_nil_cex :
    encValue .vnil = [] ++ [0xC0] ∧ ([0xC0] : List Nat) ≠ [] ∧
    (unpackValue .tnil .vnil (Unp.init [])).2.ec = none ∧
    (unpackIntegral true 8 0 (Unp.init [0xCC])).2.pos = 2 ∧
    (Unp.init [0xCC]).data.length = 1 := by
  refine ⟨rfl, by decide, rfl, by decide, rfl⟩

/-- Claim C5 (amended): truncated-input safety.  For every well-formed,
nil-free value and every strict prefix `q` of its encoding, running the
type-directed unpacker on `q` sets `OutOfRange`; moreover the buffer is
never written (the data is returned unchanged) and the cursor never
advances beyond one past the buffer end (`pos ≤ len + 1`; it can reach
`len + 1` because `next` advances whenever `pos ≤ len`, so the literal
"never advances past the buffer end" fails, and nil-typed fields detect no
truncation at all — see the counterexample). -/
theorem truncated_unpack (t : Ty) (v : Value) (q r : List Nat) (dest : Value)
    (hty : tyOf v = t) (hwf : wfValue v = true) (hnf : nilFree v = true)
    (henc : encValue v = q ++ r) (hr : r ≠ []) :
    (unpackValue t dest (Unp.init q)).2.ec = some UnpackerError.outOfRange ∧
    (unpackValue t dest (Unp.init q)).2.data = q ∧
    (unpackValue t dest (Unp.init q)).2.pos ≤ q.length + 1 := by
  have hs := unpackValue_short t v hty hwf hnf [] q r dest henc hr
  have hi := unpackValue_inv t dest (Unp.init q)
  exact ⟨hs, hi.1, hi.2 (Nat.zero_le _)⟩

/-- Witness for C5: the 1-byte buffer `A1` is a strict prefix of the
2-byte encoding `A1 41` of the one-character string "A". -/
theorem truncated_unpack_witness :
    tyOf (.vstr [65]) = .tstr ∧ wfValue (.vstr [65]) = true ∧
    nilFree (.vstr [65]) = true ∧
    encValue (.vstr [65]) = [0xA1] ++ [65] ∧ ([65] : List Nat) ≠ [] ∧
    (unpackValue .tstr .vnil (Unp.init [0xA1])).2.ec = some UnpackerError.outOfRange ∧
    (unpackValue .tstr .vnil (Unp.init [0xA1])).2.data = [0xA1] ∧
    (unpackValue .tstr .vnil (Unp.init [0xA1])).2.pos ≤ [0xA1].length + 1 := by
  refine ⟨rfl, by decide, rfl, by decide, by decide, ?_⟩
  exact truncated_unpack .tstr (.vstr [65]) [0xA1] [65] .vnil rfl (by decide) rfl
    (by decide) (by decide)

end Msgpack

namespace Matchit

/-- C7: an exhausted arm list throws `NoMatch` in expression mode and is a
no-op in statement mode; concretely, arms `{1 -> "a", 2 -> "b"}` with
subject `3` raise `NoMatch` (expression mode) and do nothing (statement
mode), and in general the expression-mode call fails with `NoMatch` for
exactly those subjects on which the statement-mode call with the same
patterns executes no handler. -/
theorem no_match_modes :
    (matchPatternsExpr 3 [(Pat.lit 1, fun _ => "a"), (Pat.lit 2, fun _ => "b")] ⟨none, 0⟩
      = (.error .noMatch, ⟨none, 0⟩)) ∧
    (matchPatternsStmt 3 [Pat.lit 1, Pat.lit 2] ⟨none, 0⟩ = (none, ⟨none, 0⟩)) ∧
    (∀ (R : Type) (v : Int) (arms : List (Pat × (Block → R))) (b : Block),
      (matchPatternsExpr v arms b).1 = .error .noMatch ↔
      (matchPatternsStmt v (arms.map Prod.fst) b).1 = none) := by
  refine ⟨rfl, rfl, ?_⟩
  intro R v arms
  induction arms with
  | nil => intro b; simp [matchPatternsExpr, matchPatternsStmt]
  | cons ph rest ih =>
    intro b
    obtain ⟨p, h⟩ := ph
    simp only [matchPatternsExpr, matchPatternsStmt, List.map_cons]
    by_cases hr : (matchPattern v p 0 b).1
    · simp [hr]
    · simp only [hr, Bool.false_eq_true, if_false]
      rw [ih]
      cases hm : (matchPatternsStmt v (rest.map Prod.fst) (matchPattern v p 0 b).2).1 <;>
        simp [hm]

/-- C8: disjunction isolation.  When the left alternative `And(x, g)`
binds `x` to the subject but fails on the predicate `g`, the binding is
rolled back (`process_id` `kCancel` at the alternative's depth) before
`Apply(f, x)` runs, so the succeeding right alternative binds `x` to
`f(subject)` — after the whole `Or` the cell holds `f v`, not `v`. -/
theorem or_rollback (v : Int) (f : Int → Int) (g : Int → Bool) (h : g v = false) :
    matchPattern v (.orP (.andP .idP (.meetP g)) (.appP f .idP)) 0 ⟨none, 0⟩
      = (true, ⟨some (f v), 0⟩) := by
  simp only [matchPattern, matchPatternImpl, processId, Block.matchValue, Block.confirm,
    Block.reset, h]
  norm_num

/-- Witness for C8 at the spec's concrete instance: subject `10` against
`Or(And(x, always-false), Apply(halve, x))` leaves `x` bound to `5`. -/
theorem or_rollback_witness :
    matchPattern 10 (.orP (.andP .idP (.meetP fun _ => false)) (.appP (· / 2) .idP)) 0
        ⟨none, 0⟩ = (true, ⟨some 5, 0⟩) := by
  have h := or_rollback 10 (· / 2) (fun _ => false) rfl
  rw [h]
  norm_num

/-- Counterexample for C9: matching the 2-element list `[123, 456]`
against `ds(123, ooo-binder)` (arity 2, rest binder at index 1) succeeds
and captures `[456]` — the sub-range `[1, 2)` given by the claimed formula
— not the empty range the claim's concrete example asserts (the empty
capture arises for the arity-3 pattern `ds(123, ooo, 456)` instead). -/
theorem ds_ooo_cex :
    dsOooRange [(· == (123 : Int))] [] [123, 456] = (true, some [456]) ∧
    (some [456] : Option (List Int)) ≠ some [] :=
  ⟨by decide, by decide⟩

/-- C9 (amended): whenever a one-`ooo` destructure pattern of arity
`n = pre.length + 1 + post.length` matches a sequence `xs`, the binder
captures exactly the sub-range `[k, len - (n - k - 1))` of the subject,
`k = pre.length`, i.e. `xs` with the leading `k` and trailing
`post.length` elements removed.  (The claim's `[123,456]`-vs-empty
concrete example contradicts this formula; see the counterexample.) -/
theorem ds_ooo_capture (pre post : List (Int → Bool)) (xs : List Int)
    (h : (dsOooRange pre post xs).1 = true) :
    (dsOooRange pre post xs).2 =
      some ((xs.take (xs.length - post.length)).drop pre.length) := by
  have hl : ¬ xs.length < pre.length + 1 + post.length - 1 := by
    intro hcontra
    simp only [dsOooRange, if_pos hcontra] at h
    exact absurd h (by simp)
  have hr1 : ((pre.zip (xs.take pre.length)).all fun fx => fx.1 fx.2) = true := by
    by_contra hc
    simp only [dsOooRange, if_neg hl, Bool.and_eq_true] at h
    exact hc h.1
  simp only [dsOooRange, if_neg hl, hr1, if_true, Option.some.injEq]
  rw [List.drop_take]
  congr 1
  omega

/-- Witness for C9: `[123, 456, 789]` against `ds(123, ooo-binder)`
matches and the binder captures `[456, 789]`. -/
theorem ds_ooo_capture_witness :
    (dsOooRange [(· == (123 : Int))] [] [123, 456, 789]).1 = true ∧
    (dsOooRange [(· == (123 : Int))] [] [123, 456, 789]).2 = some [456, 789] :=
  ⟨by decide, (ds_ooo_capture [(· == (123 : Int))] [] [123, 456, 789] (by decide)).trans
    (by decide)⟩

/-- Identifier-free patterns never touch the context in `process_id`. -/
theorem processId_no_id (p : Pat) (hp : hasId p = false) (d : Int) (pr : IdProc)
    (b : Block) : processId p d pr b = b := by
  induction p generalizing d pr b with
  | lit n => rfl
  | wild => rfl
  | meetP f => rfl
  | idP => exact absurd hp (by simp [hasId])
  | orP a c iha ihc =>
    simp only [hasId, Bool.or_eq_false_iff] at hp
    simp only [processId, iha hp.1, ihc hp.2]
  | andP a c iha ihc =>
    simp only [hasId, Bool.or_eq_false_iff] at hp
    simp only [processId, iha hp.1, ihc hp.2]
  | notP q ihq =>
    simp only [hasId] at hp
    simp only [processId, ihq hp]
  | appP f q ihq =>
    simp only [hasId] at hp
    simp only [processId, ihq hp]

/-- `process_id` at a nonnegative depth keeps the cell's depth
nonnegative. -/
theorem processId_depth (p : Pat) (d : Int) (pr : IdProc) (b : Block)
    (hd : 0 ≤ d) (hb : 0 ≤ b.depth) : 0 ≤ (processId p d pr b).depth := by
  induction p generalizing pr b with
  | lit n => exact hb
  | wild => exact hb
  | meetP f => exact hb
  | idP =>
    cases pr
    · simp only [processId, Block.reset]
      split_ifs <;> simp_all
    · simp only [processId, Block.confirm]
      split_ifs <;> simp_all
  | orP a c iha ihc => exact ihc _ _ (iha _ _ hb)
  | andP a c iha ihc => exact ihc _ _ (iha _ _ hb)
  | notP q ihq => exact ihq _ _ hb
  | appP f q ihq => exact ihq _ _ hb

/-- `Id::match_value` never decreases the cell's depth. -/
theorem matchValue_depth (v : Int) (b : Block) (hb : 0 ≤ b.depth) :
    0 ≤ (b.matchValue v).2.depth := by
  simp only [Block.matchValue]
  cases b.val <;> simpa

/-- Pattern dispatch at a nonnegative depth keeps the cell's depth
nonnegative. -/
theorem impl_depth (v : Int) (p : Pat) (d : Int) (b : Block)
    (hd : 0 ≤ d) (hb : 0 ≤ b.depth) : 0 ≤ (matchPatternImpl v p d b).2.depth := by
  induction p generalizing v d b with
  | lit n => exact hb
  | wild => exact hb
  | meetP f => exact hb
  | idP => exact matchValue_depth v b hb
  | orP a c iha ihc =>
    simp only [matchPatternImpl]
    split_ifs <;>
      first
        | exact processId_depth _ _ _ _ (by omega) (iha v (d + 1) b (by omega) hb)
        | exact processId_depth _ _ _ _ (by omega)
            (ihc v (d + 1) _ (by omega)
              (processId_depth _ _ _ _ (by omega) (iha v (d + 1) b (by omega) hb)))
  | andP a c iha ihc =>
    simp only [matchPatternImpl]
    split_ifs <;>
      first
        | exact processId_depth _ _ _ _ (by omega) (iha v (d + 1) b (by omega) hb)
        | exact processId_depth _ _ _ _ (by omega)
            (ihc v (d + 1) _ (by omega)
              (processId_depth _ _ _ _ (by omega) (iha v (d + 1) b (by omega) hb)))
  | notP q ihq =>
    simp only [matchPatternImpl]
    split_ifs <;>
      exact processId_depth _ _ _ _ (by omega) (ihq v (d + 1) b (by omega) hb)
  | appP f q ihq =>
    simp only [matchPatternImpl]
    split_ifs <;>
      exact processId_depth _ _ _ _ (by omega) (ihq (f v) (d + 1) b (by omega) hb)

/-- Identifier-free patterns never change the context during matching. -/
theorem impl_no_id (v : Int) (p : Pat) (hp : hasId p = false) (d : Int) (b : Block) :
    (matchPatternImpl v p d b).2 = b := by
  induction p generalizing v d b with
  | lit n => rfl
  | wild => rfl
  | meetP f => rfl
  | idP => exact absurd hp (by simp [hasId])
  | orP a c iha ihc =>
    simp only [hasId, Bool.or_eq_false_iff] at hp
    simp only [matchPatternImpl, processId_no_id a hp.1, processId_no_id c hp.2,
      iha _ hp.1, ihc _ hp.2]
    split_ifs <;> rfl
  | andP a c iha ihc =>
    simp only [hasId, Bool.or_eq_false_iff] at hp
    simp only [matchPatternImpl, processId_no_id a hp.1, processId_no_id c hp.2,
      iha _ hp.1, ihc _ hp.2]
    split_ifs <;> rfl
  | notP q ihq =>
    simp only [hasId] at hp
    simp only [matchPatternImpl, processId_no_id q hp, ihq _ hp]
  | appP f q ihq =>
    simp only [hasId] at hp
    simp only [matchPatternImpl, processId_no_id q hp, ihq _ hp]

/-- A depth-0 `kCancel` over a pattern that contains the identifier
empties the cell and returns it to depth 0. -/
theorem processId_cancel0 (p : Pat) (hp : hasId p = true) (b : Block)
    (hb : 0 ≤ b.depth) : processId p 0 .kCancel b = ⟨none, 0⟩ := by
  induction p generalizing b with
  | lit n => simp [hasId] at hp
  | wild => simp [hasId] at hp
  | meetP f => simp [hasId] at hp
  | idP =>
    simp only [processId, Block.reset]
    rw [if_pos (by omega)]
  | orP a c iha ihc =>
    simp only [hasId, Bool.or_eq_true] at hp
    simp only [processId]
    rcases hp with hpa | hpc
    · by_cases hpc2 : hasId c = true
      · exact ihc hpc2 _ (by rw [iha hpa b hb])
      · rw [processId_no_id c (by simpa using hpc2), iha hpa b hb]
    · exact ihc hpc _ (processId_depth a 0 .kCancel b le_rfl hb)
  | andP a c iha ihc =>
    simp only [hasId, Bool.or_eq_true] at hp
    simp only [processId]
    rcases hp with hpa | hpc
    · by_cases hpc2 : hasId c = true
      · exact ihc hpc2 _ (by rw [iha hpa b hb])
      · rw [processId_no_id c (by simpa using hpc2), iha hpa b hb]
    · exact ihc hpc _ (processId_depth a 0 .kCancel b le_rfl hb)
  | notP q ihq =>
    simp only [hasId] at hp
    exact ihq hp b hb
  | appP f q ihq =>
    simp only [hasId] at hp
    exact ihq hp b hb

/-- A failed arm (the unconditional post-dispatch `kCancel` inside
`match_pattern`) hands the next arm an empty depth-0 cell. -/
theorem matchPattern_fail_clean (v : Int) (p : Pat) (b : Block)
    (hr : (matchPattern v p 0 b).1 = false) (hv : b.val = none) (hd : 0 ≤ b.depth) :
    (matchPattern v p 0 b).2.val = none ∧ 0 ≤ (matchPattern v p 0 b).2.depth := by
  by_cases hid : hasId p = true
  · have hs1 : (matchPatternImpl v p 0 b).1 = false := by
      simpa [matchPattern] using hr
    simp only [matchPattern, hs1, Bool.false_eq_true, if_false]
    rw [processId_cancel0 p hid _ (impl_depth v p 0 b le_rfl hd)]
    exact ⟨rfl, le_rfl⟩
  · have hidf : hasId p = false := by simpa using hid
    simp only [matchPattern, processId_no_id p hidf, impl_no_id v p hidf]
    exact ⟨hv, hd⟩

/-- The engine's post-handler depth-0 `kCancel` leaves the cell empty at
depth 0 whatever the arm's outcome bound. -/
theorem matchPattern_cancel_clean (v : Int) (p : Pat) (b : Block)
    (hv : b.val = none) (hd : 0 ≤ b.depth) :
    (processId p 0 .kCancel (matchPattern v p 0 b).2).val = none ∧
    0 ≤ (processId p 0 .kCancel (matchPattern v p 0 b).2).depth := by
  by_cases hid : hasId p = true
  · have hdep : 0 ≤ (matchPattern v p 0 b).2.depth := by
      simp only [matchPattern]
      split_ifs <;>
        exact processId_depth p 0 _ _ le_rfl (impl_depth v p 0 b le_rfl hd)
    rw [processId_cancel0 p hid _ hdep]
    exact ⟨rfl, le_rfl⟩
  · have hidf : hasId p = false := by simpa using hid
    simp only [matchPattern, processId_no_id p hidf, impl_no_id v p hidf]
    exact ⟨hv, hd⟩

/-- Expression-mode `match_patterns` leaves the identifier cell empty. -/
theorem expr_clean {R : Type} (v : Int) (arms : List (Pat × (Block → R))) :
    ∀ b : Block, b.val = none → 0 ≤ b.depth →
      (matchPatternsExpr v arms b).2.val = none ∧
      0 ≤ (matchPatternsExpr v arms b).2.depth := by
  induction arms with
  | nil => intro b hv hd; exact ⟨hv, hd⟩
  | cons ph rest ih =>
    intro b hv hd
    obtain ⟨p, h⟩ := ph
    rcases hmp : matchPattern v p 0 b with ⟨r, b1⟩
    simp only [matchPatternsExpr, hmp]
    cases r
    · have := matchPattern_fail_clean v p b (by rw [hmp]) hv hd
      rw [hmp] at this
      simpa using ih b1 this.1 this.2
    · have := matchPattern_cancel_clean v p b hv hd
      rw [hmp] at this
      simpa using this

/-- Statement-mode `match_patterns` leaves the identifier cell empty. -/
theorem stmt_clean (v : Int) (arms : List Pat) :
    ∀ b : Block, b.val = none → 0 ≤ b.depth →
      (matchPatternsStmt v arms b).2.val = none ∧
      0 ≤ (matchPatternsStmt v arms b).2.depth := by
  induction arms with
  | nil => intro b hv hd; exact ⟨hv, hd⟩
  | cons p rest ih =>
    intro b hv hd
    rcases hmp : matchPattern v p 0 b with ⟨r, b1⟩
    simp only [matchPatternsStmt, hmp]
    cases r
    · have := matchPattern_fail_clean v p b (by rw [hmp]) hv hd
      rw [hmp] at this
      rcases hrec : matchPatternsStmt v rest b1 with ⟨idx, b2⟩
      have h2 := ih b1 this.1 this.2
      rw [hrec] at h2
      simpa using h2
    · have := matchPattern_cancel_clean v p b hv hd
      rw [hmp] at this
      simpa using this

/-- C10: after any top-level `match` call returns — arm matched or not, in
either execution mode — the identifier cell used by the tried arms is
empty (successful arms are cancelled at depth 0 after their handler ran,
failed arms by the unconditional post-dispatch cancel), so dereferencing
the identifier afterwards throws the invalid-state error. -/
theorem match_leaves_ids_empty {R : Type} (v : Int) (armsE : List (Pat × (Block → R)))
    (armsS : List Pat) (b : Block) (hv : b.val = none) (hd : 0 ≤ b.depth) :
    (matchPatternsExpr v armsE b).2.deref = .error () ∧
    (matchPatternsStmt v armsS b).2.deref = .error () := by
  obtain ⟨h1, -⟩ := expr_clean v armsE b hv hd
  obtain ⟨h2, -⟩ := stmt_clean v armsS b hv hd
  exact ⟨by simp [Block.deref, h1], by simp [Block.deref, h2]⟩

/-- Witness for C10: a single successfully matching `Id` arm (which binds
the cell to the subject `5` for its handler) still leaves the cell empty
after the call, in both modes. -/
theorem match_leaves_ids_empty_witness :
    (matchPatternsExpr 5 [(Pat.idP, fun blk => blk.deref)] ⟨none, 0⟩).2.deref
      = .error () ∧
    (matchPatternsStmt 5 [Pat.idP] ⟨none, 0⟩).2.deref = .error () :=
  match_leaves_ids_empty 5 [(Pat.idP, fun blk => blk.deref)] [Pat.idP] ⟨none, 0⟩ rfl
    (by decide)

end Matchit
